import Mathlib

/-! Interest-rate path simulators: embedding and verified properties.

Shallow embedding of the seven simulators of `InterestRateModels`
(`Vasicek.cpp`, `CIR.cpp`, `CEV.cpp`, `CKLS.cpp`, `HoLee.cpp`, `HM.cpp`,
`HJM.cpp`).

Conventions of the embedding:

* `double` values are idealised as elements of a linearly ordered field `K`
  with exact arithmetic; infinities and NaN are outside the model. The one
  rounding that decides a discrete result is kept: the quotient
  `timeHorizon / timeStep`, truncated to the step count, is the rounded
  quotient `CMath.div`, a parameter.
* `int` is the 32-bit two's-complement type; a conversion or an addition that
  leaves its range is undefined behaviour.
* The `<cmath>` functions `std::sqrt`, `std::exp`, `std::pow` are parameters
  (`CMath`), like the rounded division.
* The generator call of loop iteration `i` returns `draw i`.
* Every `operator[]` access is checked: an index outside the vector is
  undefined behaviour.
* A simulator returns the two vectors whose rows `0..N` it writes to the CSV
  file.
-/

namespace InterestRateModels

/-! ## Data model -/

/-- The operations of `double` that the embedding does not compute exactly: the
functions `std::sqrt`, `std::exp`, `std::pow` of `<cmath>`, and `div`, the
division `timeHorizon / timeStep` of two doubles, whose rounded result is what
`static_cast<int>` truncates to the step count. -/
structure CMath (K : Type) where
  sqrt : K → K
  exp : K → K
  pow : K → K → K
  div : K → K → K

/-- The error kinds named in section 7 of the specification. No source file
declares or throws them; they are listed so that the statements about them can
be written down. -/
inductive SimError where
  | InvalidGridError
  | InsufficientParameterLengthError
  | DomainError
  deriving DecidableEq, Repr

/-- How a run of a simulator ends: it completes with a result, it raises one of
the error kinds of the specification, the constructor of `std::vector` throws
`std::length_error`, or the run has undefined behaviour. -/
inductive Outcome (σ : Type) where
  | completed (result : σ)
  | raised (e : SimError)
  | lengthError
  | undefinedBehaviour
  deriving DecidableEq, Repr

/-- Sequencing of runs: the first failure ends the run. -/
def Outcome.bind {σ τ : Type} : Outcome σ → (σ → Outcome τ) → Outcome τ
  | .completed a, f => f a
  | .raised e, _ => .raised e
  | .lengthError, _ => .lengthError
  | .undefinedBehaviour, _ => .undefinedBehaviour

instance : Monad Outcome where
  pure := Outcome.completed
  bind := Outcome.bind

/-- The vectors `timeValues` and `interestRateValues` of a single-path
simulator. -/
structure Path (K : Type) where
  timeValues : List K
  interestRateValues : List K
  deriving DecidableEq, Repr

/-- The vectors `timeValues` and `forwardRateValues` of the HJM simulator. -/
structure ForwardPaths (K : Type) where
  timeValues : List K
  forwardRateValues : List (List K)
  deriving DecidableEq, Repr

/-- Largest value of `int`. -/
def INT_MAX : Int := 2147483647

/-- Smallest value of `int`. -/
def INT_MIN : Int := -2147483648

section Embedding

variable {K : Type} [LinearOrderedField K] [FloorRing K]

/-- The conversion `static_cast<int>(x)`: truncation toward zero, undefined when
the truncated value is not an `int`. -/
def staticCastInt (x : K) : Outcome Int :=
  let n : Int := if 0 ≤ x then ⌊x⌋ else ⌈x⌉
  if INT_MIN ≤ n ∧ n ≤ INT_MAX then .completed n else .undefinedBehaviour

/-- The statement `int numberOfTimeSteps = static_cast<int>(timeHorizon / timeStep)`:
the quotient is the rounded double quotient `m.div timeHorizon timeStep`. A zero
`timeStep` makes the quotient infinite or NaN, which is no `int`. -/
def numberOfTimeSteps (m : CMath K) (timeHorizon timeStep : K) : Outcome Int :=
  if timeStep = 0 then .undefinedBehaviour
  else staticCastInt (m.div timeHorizon timeStep)

/-- The declaration `std::vector<double> v(n + 1)`: `n + 1` is computed in `int`,
converted to `size_t`, and the vector is filled with `0.0`. A negative `n + 1`
converts to a size above `max_size()`. -/
def allocVector (n : Int) : Outcome (List K) :=
  if n = INT_MAX then .undefinedBehaviour
  else if n + 1 < 0 then .lengthError
  else .completed (List.replicate (n + 1).toNat 0)

/-- The assignment `v[i] = x`. -/
def storeAt {α : Type} (v : List α) (i : Nat) (x : α) : Outcome (List α) :=
  if i < v.length then .completed (v.set i x) else .undefinedBehaviour

/-- The read `v[i]`. -/
def loadAt {α : Type} (v : List α) (i : Nat) : Outcome α :=
  match v[i]? with
  | some x => .completed x
  | none => .undefinedBehaviour

/-- The function `simulateVasicekModel` of `Vasicek.cpp`. -/
def simulateVasicekModel (m : CMath K) (draw : Nat → K)
    (meanReversionSpeed longTermInterestRate volatility initialInterestRate
      timeHorizon timeStep : K) : Outcome (Path K) := do
  let numberOfTimeSteps ← numberOfTimeSteps m timeHorizon timeStep
  let timeValues ← allocVector numberOfTimeSteps
  let interestRateValues ← allocVector numberOfTimeSteps
  let interestRateValues ← storeAt interestRateValues 0 initialInterestRate
  (List.range' 1 numberOfTimeSteps.toNat).foldlM (fun (p : Path K) i => do
    let timeValues ← storeAt p.timeValues i ((i : K) * timeStep)
    let randomIncrement := draw i
    let previous ← loadAt p.interestRateValues (i - 1)
    let interestRateValues ← storeAt p.interestRateValues i
      (previous + (meanReversionSpeed * (longTermInterestRate - previous)) * timeStep
        + volatility * m.sqrt timeStep * randomIncrement)
    pure ⟨timeValues, interestRateValues⟩) ⟨timeValues, interestRateValues⟩

/-- The function `simulateCoxIngersollRossModel` of `CIR.cpp`. -/
def simulateCoxIngersollRossModel (m : CMath K) (draw : Nat → K)
    (meanReversionLevel meanReversionRate volatility initialInterestRate
      timeHorizon timeStep : K) : Outcome (Path K) := do
  let numberOfTimeSteps ← numberOfTimeSteps m timeHorizon timeStep
  let timeValues ← allocVector numberOfTimeSteps
  let interestRateValues ← allocVector numberOfTimeSteps
  let interestRateValues ← storeAt interestRateValues 0 initialInterestRate
  (List.range' 1 numberOfTimeSteps.toNat).foldlM (fun (p : Path K) i => do
    let timeValues ← storeAt p.timeValues i ((i : K) * timeStep)
    let randomIncrement := draw i
    let previous ← loadAt p.interestRateValues (i - 1)
    let interestRateValues ← storeAt p.interestRateValues i
      (max 0 (previous + meanReversionRate * (meanReversionLevel - previous) * timeStep
        + volatility * m.sqrt (max 0 previous) * m.sqrt timeStep * randomIncrement))
    pure ⟨timeValues, interestRateValues⟩) ⟨timeValues, interestRateValues⟩

/-- The function `simulateConstantElasticityVarianceModel` of `CEV.cpp`. -/
def simulateConstantElasticityVarianceModel (m : CMath K) (draw : Nat → K)
    (meanReversionRate driftTerm elasticity volatility initialInterestRate
      timeHorizon timeStep : K) : Outcome (Path K) := do
  let numberOfTimeSteps ← numberOfTimeSteps m timeHorizon timeStep
  let timeValues ← allocVector numberOfTimeSteps
  let interestRateValues ← allocVector numberOfTimeSteps
  let interestRateValues ← storeAt interestRateValues 0 initialInterestRate
  (List.range' 1 numberOfTimeSteps.toNat).foldlM (fun (p : Path K) i => do
    let timeValues ← storeAt p.timeValues i ((i : K) * timeStep)
    let randomIncrement := draw i
    let previous ← loadAt p.interestRateValues (i - 1)
    let interestRateValues ← storeAt p.interestRateValues i
      (previous
        + (driftTerm * m.pow previous (elasticity - 1) + meanReversionRate * previous) * timeStep
        + volatility * m.pow previous (elasticity / 2) * m.sqrt timeStep * randomIncrement)
    pure ⟨timeValues, interestRateValues⟩) ⟨timeValues, interestRateValues⟩

/-- The function `simulateChanKarolyiLongstaffSandersModel` of `CKLS.cpp`. -/
def simulateChanKarolyiLongstaffSandersModel (m : CMath K) (draw : Nat → K)
    (driftTerm meanReversionRate elasticity volatility initialInterestRate
      timeHorizon timeStep : K) : Outcome (Path K) := do
  let numberOfTimeSteps ← numberOfTimeSteps m timeHorizon timeStep
  let timeValues ← allocVector numberOfTimeSteps
  let interestRateValues ← allocVector numberOfTimeSteps
  let interestRateValues ← storeAt interestRateValues 0 initialInterestRate
  (List.range' 1 numberOfTimeSteps.toNat).foldlM (fun (p : Path K) i => do
    let timeValues ← storeAt p.timeValues i ((i : K) * timeStep)
    let randomIncrement := draw i
    let previous ← loadAt p.interestRateValues (i - 1)
    let interestRateValues ← storeAt p.interestRateValues i
      (previous + (driftTerm - meanReversionRate * previous) * timeStep
        + volatility * m.pow |previous| elasticity * m.sqrt timeStep * randomIncrement)
    pure ⟨timeValues, interestRateValues⟩) ⟨timeValues, interestRateValues⟩

/-- The function `simulateHoAndLeeModel` of `HoLee.cpp`. -/
def simulateHoAndLeeModel (m : CMath K) (draw : Nat → K)
    (driftTerm volatility timeHorizon timeStep : K) : Outcome (Path K) := do
  let numberOfTimeSteps ← numberOfTimeSteps m timeHorizon timeStep
  let timeValues ← allocVector numberOfTimeSteps
  let interestRateValues ← allocVector numberOfTimeSteps
  let interestRateValues ← storeAt interestRateValues 0 0
  (List.range' 1 numberOfTimeSteps.toNat).foldlM (fun (p : Path K) i => do
    let timeValues ← storeAt p.timeValues i ((i : K) * timeStep)
    let randomIncrement := draw i
    let previous ← loadAt p.interestRateValues (i - 1)
    let currentTime ← loadAt timeValues i
    let interestRateValues ← storeAt p.interestRateValues i
      (previous + driftTerm * currentTime * timeStep
        + volatility * m.sqrt timeStep * randomIncrement)
    pure ⟨timeValues, interestRateValues⟩) ⟨timeValues, interestRateValues⟩

/-- The inner loop `for (int j = 0; j < i; ++j)` of `simulateHullAndWhiteModel`:
the three integrals, each started at `0.0`, after the terms `j = 0 .. i - 1`. -/
def hullWhiteIntegrals (m : CMath K) (thetaValues alphaValues sigmaValues : List K)
    (timeStep randomIncrement : K) (i : Nat) : Outcome (K × K × K) :=
  (List.range i).foldlM (fun (acc : K × K × K) j => do
    let alpha ← loadAt alphaValues j
    let integral1 := acc.1 + alpha * timeStep
    let theta ← loadAt thetaValues j
    let integral2 := acc.2.1 + theta * m.exp (-integral1)
    let sigma ← loadAt sigmaValues j
    let integral3 := acc.2.2 + sigma * m.exp (-integral1) * randomIncrement
    pure (integral1, integral2, integral3)) (0, 0, 0)

/-- The function `simulateHullAndWhiteModel` of `HM.cpp`. -/
def simulateHullAndWhiteModel (m : CMath K) (draw : Nat → K)
    (initialInterestRate : K) (thetaValues alphaValues sigmaValues : List K)
    (timeHorizon timeStep : K) : Outcome (Path K) := do
  let numberOfTimeSteps ← numberOfTimeSteps m timeHorizon timeStep
  let timeValues ← allocVector numberOfTimeSteps
  let interestRateValues ← allocVector numberOfTimeSteps
  let interestRateValues ← storeAt interestRateValues 0 initialInterestRate
  (List.range' 1 numberOfTimeSteps.toNat).foldlM (fun (p : Path K) i => do
    let timeValues ← storeAt p.timeValues i ((i : K) * timeStep)
    let randomIncrement := draw i
    let integrals ← hullWhiteIntegrals m thetaValues alphaValues sigmaValues
      timeStep randomIncrement i
    let interestRateValues ← storeAt p.interestRateValues i
      (initialInterestRate * m.exp (-integrals.1) + integrals.2.1 + integrals.2.2)
    pure ⟨timeValues, interestRateValues⟩) ⟨timeValues, interestRateValues⟩

/-- The declaration `std::vector<std::vector<double>> v(numberOfPaths, row)`:
a negative `numberOfPaths` converts to a size above `max_size()`. -/
def allocRows (numberOfPaths : Int) (row : List K) : Outcome (List (List K)) :=
  if numberOfPaths < 0 then .lengthError
  else .completed (List.replicate numberOfPaths.toNat row)

/-- The inner loop `for (int path = 0; path < numberOfPaths; ++path)` of
`simulateHeathJarrowMortonModel` at step `i`. -/
def advanceForwardRates (m : CMath K) (driftTerm volatility timeStep randomIncrement : K)
    (numberOfPaths : Int) (i : Nat) (forwardRateValues : List (List K)) :
    Outcome (List (List K)) :=
  (List.range numberOfPaths.toNat).foldlM (fun (rows : List (List K)) path => do
    let row ← loadAt rows path
    let previous ← loadAt row (i - 1)
    let row ← storeAt row i
      (previous + driftTerm * timeStep + volatility * m.sqrt timeStep * randomIncrement)
    storeAt rows path row) forwardRateValues

/-- The function `simulateHeathJarrowMortonModel` of `HJM.cpp`. -/
def simulateHeathJarrowMortonModel (m : CMath K) (draw : Nat → K)
    (driftTerm volatility timeHorizon timeStep : K) (numberOfPaths : Int) :
    Outcome (ForwardPaths K) := do
  let numberOfTimeSteps ← numberOfTimeSteps m timeHorizon timeStep
  let timeValues ← allocVector numberOfTimeSteps
  let row ← allocVector numberOfTimeSteps
  let forwardRateValues ← allocRows numberOfPaths row
  (List.range' 1 numberOfTimeSteps.toNat).foldlM (fun (p : ForwardPaths K) i => do
    let timeValues ← storeAt p.timeValues i ((i : K) * timeStep)
    let randomIncrement := draw i
    let forwardRateValues ← advanceForwardRates m driftTerm volatility timeStep
      randomIncrement numberOfPaths i p.forwardRateValues
    pure ⟨timeValues, forwardRateValues⟩) ⟨timeValues, forwardRateValues⟩

end Embedding

instance : LawfulMonad Outcome :=
  LawfulMonad.mk' Outcome (fun x => by cases x <;> rfl) (fun _ _ => rfl)
    (fun x _ _ => by cases x <;> rfl)

/-! ## Sequences and vectors used to state the results -/

section Sequences

variable {K : Type} [LinearOrderedField K]

/-- The vector of size `N + 1` that holds `f k` at every index `k ≤ n` and the
initial `0.0` at the indices not yet written. -/
def prefixVec (f : Nat → K) (n N : Nat) : List K :=
  (List.range (N + 1)).map (fun k => if k ≤ n then f k else 0)

/-- The order properties of the division of doubles that the results use. The
IEEE-754 division, which rounds the exact quotient to the nearest double, has
them: the quotient of a non-negative by a positive double is not negative; the
quotient of a double by one of larger magnitude is of magnitude below `1` (the
exact quotient is at most `1 - 2^-53`, itself a double); the quotient of a
positive double by one not larger is at least `1` (rounding is monotone and `1`
is a double). The exact division of `K` has them too. -/
def RoundedDivision (div : K → K → K) : Prop :=
  (∀ h s : K, 0 ≤ h → 0 < s → 0 ≤ div h s) ∧
  (∀ h s : K, s ≠ 0 → |h| < |s| → |div h s| < 1) ∧
  (∀ h s : K, 0 < s → s ≤ h → 1 ≤ div h s)

/-- The grid point written at index `k`: `k * timeStep`. -/
def gridTime (timeStep : K) (k : Nat) : K := (k : K) * timeStep

/-- The state sequence of the Vasicek loop: `x_0` is the initial rate and
`x_(k+1)` is the right-hand side of the update at `i = k + 1`. -/
def vasicekState (m : CMath K) (draw : Nat → K)
    (meanReversionSpeed longTermInterestRate volatility initialInterestRate timeStep : K) :
    Nat → K
  | 0 => initialInterestRate
  | k + 1 =>
    vasicekState m draw meanReversionSpeed longTermInterestRate volatility
        initialInterestRate timeStep k
      + (meanReversionSpeed * (longTermInterestRate
          - vasicekState m draw meanReversionSpeed longTermInterestRate volatility
              initialInterestRate timeStep k)) * timeStep
      + volatility * m.sqrt timeStep * draw (k + 1)

/-- The state sequence of the CIR loop. -/
def cirState (m : CMath K) (draw : Nat → K)
    (meanReversionLevel meanReversionRate volatility initialInterestRate timeStep : K) : Nat → K
  | 0 => initialInterestRate
  | k + 1 =>
    max 0 (cirState m draw meanReversionLevel meanReversionRate volatility initialInterestRate timeStep k
      + meanReversionRate * (meanReversionLevel - cirState m draw meanReversionLevel meanReversionRate volatility initialInterestRate timeStep k) * timeStep
      + volatility * m.sqrt (max 0 (cirState m draw meanReversionLevel meanReversionRate volatility initialInterestRate timeStep k)) * m.sqrt timeStep * draw (k + 1))

/-- The state sequence of the CEV loop. -/
def cevState (m : CMath K) (draw : Nat → K)
    (meanReversionRate driftTerm elasticity volatility initialInterestRate timeStep : K) : Nat → K
  | 0 => initialInterestRate
  | k + 1 =>
    cevState m draw meanReversionRate driftTerm elasticity volatility initialInterestRate timeStep k
      + (driftTerm * m.pow (cevState m draw meanReversionRate driftTerm elasticity volatility initialInterestRate timeStep k) (elasticity - 1) + meanReversionRate * cevState m draw meanReversionRate driftTerm elasticity volatility initialInterestRate timeStep k) * timeStep
      + volatility * m.pow (cevState m draw meanReversionRate driftTerm elasticity volatility initialInterestRate timeStep k) (elasticity / 2) * m.sqrt timeStep * draw (k + 1)

/-- The state sequence of the CKLS loop. -/
def cklsState (m : CMath K) (draw : Nat → K)
    (driftTerm meanReversionRate elasticity volatility initialInterestRate timeStep : K) : Nat → K
  | 0 => initialInterestRate
  | k + 1 =>
    cklsState m draw driftTerm meanReversionRate elasticity volatility initialInterestRate timeStep k
      + (driftTerm - meanReversionRate * cklsState m draw driftTerm meanReversionRate elasticity volatility initialInterestRate timeStep k) * timeStep
      + volatility * m.pow |cklsState m draw driftTerm meanReversionRate elasticity volatility initialInterestRate timeStep k| elasticity * m.sqrt timeStep * draw (k + 1)

/-- The state sequence of the Ho-Lee loop; the drift reads the grid point just written. -/
def hoLeeState (m : CMath K) (draw : Nat → K)
    (driftTerm volatility timeStep : K) : Nat → K
  | 0 => 0
  | k + 1 =>
    hoLeeState m draw driftTerm volatility timeStep k
      + driftTerm * gridTime timeStep (k + 1) * timeStep
      + volatility * m.sqrt timeStep * draw (k + 1)

/-- The values of `integral1`, `integral2`, `integral3` after the inner loop of
step `i`, read with in-range indices. -/
def hullWhiteSums (m : CMath K) (thetaValues alphaValues sigmaValues : List K)
    (timeStep randomIncrement : K) (i : Nat) : K × K × K :=
  (List.range i).foldl (fun (acc : K × K × K) j =>
    (acc.1 + alphaValues.getD j 0 * timeStep,
     acc.2.1 + thetaValues.getD j 0 * m.exp (-(acc.1 + alphaValues.getD j 0 * timeStep)),
     acc.2.2 + sigmaValues.getD j 0 * m.exp (-(acc.1 + alphaValues.getD j 0 * timeStep))
        * randomIncrement)) (0, 0, 0)

/-- The state sequence of the Hull-White loop. -/
def hullWhiteState (m : CMath K) (draw : Nat → K) (initialInterestRate : K)
    (thetaValues alphaValues sigmaValues : List K) (timeStep : K) : Nat → K
  | 0 => initialInterestRate
  | k + 1 =>
    initialInterestRate
        * m.exp (-(hullWhiteSums m thetaValues alphaValues sigmaValues timeStep
            (draw (k + 1)) (k + 1)).1)
      + (hullWhiteSums m thetaValues alphaValues sigmaValues timeStep
            (draw (k + 1)) (k + 1)).2.1
      + (hullWhiteSums m thetaValues alphaValues sigmaValues timeStep
            (draw (k + 1)) (k + 1)).2.2

/-- The rows of `forwardRateValues` while the inner loop runs: the rows below
index `j` already hold `new`, the others still hold `old`. -/
def mixedRows {α : Type} (new old : α) (j P : Nat) : List α :=
  (List.range P).map (fun p => if p < j then new else old)

/-- The state sequence shared by every HJM path: it starts at the initial `0.0`
of the vector and each step adds the same increment. -/
def hjmState (m : CMath K) (draw : Nat → K) (driftTerm volatility timeStep : K) : Nat → K
  | 0 => 0
  | k + 1 =>
    hjmState m draw driftTerm volatility timeStep k
      + driftTerm * timeStep + volatility * m.sqrt timeStep * draw (k + 1)

/-- The time-grid contract for `N` steps of size `timeStep`: `N + 1` points, the
first one `0`, the `k`-th one `k * timeStep`, consecutive points `timeStep` apart,
strictly increasing. -/
def IsTimeGrid (timeStep : K) (N : Nat) (timeValues : List K) : Prop :=
  timeValues.length = N + 1 ∧
  timeValues[0]? = some 0 ∧
  (∀ k, k ≤ N → timeValues[k]? = some ((k : K) * timeStep)) ∧
  (∀ k, k < N → ∃ a b, timeValues[k]? = some a ∧ timeValues[k + 1]? = some b
    ∧ b - a = timeStep) ∧
  timeValues.Pairwise (fun a b => a < b)

end Sequences

section Contracts

variable {K : Type} [LinearOrderedField K] [FloorRing K]

/-- Every simulator, whatever its model parameters, completes on the grid
`(timeHorizon, timeStep)` with the single row of index `0`: time `0` and the
initial condition (the supplied initial rate; `0` for Ho-Lee and for each HJM
path). -/
def EverySimulatorReturnsOneRow (m : CMath K) (draw : Nat → K) (timeHorizon timeStep : K) :
    Prop :=
  (∀ a b c x0, simulateVasicekModel m draw a b c x0 timeHorizon timeStep
    = .completed ⟨[0], [x0]⟩) ∧
  (∀ a b c x0, simulateCoxIngersollRossModel m draw a b c x0 timeHorizon timeStep
    = .completed ⟨[0], [x0]⟩) ∧
  (∀ a b c d x0, simulateConstantElasticityVarianceModel m draw a b c d x0 timeHorizon timeStep
    = .completed ⟨[0], [x0]⟩) ∧
  (∀ a b c d x0, simulateChanKarolyiLongstaffSandersModel m draw a b c d x0 timeHorizon
    timeStep = .completed ⟨[0], [x0]⟩) ∧
  (∀ a b, simulateHoAndLeeModel m draw a b timeHorizon timeStep = .completed ⟨[0], [0]⟩) ∧
  (∀ x0 thetaValues alphaValues sigmaValues,
    simulateHullAndWhiteModel m draw x0 thetaValues alphaValues sigmaValues timeHorizon
      timeStep = .completed ⟨[0], [x0]⟩) ∧
  (∀ a b (numberOfPaths : Nat),
    simulateHeathJarrowMortonModel m draw a b timeHorizon timeStep (numberOfPaths : Int)
      = .completed ⟨[0], List.replicate numberOfPaths [0]⟩)

end Contracts

section PathContracts

variable {K : Type} [LinearOrderedField K]

/-- A single-path result of `N + 1` rows whose row `0` is `(0, x0)`. -/
def HasInitialRow (N : Nat) (x0 : K) (p : Path K) : Prop :=
  p.timeValues.length = N + 1 ∧ p.interestRateValues.length = N + 1 ∧
  p.timeValues[0]? = some 0 ∧ p.interestRateValues[0]? = some x0

/-- An HJM result of `N + 1` rows and `P` paths whose row `0` is `0` followed by
`0` for each path. -/
def HasInitialForwardRow (N P : Nat) (fp : ForwardPaths K) : Prop :=
  fp.timeValues.length = N + 1 ∧ fp.timeValues[0]? = some 0 ∧
  fp.forwardRateValues.length = P ∧
  ∀ row ∈ fp.forwardRateValues, row.length = N + 1 ∧ row[0]? = some 0

/-- The quantity `A_n = timeStep * (alpha_0 + ... + alpha_(n-1))` of the closed
form of the Hull-White state. -/
def cumulativeAlpha (alphaValues : List K) (timeStep : K) (n : Nat) : K :=
  timeStep * ∑ l in Finset.range n, alphaValues.getD l 0

/-- The incremental scheme of the specification for Hull-White: the integrals
`(I1, I2, I3)` are carried across the steps; step `i + 1` adds
`alpha_i * timeStep` to `I1`, then `theta_i * exp(-I1)` to `I2` and
`sigma_i * exp(-I1) * d_(i+1)` to `I3`. -/
def hullWhiteIncremental (m : CMath K) (draw : Nat → K)
    (thetaValues alphaValues sigmaValues : List K) (timeStep : K) : Nat → K × K × K
  | 0 => (0, 0, 0)
  | i + 1 =>
    ((hullWhiteIncremental m draw thetaValues alphaValues sigmaValues timeStep i).1
        + alphaValues.getD i 0 * timeStep,
     (hullWhiteIncremental m draw thetaValues alphaValues sigmaValues timeStep i).2.1
        + thetaValues.getD i 0
          * m.exp (-((hullWhiteIncremental m draw thetaValues alphaValues sigmaValues
              timeStep i).1 + alphaValues.getD i 0 * timeStep)),
     (hullWhiteIncremental m draw thetaValues alphaValues sigmaValues timeStep i).2.2
        + sigmaValues.getD i 0
          * m.exp (-((hullWhiteIncremental m draw thetaValues alphaValues sigmaValues
              timeStep i).1 + alphaValues.getD i 0 * timeStep))
          * draw (i + 1))

/-- The state of the incremental scheme at step `i`: the initial rate at `i = 0`,
then `x0 * exp(-I1) + I2 + I3` from the carried integrals. -/
def hullWhiteIncrementalState (m : CMath K) (draw : Nat → K) (initialInterestRate : K)
    (thetaValues alphaValues sigmaValues : List K) (timeStep : K) : Nat → K
  | 0 => initialInterestRate
  | i + 1 =>
    initialInterestRate
        * m.exp (-(hullWhiteIncremental m draw thetaValues alphaValues sigmaValues timeStep
            (i + 1)).1)
      + (hullWhiteIncremental m draw thetaValues alphaValues sigmaValues timeStep (i + 1)).2.1
      + (hullWhiteIncremental m draw thetaValues alphaValues sigmaValues timeStep (i + 1)).2.2

/-- The arguments at which `std::pow` reports no domain or pole error: a positive
base, a zero base with a positive exponent, or a negative base with an integer
exponent. -/
def PowDefined [FloorRing K] (base exponent : K) : Prop :=
  0 < base ∨ (base = 0 ∧ 0 < exponent) ∨ (base < 0 ∧ ((⌊exponent⌋ : Int) : K) = exponent)

end PathContracts

/-! ## The run monad -/

section OutcomeLemmas

variable {σ τ : Type}

@[simp] theorem Outcome.pure_eq (a : σ) : (pure a : Outcome σ) = .completed a := rfl

@[simp] theorem Outcome.completed_bind (a : σ) (f : σ → Outcome τ) :
    (Outcome.completed a >>= f) = f a := rfl

@[simp] theorem Outcome.raised_bind (e : SimError) (f : σ → Outcome τ) :
    ((Outcome.raised e : Outcome σ) >>= f) = .raised e := rfl

@[simp] theorem Outcome.lengthError_bind (f : σ → Outcome τ) :
    ((Outcome.lengthError : Outcome σ) >>= f) = .lengthError := rfl

@[simp] theorem Outcome.undefinedBehaviour_bind (f : σ → Outcome τ) :
    ((Outcome.undefinedBehaviour : Outcome σ) >>= f) = .undefinedBehaviour := rfl

/-- A loop over `1 .. M` whose body maps the `n`-th intermediate state to the
next one completes with the `M`-th intermediate state. -/
theorem foldlM_shape (body : σ → Nat → Outcome σ) (shape : Nat → σ) (M : Nat)
    (h : ∀ n, n < M → body (shape n) (n + 1) = .completed (shape (n + 1))) :
    (List.range' 1 M).foldlM body (shape 0) = .completed (shape M) := by
  induction M with
  | zero => rfl
  | succ M ih =>
    rw [List.range'_concat, List.foldlM_append, ih (fun n hn => h n (Nat.lt_succ_of_lt hn))]
    simp [List.foldlM, h M (Nat.lt_succ_self M), Nat.add_comm]

/-- A loop whose body fails with undefined behaviour at the first index ends in
undefined behaviour. -/
theorem foldlM_undefined_head (body : σ → Nat → Outcome σ) (s : σ) (i : Nat) (l : List Nat)
    (h : body s i = .undefinedBehaviour) :
    (i :: l).foldlM body s = .undefinedBehaviour := by
  simp [List.foldlM, h]

/-- A loop over `0 .. M - 1` whose body maps the `j`-th intermediate state to the
next one completes with the `M`-th intermediate state. -/
theorem foldlM_range_shape (body : σ → Nat → Outcome σ) (shape : Nat → σ) (M : Nat)
    (h : ∀ j, j < M → body (shape j) j = .completed (shape (j + 1))) :
    (List.range M).foldlM body (shape 0) = .completed (shape M) := by
  induction M with
  | zero => rfl
  | succ M ih =>
    rw [List.range_succ, List.foldlM_append, ih (fun j hj => h j (Nat.lt_succ_of_lt hj))]
    simp [List.foldlM, h M (Nat.lt_succ_self M)]

/-- A loop whose body never fails on the elements it visits is the pure fold of
the values it computes. -/
theorem foldlM_eq_foldl {ι : Type} (body : σ → ι → Outcome σ) (value : σ → ι → σ)
    (l : List ι) (h : ∀ s i, i ∈ l → body s i = .completed (value s i)) (s : σ) :
    l.foldlM body s = .completed (l.foldl value s) := by
  induction l generalizing s with
  | nil => rfl
  | cons a l ih =>
    rw [List.foldlM_cons, h s a (List.mem_cons_self a l), Outcome.completed_bind, List.foldl_cons]
    exact ih (fun s i hi => h s i (List.mem_cons_of_mem a hi)) _

theorem loadAt_of_lt {α : Type} (v : List α) (i : Nat) (d : α) (h : i < v.length) :
    loadAt v i = .completed (v.getD i d) := by
  unfold loadAt
  rw [List.getD_eq_getElem?_getD, List.getElem?_eq_getElem h]
  rfl

theorem loadAt_of_le {α : Type} (v : List α) (i : Nat) (h : v.length ≤ i) :
    loadAt v i = .undefinedBehaviour := by
  unfold loadAt
  rw [List.getElem?_eq_none h]

end OutcomeLemmas

/-! ## The grid preamble and the vectors -/

section GridLemmas

variable {K : Type} [LinearOrderedField K]

theorem roundedDivision_div : RoundedDivision (fun h s : K => h / s) := by
  refine ⟨fun h s hh hs => div_nonneg hh hs.le, fun h s hne habs => ?_,
    fun h s hs hle => (one_le_div hs).2 hle⟩
  show |h / s| < 1
  rw [abs_div, div_lt_one (abs_pos.2 hne)]
  exact habs

theorem numberOfTimeSteps_eq [FloorRing K] (m : CMath K) (timeHorizon timeStep : K)
    (hs : 0 < timeStep) (hq : 0 ≤ m.div timeHorizon timeStep)
    (hN : ⌊m.div timeHorizon timeStep⌋₊ < 2147483647) :
    numberOfTimeSteps m timeHorizon timeStep
      = .completed ((⌊m.div timeHorizon timeStep⌋₊ : Nat) : Int) := by
  have hfl : ⌊m.div timeHorizon timeStep⌋ = ((⌊m.div timeHorizon timeStep⌋₊ : Nat) : Int) :=
    (Int.natCast_floor_eq_floor hq).symm
  unfold numberOfTimeSteps staticCastInt
  rw [if_neg hs.ne.symm]
  simp only [if_pos hq, hfl]
  rw [if_pos]
  constructor
  · unfold INT_MIN; omega
  · unfold INT_MAX; omega

theorem numberOfTimeSteps_eq_zero [FloorRing K] (m : CMath K) (timeHorizon timeStep : K)
    (hne : timeStep ≠ 0) (habs : |m.div timeHorizon timeStep| < 1) :
    numberOfTimeSteps m timeHorizon timeStep = .completed 0 := by
  have h1 : m.div timeHorizon timeStep < 1 := (abs_lt.1 habs).2
  have h2 : -1 < m.div timeHorizon timeStep := (abs_lt.1 habs).1
  unfold numberOfTimeSteps staticCastInt
  rw [if_neg hne]
  by_cases hq0 : 0 ≤ m.div timeHorizon timeStep
  · have : ⌊m.div timeHorizon timeStep⌋ = 0 := by
      rw [Int.floor_eq_iff]; constructor
      · simpa using hq0
      · simpa using h1
    simp [hq0, this, INT_MIN, INT_MAX]
  · have : ⌈m.div timeHorizon timeStep⌉ = 0 := by
      rw [Int.ceil_eq_iff]; constructor
      · simpa using h2
      · simpa using (not_le.1 hq0).le
    simp [hq0, this, INT_MIN, INT_MAX]

theorem allocVector_natCast (N : Nat) (hN : N < 2147483647) :
    (allocVector (N : Int) : Outcome (List K)) = .completed (List.replicate (N + 1) 0) := by
  unfold allocVector INT_MAX
  rw [if_neg (by omega), if_neg (by omega)]
  congr 2

theorem length_prefixVec (f : Nat → K) (n N : Nat) : (prefixVec f n N).length = N + 1 := by
  simp [prefixVec]

theorem getElem?_prefixVec (f : Nat → K) (n N k : Nat) (hk : k ≤ N) :
    (prefixVec f n N)[k]? = some (if k ≤ n then f k else 0) := by
  simp [prefixVec, List.getElem?_range (Nat.lt_succ_of_le hk)]

theorem getElem?_prefixVec_none (f : Nat → K) (n N k : Nat) (hk : N < k) :
    (prefixVec f n N)[k]? = none := by
  simp [prefixVec]; omega

theorem prefixVec_zero (f : Nat → K) (N : Nat) :
    prefixVec f 0 N = (List.replicate (N + 1) 0).set 0 (f 0) := by
  apply List.ext_getElem?
  intro k
  by_cases hk : k ≤ N
  · rw [getElem?_prefixVec f 0 N k hk, List.getElem?_set]
    by_cases h0 : k = 0
    · subst h0; simp
    · have : ¬ k ≤ 0 := by omega
      simp [this, Ne.symm h0, List.getElem?_replicate, Nat.lt_succ_of_le hk]
  · rw [getElem?_prefixVec_none f 0 N k (by omega), List.getElem?_set]
    have h0 : ¬ (0 = k) := by omega
    have h1 : ¬ k < N + 1 := by omega
    simp [h0, h1, List.getElem?_replicate]

theorem prefixVec_set (f : Nat → K) (n N : Nat) :
    (prefixVec f n N).set (n + 1) (f (n + 1)) = prefixVec f (n + 1) N := by
  apply List.ext_getElem?
  intro k
  by_cases hk : k ≤ N
  · rw [getElem?_prefixVec f (n + 1) N k hk, List.getElem?_set, length_prefixVec]
    by_cases h1 : n + 1 = k
    · subst h1
      simp [Nat.lt_succ_of_le hk]
    · rw [if_neg h1, getElem?_prefixVec f n N k hk]
      have : (k ≤ n + 1) ↔ (k ≤ n) := by omega
      simp [this]
  · rw [getElem?_prefixVec_none f (n + 1) N k (by omega), List.getElem?_set, length_prefixVec]
    by_cases h1 : n + 1 = k
    · subst h1; simp; omega
    · rw [if_neg h1, getElem?_prefixVec_none f n N k (by omega)]

theorem prefixVec_full (f : Nat → K) (N : Nat) :
    prefixVec f N N = (List.range (N + 1)).map f := by
  unfold prefixVec
  apply List.map_congr_left
  intro k hk
  have : k ≤ N := Nat.lt_succ_iff.1 (List.mem_range.1 hk)
  simp [this]

theorem storeAt_prefixVec (f : Nat → K) (n N : Nat) (hn : n < N) :
    storeAt (prefixVec f n N) (n + 1) (f (n + 1)) = .completed (prefixVec f (n + 1) N) := by
  unfold storeAt
  rw [length_prefixVec, if_pos (by omega), prefixVec_set]

theorem loadAt_prefixVec (f : Nat → K) (n N k : Nat) (hk : k ≤ n) (hN : k ≤ N) :
    loadAt (prefixVec f n N) k = .completed (f k) := by
  unfold loadAt
  rw [getElem?_prefixVec f n N k hN, if_pos hk]

end GridLemmas

/-! ## Closed form of the single-path simulators -/

section ClosedForms

variable {K : Type} [LinearOrderedField K]

theorem replicate_set_zero (N : Nat) :
    (List.replicate (N + 1) (0 : K)).set 0 0 = List.replicate (N + 1) 0 := by
  simp [List.replicate_succ]

theorem prefixVec_gridTime_zero (timeStep : K) (N : Nat) :
    prefixVec (gridTime timeStep) 0 N = List.replicate (N + 1) 0 := by
  rw [prefixVec_zero]
  simp [gridTime, List.replicate_succ]

theorem storeAt_gridTime (timeStep : K) (n N : Nat) (hn : n < N) :
    storeAt (prefixVec (gridTime timeStep) n N) (n + 1) (((n + 1 : Nat) : K) * timeStep)
      = .completed (prefixVec (gridTime timeStep) (n + 1) N) :=
  storeAt_prefixVec (gridTime timeStep) n N hn

theorem storeAt_replicate_zero (N : Nat) (x : K) :
    storeAt (List.replicate (N + 1) (0 : K)) 0 x
      = .completed ((List.replicate (N + 1) 0).set 0 x) := by
  simp [storeAt]

/-- A single-path loop started from the freshly allocated vectors, whose body
extends the written prefix by one entry, completes with the full grid and the
full state sequence. -/
theorem singlePath_loop (body : Path K → Nat → Outcome (Path K)) (st : Nat → K)
    (timeStep : K) (N : Nat)
    (hbody : ∀ n, n < N →
      body ⟨prefixVec (gridTime timeStep) n N, prefixVec st n N⟩ (n + 1)
        = .completed ⟨prefixVec (gridTime timeStep) (n + 1) N, prefixVec st (n + 1) N⟩) :
    (List.range' 1 N).foldlM body
        ⟨List.replicate (N + 1) 0, (List.replicate (N + 1) 0).set 0 (st 0)⟩
      = .completed ⟨(List.range (N + 1)).map (gridTime timeStep),
          (List.range (N + 1)).map st⟩ := by
  have h := foldlM_shape body
    (fun n => (⟨prefixVec (gridTime timeStep) n N, prefixVec st n N⟩ : Path K)) N hbody
  simp only [prefixVec_gridTime_zero, prefixVec_zero st, prefixVec_full] at h
  exact h

theorem simulateVasicekModel_eq [FloorRing K] (m : CMath K) (draw : Nat → K)
    (meanReversionSpeed longTermInterestRate volatility initialInterestRate
      timeHorizon timeStep : K)
    (hs : 0 < timeStep) (hq : 0 ≤ m.div timeHorizon timeStep)
    (hN : ⌊m.div timeHorizon timeStep⌋₊ < 2147483647) :
    simulateVasicekModel m draw meanReversionSpeed longTermInterestRate volatility
        initialInterestRate timeHorizon timeStep
      = .completed ⟨(List.range (⌊m.div timeHorizon timeStep⌋₊ + 1)).map (gridTime timeStep),
          (List.range (⌊m.div timeHorizon timeStep⌋₊ + 1)).map
            (vasicekState m draw meanReversionSpeed longTermInterestRate volatility
              initialInterestRate timeStep)⟩ := by
  unfold simulateVasicekModel
  rw [numberOfTimeSteps_eq m timeHorizon timeStep hs hq hN]
  simp only [Outcome.completed_bind, allocVector_natCast _ hN, storeAt_replicate_zero,
    Int.toNat_ofNat]
  apply singlePath_loop _ (vasicekState m draw meanReversionSpeed longTermInterestRate
    volatility initialInterestRate timeStep) timeStep
  intro n hn
  simp only [storeAt_gridTime timeStep n _ hn, Outcome.completed_bind, Nat.add_sub_cancel,
    loadAt_prefixVec _ n _ n (le_refl n) hn.le, Outcome.pure_eq]
  have key := storeAt_prefixVec (vasicekState m draw meanReversionSpeed longTermInterestRate
    volatility initialInterestRate timeStep) n _ hn
  rw [vasicekState] at key
  rw [key]
  rfl

theorem simulateCoxIngersollRossModel_eq [FloorRing K] (m : CMath K) (draw : Nat → K)
    (meanReversionLevel meanReversionRate volatility initialInterestRate timeHorizon timeStep : K)
    (hs : 0 < timeStep) (hq : 0 ≤ m.div timeHorizon timeStep)
    (hN : ⌊m.div timeHorizon timeStep⌋₊ < 2147483647) :
    simulateCoxIngersollRossModel m draw meanReversionLevel meanReversionRate volatility initialInterestRate timeHorizon timeStep
      = .completed ⟨(List.range (⌊m.div timeHorizon timeStep⌋₊ + 1)).map (gridTime timeStep),
          (List.range (⌊m.div timeHorizon timeStep⌋₊ + 1)).map
            (cirState m draw meanReversionLevel meanReversionRate volatility initialInterestRate timeStep)⟩ := by
  unfold simulateCoxIngersollRossModel
  rw [numberOfTimeSteps_eq m timeHorizon timeStep hs hq hN]
  simp only [Outcome.completed_bind, allocVector_natCast _ hN, storeAt_replicate_zero,
    Int.toNat_ofNat]
  apply singlePath_loop _ (cirState m draw meanReversionLevel meanReversionRate volatility initialInterestRate timeStep) timeStep
  intro n hn
  simp only [storeAt_gridTime timeStep n _ hn, Outcome.completed_bind, Nat.add_sub_cancel,
    loadAt_prefixVec _ n _ n (le_refl n) hn.le, Outcome.pure_eq]
  have key := storeAt_prefixVec (cirState m draw meanReversionLevel meanReversionRate volatility initialInterestRate timeStep) n _ hn
  rw [cirState] at key
  rw [key]
  rfl

theorem simulateConstantElasticityVarianceModel_eq [FloorRing K] (m : CMath K) (draw : Nat → K)
    (meanReversionRate driftTerm elasticity volatility initialInterestRate timeHorizon timeStep : K)
    (hs : 0 < timeStep) (hq : 0 ≤ m.div timeHorizon timeStep)
    (hN : ⌊m.div timeHorizon timeStep⌋₊ < 2147483647) :
    simulateConstantElasticityVarianceModel m draw meanReversionRate driftTerm elasticity volatility initialInterestRate timeHorizon timeStep
      = .completed ⟨(List.range (⌊m.div timeHorizon timeStep⌋₊ + 1)).map (gridTime timeStep),
          (List.range (⌊m.div timeHorizon timeStep⌋₊ + 1)).map
            (cevState m draw meanReversionRate driftTerm elasticity volatility initialInterestRate timeStep)⟩ := by
  unfold simulateConstantElasticityVarianceModel
  rw [numberOfTimeSteps_eq m timeHorizon timeStep hs hq hN]
  simp only [Outcome.completed_bind, allocVector_natCast _ hN, storeAt_replicate_zero,
    Int.toNat_ofNat]
  apply singlePath_loop _ (cevState m draw meanReversionRate driftTerm elasticity volatility initialInterestRate timeStep) timeStep
  intro n hn
  simp only [storeAt_gridTime timeStep n _ hn, Outcome.completed_bind, Nat.add_sub_cancel,
    loadAt_prefixVec _ n _ n (le_refl n) hn.le, Outcome.pure_eq]
  have key := storeAt_prefixVec (cevState m draw meanReversionRate driftTerm elasticity volatility initialInterestRate timeStep) n _ hn
  rw [cevState] at key
  rw [key]
  rfl

theorem simulateChanKarolyiLongstaffSandersModel_eq [FloorRing K] (m : CMath K) (draw : Nat → K)
    (driftTerm meanReversionRate elasticity volatility initialInterestRate timeHorizon timeStep : K)
    (hs : 0 < timeStep) (hq : 0 ≤ m.div timeHorizon timeStep)
    (hN : ⌊m.div timeHorizon timeStep⌋₊ < 2147483647) :
    simulateChanKarolyiLongstaffSandersModel m draw driftTerm meanReversionRate elasticity volatility initialInterestRate timeHorizon timeStep
      = .completed ⟨(List.range (⌊m.div timeHorizon timeStep⌋₊ + 1)).map (gridTime timeStep),
          (List.range (⌊m.div timeHorizon timeStep⌋₊ + 1)).map
            (cklsState m draw driftTerm meanReversionRate elasticity volatility initialInterestRate timeStep)⟩ := by
  unfold simulateChanKarolyiLongstaffSandersModel
  rw [numberOfTimeSteps_eq m timeHorizon timeStep hs hq hN]
  simp only [Outcome.completed_bind, allocVector_natCast _ hN, storeAt_replicate_zero,
    Int.toNat_ofNat]
  apply singlePath_loop _ (cklsState m draw driftTerm meanReversionRate elasticity volatility initialInterestRate timeStep) timeStep
  intro n hn
  simp only [storeAt_gridTime timeStep n _ hn, Outcome.completed_bind, Nat.add_sub_cancel,
    loadAt_prefixVec _ n _ n (le_refl n) hn.le, Outcome.pure_eq]
  have key := storeAt_prefixVec (cklsState m draw driftTerm meanReversionRate elasticity volatility initialInterestRate timeStep) n _ hn
  rw [cklsState] at key
  rw [key]
  rfl

theorem simulateHoAndLeeModel_eq [FloorRing K] (m : CMath K) (draw : Nat → K)
    (driftTerm volatility timeHorizon timeStep : K)
    (hs : 0 < timeStep) (hq : 0 ≤ m.div timeHorizon timeStep)
    (hN : ⌊m.div timeHorizon timeStep⌋₊ < 2147483647) :
    simulateHoAndLeeModel m draw driftTerm volatility timeHorizon timeStep
      = .completed ⟨(List.range (⌊m.div timeHorizon timeStep⌋₊ + 1)).map (gridTime timeStep),
          (List.range (⌊m.div timeHorizon timeStep⌋₊ + 1)).map
            (hoLeeState m draw driftTerm volatility timeStep)⟩ := by
  unfold simulateHoAndLeeModel
  rw [numberOfTimeSteps_eq m timeHorizon timeStep hs hq hN]
  simp only [Outcome.completed_bind, allocVector_natCast _ hN, storeAt_replicate_zero,
    Int.toNat_ofNat]
  apply singlePath_loop _ (hoLeeState m draw driftTerm volatility timeStep) timeStep
  intro n hn
  simp only [storeAt_gridTime timeStep n _ hn, Outcome.completed_bind, Nat.add_sub_cancel,
    loadAt_prefixVec _ (n + 1) _ (n + 1) (le_refl _) hn,
    loadAt_prefixVec _ n _ n (le_refl n) hn.le, Outcome.pure_eq]
  have key := storeAt_prefixVec (hoLeeState m draw driftTerm volatility timeStep) n _ hn
  rw [hoLeeState] at key
  rw [key]
  rfl

theorem hullWhiteIntegrals_eq (m : CMath K) (thetaValues alphaValues sigmaValues : List K)
    (timeStep randomIncrement : K) (i : Nat)
    (hθ : i ≤ thetaValues.length) (hα : i ≤ alphaValues.length) (hσ : i ≤ sigmaValues.length) :
    hullWhiteIntegrals m thetaValues alphaValues sigmaValues timeStep randomIncrement i
      = .completed (hullWhiteSums m thetaValues alphaValues sigmaValues timeStep
          randomIncrement i) := by
  unfold hullWhiteIntegrals hullWhiteSums
  apply foldlM_eq_foldl
  intro acc j hj
  have hj : j < i := List.mem_range.1 hj
  rw [loadAt_of_lt alphaValues j 0 (by omega), loadAt_of_lt thetaValues j 0 (by omega),
    loadAt_of_lt sigmaValues j 0 (by omega)]
  rfl

theorem simulateHullAndWhiteModel_eq [FloorRing K] (m : CMath K) (draw : Nat → K)
    (initialInterestRate : K) (thetaValues alphaValues sigmaValues : List K)
    (timeHorizon timeStep : K)
    (hs : 0 < timeStep) (hq : 0 ≤ m.div timeHorizon timeStep)
    (hN : ⌊m.div timeHorizon timeStep⌋₊ < 2147483647)
    (hθ : ⌊m.div timeHorizon timeStep⌋₊ ≤ thetaValues.length)
    (hα : ⌊m.div timeHorizon timeStep⌋₊ ≤ alphaValues.length)
    (hσ : ⌊m.div timeHorizon timeStep⌋₊ ≤ sigmaValues.length) :
    simulateHullAndWhiteModel m draw initialInterestRate thetaValues alphaValues sigmaValues
        timeHorizon timeStep
      = .completed ⟨(List.range (⌊m.div timeHorizon timeStep⌋₊ + 1)).map (gridTime timeStep),
          (List.range (⌊m.div timeHorizon timeStep⌋₊ + 1)).map
            (hullWhiteState m draw initialInterestRate thetaValues alphaValues sigmaValues
              timeStep)⟩ := by
  unfold simulateHullAndWhiteModel
  rw [numberOfTimeSteps_eq m timeHorizon timeStep hs hq hN]
  simp only [Outcome.completed_bind, allocVector_natCast _ hN, storeAt_replicate_zero,
    Int.toNat_ofNat]
  apply singlePath_loop _ (hullWhiteState m draw initialInterestRate thetaValues alphaValues
    sigmaValues timeStep) timeStep
  intro n hn
  simp only [storeAt_gridTime timeStep n _ hn, Outcome.completed_bind, Outcome.pure_eq,
    hullWhiteIntegrals_eq m thetaValues alphaValues sigmaValues timeStep (draw (n + 1)) (n + 1)
      (by omega) (by omega) (by omega)]
  have key := storeAt_prefixVec (hullWhiteState m draw initialInterestRate thetaValues
    alphaValues sigmaValues timeStep) n _ hn
  rw [hullWhiteState] at key
  rw [key]
  rfl

/-! ## Closed form of the HJM simulator -/

theorem length_mixedRows {α : Type} (new old : α) (j P : Nat) :
    (mixedRows new old j P).length = P := by
  simp [mixedRows]

theorem getElem?_mixedRows {α : Type} (new old : α) (j P p : Nat) (hp : p < P) :
    (mixedRows new old j P)[p]? = some (if p < j then new else old) := by
  simp [mixedRows, List.getElem?_range hp]

theorem mixedRows_zero {α : Type} (new old : α) (P : Nat) :
    mixedRows new old 0 P = List.replicate P old := by
  apply List.ext_getElem?
  intro p
  by_cases hp : p < P
  · rw [getElem?_mixedRows new old 0 P p hp]
    simp [List.getElem?_replicate, hp]
  · simp [mixedRows, List.getElem?_replicate, hp]

theorem mixedRows_full {α : Type} (new old : α) (P : Nat) :
    mixedRows new old P P = List.replicate P new := by
  apply List.ext_getElem?
  intro p
  by_cases hp : p < P
  · rw [getElem?_mixedRows new old P P p hp]
    simp [List.getElem?_replicate, hp]
  · simp [mixedRows, List.getElem?_replicate, hp]
    omega

theorem mixedRows_set {α : Type} (new old : α) (j P : Nat) :
    (mixedRows new old j P).set j new = mixedRows new old (j + 1) P := by
  apply List.ext_getElem?
  intro p
  by_cases hp : p < P
  · rw [getElem?_mixedRows new old (j + 1) P p hp, List.getElem?_set, length_mixedRows]
    by_cases h1 : j = p
    · subst h1
      simp [hp]
    · rw [if_neg h1, getElem?_mixedRows new old j P p hp]
      by_cases h2 : p < j
      · have : p < j + 1 := by omega
        simp [h2, this]
      · have : ¬ p < j + 1 := by omega
        simp [h2, this]
  · have hnone : ∀ j, (mixedRows new old j P)[p]? = none := by
      intro j
      simp [mixedRows]
      omega
    rw [hnone, List.getElem?_set, length_mixedRows]
    by_cases h1 : j = p
    · subst h1; simp [hp]
    · rw [if_neg h1, hnone]

theorem prefixVec_hjmState_zero (m : CMath K) (draw : Nat → K)
    (driftTerm volatility timeStep : K) (N : Nat) :
    prefixVec (hjmState m draw driftTerm volatility timeStep) 0 N
      = List.replicate (N + 1) 0 := by
  rw [prefixVec_zero]
  simp [hjmState, List.replicate_succ]

theorem advanceForwardRates_eq (m : CMath K) (draw : Nat → K)
    (driftTerm volatility timeStep : K) (P n N : Nat) (hn : n < N) :
    advanceForwardRates m driftTerm volatility timeStep (draw (n + 1)) (P : Int) (n + 1)
        (List.replicate P (prefixVec (hjmState m draw driftTerm volatility timeStep) n N))
      = .completed
          (List.replicate P (prefixVec (hjmState m draw driftTerm volatility timeStep)
            (n + 1) N)) := by
  unfold advanceForwardRates
  rw [Int.toNat_ofNat]
  have h := foldlM_range_shape
    (fun (rows : List (List K)) path => do
      let row ← loadAt rows path
      let previous ← loadAt row (n + 1 - 1)
      let row ← storeAt row (n + 1)
        (previous + driftTerm * timeStep + volatility * m.sqrt timeStep * draw (n + 1))
      storeAt rows path row)
    (fun j => mixedRows (prefixVec (hjmState m draw driftTerm volatility timeStep) (n + 1) N)
      (prefixVec (hjmState m draw driftTerm volatility timeStep) n N) j P) P ?_
  · simpa only [mixedRows_zero, mixedRows_full] using h
  · intro j hj
    have hload : loadAt (mixedRows
        (prefixVec (hjmState m draw driftTerm volatility timeStep) (n + 1) N)
        (prefixVec (hjmState m draw driftTerm volatility timeStep) n N) j P) j
        = .completed (prefixVec (hjmState m draw driftTerm volatility timeStep) n N) := by
      unfold loadAt
      rw [getElem?_mixedRows _ _ j P j hj]
      simp
    have key := storeAt_prefixVec (hjmState m draw driftTerm volatility timeStep) n N hn
    rw [hjmState] at key
    simp only [hload, Outcome.completed_bind, Nat.add_sub_cancel,
      loadAt_prefixVec _ n N n (le_refl n) hn.le, key]
    unfold storeAt
    rw [length_mixedRows, if_pos hj, mixedRows_set]

theorem simulateHeathJarrowMortonModel_eq [FloorRing K] (m : CMath K) (draw : Nat → K)
    (driftTerm volatility timeHorizon timeStep : K) (P : Nat)
    (hs : 0 < timeStep) (hq : 0 ≤ m.div timeHorizon timeStep)
    (hN : ⌊m.div timeHorizon timeStep⌋₊ < 2147483647) :
    simulateHeathJarrowMortonModel m draw driftTerm volatility timeHorizon timeStep (P : Int)
      = .completed ⟨(List.range (⌊m.div timeHorizon timeStep⌋₊ + 1)).map (gridTime timeStep),
          List.replicate P ((List.range (⌊m.div timeHorizon timeStep⌋₊ + 1)).map
            (hjmState m draw driftTerm volatility timeStep))⟩ := by
  unfold simulateHeathJarrowMortonModel
  rw [numberOfTimeSteps_eq m timeHorizon timeStep hs hq hN]
  have hrows : (allocRows (P : Int) (List.replicate (⌊m.div timeHorizon timeStep⌋₊ + 1) (0 : K)))
      = .completed (List.replicate P (List.replicate (⌊m.div timeHorizon timeStep⌋₊ + 1) 0)) := by
    unfold allocRows
    rw [if_neg (by omega), Int.toNat_ofNat]
  simp only [Outcome.completed_bind, allocVector_natCast _ hN, hrows, Int.toNat_ofNat]
  have h := foldlM_shape
    (fun (p : ForwardPaths K) i => do
      let timeValues ← storeAt p.timeValues i ((i : K) * timeStep)
      let forwardRateValues ← advanceForwardRates m driftTerm volatility timeStep
        (draw i) (P : Int) i p.forwardRateValues
      pure ⟨timeValues, forwardRateValues⟩)
    (fun n => (⟨prefixVec (gridTime timeStep) n ⌊m.div timeHorizon timeStep⌋₊,
      List.replicate P (prefixVec (hjmState m draw driftTerm volatility timeStep) n
        ⌊m.div timeHorizon timeStep⌋₊)⟩ : ForwardPaths K)) ⌊m.div timeHorizon timeStep⌋₊ ?_
  · simpa only [prefixVec_gridTime_zero, prefixVec_hjmState_zero, prefixVec_full] using h
  · intro n hn
    simp only [storeAt_gridTime timeStep n _ hn, Outcome.completed_bind,
      advanceForwardRates_eq m draw driftTerm volatility timeStep P n _ hn, Outcome.pure_eq]

/-! ## Runs with no step -/

theorem allocVector_zero : (allocVector 0 : Outcome (List K)) = .completed [0] := by
  unfold allocVector INT_MAX
  rw [if_neg (by decide), if_neg (by decide)]
  rfl

theorem storeAt_singleton (x : K) : storeAt [(0 : K)] 0 x = .completed [x] := by
  simp [storeAt]

theorem simulateVasicekModel_onePoint [FloorRing K] (m : CMath K) (draw : Nat → K)
    (meanReversionSpeed longTermInterestRate volatility initialInterestRate timeHorizon timeStep : K)
    (hne : timeStep ≠ 0) (habs : |m.div timeHorizon timeStep| < 1) :
    simulateVasicekModel m draw meanReversionSpeed longTermInterestRate volatility initialInterestRate timeHorizon timeStep
      = .completed ⟨[0], [initialInterestRate]⟩ := by
  unfold simulateVasicekModel
  rw [numberOfTimeSteps_eq_zero m timeHorizon timeStep hne habs]
  simp only [Outcome.completed_bind, allocVector_zero, storeAt_singleton]
  rfl

theorem simulateCoxIngersollRossModel_onePoint [FloorRing K] (m : CMath K) (draw : Nat → K)
    (meanReversionLevel meanReversionRate volatility initialInterestRate timeHorizon timeStep : K)
    (hne : timeStep ≠ 0) (habs : |m.div timeHorizon timeStep| < 1) :
    simulateCoxIngersollRossModel m draw meanReversionLevel meanReversionRate volatility initialInterestRate timeHorizon timeStep
      = .completed ⟨[0], [initialInterestRate]⟩ := by
  unfold simulateCoxIngersollRossModel
  rw [numberOfTimeSteps_eq_zero m timeHorizon timeStep hne habs]
  simp only [Outcome.completed_bind, allocVector_zero, storeAt_singleton]
  rfl

theorem simulateConstantElasticityVarianceModel_onePoint [FloorRing K] (m : CMath K) (draw : Nat → K)
    (meanReversionRate driftTerm elasticity volatility initialInterestRate timeHorizon timeStep : K)
    (hne : timeStep ≠ 0) (habs : |m.div timeHorizon timeStep| < 1) :
    simulateConstantElasticityVarianceModel m draw meanReversionRate driftTerm elasticity volatility initialInterestRate timeHorizon timeStep
      = .completed ⟨[0], [initialInterestRate]⟩ := by
  unfold simulateConstantElasticityVarianceModel
  rw [numberOfTimeSteps_eq_zero m timeHorizon timeStep hne habs]
  simp only [Outcome.completed_bind, allocVector_zero, storeAt_singleton]
  rfl

theorem simulateChanKarolyiLongstaffSandersModel_onePoint [FloorRing K] (m : CMath K) (draw : Nat → K)
    (driftTerm meanReversionRate elasticity volatility initialInterestRate timeHorizon timeStep : K)
    (hne : timeStep ≠ 0) (habs : |m.div timeHorizon timeStep| < 1) :
    simulateChanKarolyiLongstaffSandersModel m draw driftTerm meanReversionRate elasticity volatility initialInterestRate timeHorizon timeStep
      = .completed ⟨[0], [initialInterestRate]⟩ := by
  unfold simulateChanKarolyiLongstaffSandersModel
  rw [numberOfTimeSteps_eq_zero m timeHorizon timeStep hne habs]
  simp only [Outcome.completed_bind, allocVector_zero, storeAt_singleton]
  rfl

theorem simulateHoAndLeeModel_onePoint [FloorRing K] (m : CMath K) (draw : Nat → K)
    (driftTerm volatility timeHorizon timeStep : K)
    (hne : timeStep ≠ 0) (habs : |m.div timeHorizon timeStep| < 1) :
    simulateHoAndLeeModel m draw driftTerm volatility timeHorizon timeStep
      = .completed ⟨[0], [0]⟩ := by
  unfold simulateHoAndLeeModel
  rw [numberOfTimeSteps_eq_zero m timeHorizon timeStep hne habs]
  simp only [Outcome.completed_bind, allocVector_zero, storeAt_singleton]
  rfl

theorem simulateHullAndWhiteModel_onePoint [FloorRing K] (m : CMath K) (draw : Nat → K)
    (initialInterestRate : K) (thetaValues alphaValues sigmaValues : List K)
    (timeHorizon timeStep : K)
    (hne : timeStep ≠ 0) (habs : |m.div timeHorizon timeStep| < 1) :
    simulateHullAndWhiteModel m draw initialInterestRate thetaValues alphaValues sigmaValues
        timeHorizon timeStep
      = .completed ⟨[0], [initialInterestRate]⟩ := by
  unfold simulateHullAndWhiteModel
  rw [numberOfTimeSteps_eq_zero m timeHorizon timeStep hne habs]
  simp only [Outcome.completed_bind, allocVector_zero, storeAt_singleton]
  rfl

theorem simulateHeathJarrowMortonModel_onePoint [FloorRing K] (m : CMath K) (draw : Nat → K)
    (driftTerm volatility timeHorizon timeStep : K) (P : Nat)
    (hne : timeStep ≠ 0) (habs : |m.div timeHorizon timeStep| < 1) :
    simulateHeathJarrowMortonModel m draw driftTerm volatility timeHorizon timeStep (P : Int)
      = .completed ⟨[0], List.replicate P [0]⟩ := by
  unfold simulateHeathJarrowMortonModel
  rw [numberOfTimeSteps_eq_zero m timeHorizon timeStep hne habs]
  have hrows : (allocRows (P : Int) [(0 : K)]) = .completed (List.replicate P [0]) := by
    unfold allocRows
    rw [if_neg (by omega), Int.toNat_ofNat]
  simp only [Outcome.completed_bind, allocVector_zero, hrows]
  rfl

/-! ## Reading the closed forms -/

theorem getElem?_map_range {α : Type} (f : Nat → α) (N k : Nat) (hk : k ≤ N) :
    ((List.range (N + 1)).map f)[k]? = some (f k) := by
  simp [List.getElem?_range (Nat.lt_succ_of_le hk)]

theorem isTimeGrid_map_range (timeStep : K) (hs : 0 < timeStep) (N : Nat) :
    IsTimeGrid timeStep N ((List.range (N + 1)).map (gridTime timeStep)) := by
  refine ⟨by simp, ?_, ?_, ?_, ?_⟩
  · rw [getElem?_map_range _ N 0 (Nat.zero_le N)]
    simp [gridTime]
  · intro k hk
    rw [getElem?_map_range _ N k hk]
    rfl
  · intro k hk
    refine ⟨gridTime timeStep k, gridTime timeStep (k + 1),
      getElem?_map_range _ N k hk.le, getElem?_map_range _ N (k + 1) hk, ?_⟩
    simp only [gridTime, Nat.cast_add, Nat.cast_one]
    ring
  · rw [List.pairwise_map]
    refine (List.pairwise_lt_range (N + 1)).imp ?_
    intro a b hab
    have : (a : K) < (b : K) := Nat.cast_lt.2 hab
    exact mul_lt_mul_of_pos_right this hs

theorem range'_split (s L n : Nat) (h : L < n) :
    List.range' s n = List.range' s L ++ (s + L) :: List.range' (s + L + 1) (n - L - 1) := by
  obtain ⟨d, rfl⟩ : ∃ d, n = (d + 1) + L := ⟨n - L - 1, by omega⟩
  rw [← List.range'_append_1 s L (d + 1), List.range'_succ]
  congr 3
  omega

/-! ## Hull-White runs with a parameter sequence that is too short -/

theorem hullWhiteIntegrals_short (m : CMath K) (thetaValues alphaValues sigmaValues : List K)
    (timeStep randomIncrement : K) (i : Nat)
    (h : thetaValues.length < i ∨ alphaValues.length < i ∨ sigmaValues.length < i) :
    hullWhiteIntegrals m thetaValues alphaValues sigmaValues timeStep randomIncrement i
      = .undefinedBehaviour := by
  obtain ⟨L, hLi, hθ, hα, hσ, hL⟩ : ∃ L, L < i ∧ L ≤ thetaValues.length
      ∧ L ≤ alphaValues.length ∧ L ≤ sigmaValues.length
      ∧ (thetaValues.length ≤ L ∨ alphaValues.length ≤ L ∨ sigmaValues.length ≤ L) := by
    refine ⟨min thetaValues.length (min alphaValues.length sigmaValues.length), ?_, ?_, ?_, ?_, ?_⟩
      <;> omega
  have hfirst := hullWhiteIntegrals_eq m thetaValues alphaValues sigmaValues timeStep
    randomIncrement L hθ hα hσ
  unfold hullWhiteIntegrals at hfirst ⊢
  rw [List.range_eq_range'] at hfirst ⊢
  rw [range'_split 0 L i hLi, List.foldlM_append, hfirst, Outcome.completed_bind]
  apply foldlM_undefined_head
  rw [Nat.zero_add]
  by_cases h1 : alphaValues.length ≤ L
  · rw [loadAt_of_le alphaValues L h1]; rfl
  · rw [loadAt_of_lt alphaValues L 0 (by omega), Outcome.completed_bind]
    by_cases h2 : thetaValues.length ≤ L
    · rw [loadAt_of_le thetaValues L h2]; rfl
    · rw [loadAt_of_lt thetaValues L 0 (by omega), Outcome.completed_bind]
      have h3 : sigmaValues.length ≤ L := by omega
      rw [loadAt_of_le sigmaValues L h3]; rfl

theorem simulateHullAndWhiteModel_short [FloorRing K] (m : CMath K) (draw : Nat → K)
    (initialInterestRate : K) (thetaValues alphaValues sigmaValues : List K)
    (timeHorizon timeStep : K)
    (hs : 0 < timeStep) (hq : 0 ≤ m.div timeHorizon timeStep)
    (hN : ⌊m.div timeHorizon timeStep⌋₊ < 2147483647)
    (h : thetaValues.length < ⌊m.div timeHorizon timeStep⌋₊
      ∨ alphaValues.length < ⌊m.div timeHorizon timeStep⌋₊
      ∨ sigmaValues.length < ⌊m.div timeHorizon timeStep⌋₊) :
    simulateHullAndWhiteModel m draw initialInterestRate thetaValues alphaValues sigmaValues
        timeHorizon timeStep = .undefinedBehaviour := by
  obtain ⟨L, hLN, hθ, hα, hσ, hL⟩ : ∃ L, L < ⌊m.div timeHorizon timeStep⌋₊
      ∧ L ≤ thetaValues.length ∧ L ≤ alphaValues.length ∧ L ≤ sigmaValues.length
      ∧ (thetaValues.length < L + 1 ∨ alphaValues.length < L + 1
        ∨ sigmaValues.length < L + 1) := by
    refine ⟨min thetaValues.length (min alphaValues.length sigmaValues.length), ?_, ?_, ?_, ?_, ?_⟩
      <;> omega
  unfold simulateHullAndWhiteModel
  rw [numberOfTimeSteps_eq m timeHorizon timeStep hs hq hN]
  simp only [Outcome.completed_bind, allocVector_natCast _ hN, storeAt_replicate_zero,
    Int.toNat_ofNat]
  rw [range'_split 1 L _ hLN, List.foldlM_append]
  have hfirst := foldlM_shape
    (fun (p : Path K) i => do
      let timeValues ← storeAt p.timeValues i ((i : K) * timeStep)
      let integrals ← hullWhiteIntegrals m thetaValues alphaValues sigmaValues
        timeStep (draw i) i
      let interestRateValues ← storeAt p.interestRateValues i
        (initialInterestRate * m.exp (-integrals.1) + integrals.2.1 + integrals.2.2)
      pure ⟨timeValues, interestRateValues⟩)
    (fun n => (⟨prefixVec (gridTime timeStep) n ⌊m.div timeHorizon timeStep⌋₊,
      prefixVec (hullWhiteState m draw initialInterestRate thetaValues alphaValues
        sigmaValues timeStep) n ⌊m.div timeHorizon timeStep⌋₊⟩ : Path K)) L ?_
  · simp only [prefixVec_gridTime_zero, prefixVec_zero (hullWhiteState m draw
      initialInterestRate thetaValues alphaValues sigmaValues timeStep)] at hfirst
    simp only [hullWhiteState] at hfirst
    rw [hfirst, Outcome.completed_bind]
    apply foldlM_undefined_head
    rw [Nat.add_comm 1 L]
    simp only [storeAt_gridTime timeStep L _ hLN, Outcome.completed_bind,
      hullWhiteIntegrals_short m thetaValues alphaValues sigmaValues timeStep (draw (L + 1))
        (L + 1) hL, Outcome.undefinedBehaviour_bind]
  · intro n hn
    simp only [storeAt_gridTime timeStep n _ (lt_trans hn hLN), Outcome.completed_bind,
      Outcome.pure_eq,
      hullWhiteIntegrals_eq m thetaValues alphaValues sigmaValues timeStep (draw (n + 1)) (n + 1)
        (by omega) (by omega) (by omega)]
    have key := storeAt_prefixVec (hullWhiteState m draw initialInterestRate thetaValues
      alphaValues sigmaValues timeStep) n _ (lt_trans hn hLN)
    rw [hullWhiteState] at key
    rw [key]
    rfl

/-! ## Runs outside the range of `int` or with a negative path count -/

theorem numberOfTimeSteps_overflow [FloorRing K] (m : CMath K) (timeHorizon timeStep : K)
    (hs : 0 < timeStep) (hbig : 2147483648 ≤ m.div timeHorizon timeStep) :
    numberOfTimeSteps m timeHorizon timeStep = .undefinedBehaviour := by
  have hq : 0 ≤ m.div timeHorizon timeStep := le_trans (by norm_num) hbig
  have hfl : (2147483648 : Int) ≤ ⌊m.div timeHorizon timeStep⌋ := by
    rw [Int.le_floor]
    exact_mod_cast hbig
  unfold numberOfTimeSteps staticCastInt
  rw [if_neg hs.ne.symm]
  simp only [if_pos hq]
  rw [if_neg]
  unfold INT_MAX
  omega

theorem simulateHeathJarrowMortonModel_negative [FloorRing K] (m : CMath K) (draw : Nat → K)
    (driftTerm volatility timeHorizon timeStep : K) (numberOfPaths : Int)
    (hs : 0 < timeStep) (hq : 0 ≤ m.div timeHorizon timeStep)
    (hN : ⌊m.div timeHorizon timeStep⌋₊ < 2147483647) (hP : numberOfPaths < 0) :
    simulateHeathJarrowMortonModel m draw driftTerm volatility timeHorizon timeStep
      numberOfPaths = .lengthError := by
  unfold simulateHeathJarrowMortonModel
  rw [numberOfTimeSteps_eq m timeHorizon timeStep hs hq hN]
  simp only [Outcome.completed_bind, allocVector_natCast _ hN]
  unfold allocRows
  rw [if_pos hP]
  rfl

theorem floor_one_div_hundredth [FloorRing K] : ⌊(1 : K) / 0.01⌋₊ = 100 := by
  rw [Nat.floor_eq_iff (by norm_num)]
  norm_num

theorem floor_one_div_one [FloorRing K] : ⌊(1 : K) / 1⌋₊ = 1 := by
  rw [Nat.floor_eq_iff (by norm_num)]
  norm_num

/-- The grid of the `main` functions as doubles: `timeHorizon` is `1` and
`timeStep` is the double nearest `0.01`, `5764607523034235 / 2^59`. The exact
quotient is below `100` and its floor is `99`; the division of doubles rounds it
to `100`, and the step count is `100`. -/
theorem numberOfTimeSteps_main_grid (m : CMath ℝ)
    (hround : m.div 1 (5764607523034235 / 576460752303423488) = 100) :
    ⌊(1 : ℝ) / (5764607523034235 / 576460752303423488)⌋₊ = 99 ∧
    numberOfTimeSteps m 1 (5764607523034235 / 576460752303423488) = .completed 100 := by
  have hfl : ⌊m.div 1 (5764607523034235 / 576460752303423488)⌋₊ = 100 := by
    rw [hround]
    exact Nat.floor_ofNat 100
  constructor
  · rw [Nat.floor_eq_iff (by norm_num)]
    norm_num
  · rw [numberOfTimeSteps_eq m 1 _ (by norm_num) (by rw [hround]; norm_num)
      (by rw [hfl]; norm_num), hfl]
    rfl

/-! ## Properties of the state sequences -/

theorem cirState_succ_nonneg (m : CMath K) (draw : Nat → K)
    (meanReversionLevel meanReversionRate volatility initialInterestRate timeStep : K)
    (k : Nat) :
    0 ≤ cirState m draw meanReversionLevel meanReversionRate volatility initialInterestRate
      timeStep (k + 1) := by
  rw [cirState]
  exact le_max_left _ _

theorem cirState_nonneg (m : CMath K) (draw : Nat → K)
    (meanReversionLevel meanReversionRate volatility initialInterestRate timeStep : K)
    (h0 : 0 ≤ initialInterestRate) (k : Nat) :
    0 ≤ cirState m draw meanReversionLevel meanReversionRate volatility initialInterestRate
      timeStep k := by
  cases k with
  | zero => exact h0
  | succ k => exact cirState_succ_nonneg m draw _ _ _ _ _ k

theorem vasicekState_zero_speed (m : CMath K) (draw : Nat → K)
    (longTermInterestRate volatility initialInterestRate timeStep : K) (k : Nat) :
    vasicekState m draw 0 longTermInterestRate volatility initialInterestRate timeStep k
      = initialInterestRate
        + volatility * m.sqrt timeStep * ∑ j in Finset.Icc 1 k, draw j := by
  induction k with
  | zero => simp [vasicekState]
  | succ k ih =>
    rw [vasicekState, ih, Finset.sum_Icc_succ_top (Nat.le_add_left 1 k)]
    ring

theorem hoLeeState_zero (m : CMath K) (draw : Nat → K) (timeStep : K) (k : Nat) :
    hoLeeState m draw 0 0 timeStep k = 0 := by
  induction k with
  | zero => rfl
  | succ k ih => rw [hoLeeState, ih]; ring

theorem getD_eq_zero_of_forall (l : List K) (hl : ∀ x ∈ l, x = 0) (j : Nat) :
    l.getD j 0 = 0 := by
  rw [List.getD_eq_getElem?_getD]
  by_cases hj : j < l.length
  · rw [List.getElem?_eq_getElem hj]
    exact hl _ (List.getElem_mem hj)
  · rw [List.getElem?_eq_none (by omega)]
    rfl

theorem getElem?_getD_eq_zero_of_forall (l : List K) (hl : ∀ x ∈ l, x = 0) (j : Nat) :
    l[j]?.getD 0 = 0 := by
  rw [← List.getD_eq_getElem?_getD]
  exact getD_eq_zero_of_forall l hl j

theorem hullWhiteSums_zero (m : CMath K) (thetaValues alphaValues sigmaValues : List K)
    (timeStep randomIncrement : K)
    (hθ : ∀ x ∈ thetaValues, x = 0) (hα : ∀ x ∈ alphaValues, x = 0)
    (hσ : ∀ x ∈ sigmaValues, x = 0) (i : Nat) :
    hullWhiteSums m thetaValues alphaValues sigmaValues timeStep randomIncrement i
      = (0, 0, 0) := by
  unfold hullWhiteSums
  induction i with
  | zero => rfl
  | succ i ih =>
    rw [List.range_succ, List.foldl_append, ih]
    simp [getElem?_getD_eq_zero_of_forall _ hθ, getElem?_getD_eq_zero_of_forall _ hα,
      getElem?_getD_eq_zero_of_forall _ hσ]

theorem hullWhiteState_zero (m : CMath K) (draw : Nat → K) (initialInterestRate : K)
    (thetaValues alphaValues sigmaValues : List K) (timeStep : K)
    (hθ : ∀ x ∈ thetaValues, x = 0) (hα : ∀ x ∈ alphaValues, x = 0)
    (hσ : ∀ x ∈ sigmaValues, x = 0) (hexp : m.exp 0 = 1) (k : Nat) :
    hullWhiteState m draw initialInterestRate thetaValues alphaValues sigmaValues timeStep k
      = initialInterestRate := by
  cases k with
  | zero => rfl
  | succ k =>
    rw [hullWhiteState, hullWhiteSums_zero m _ _ _ _ _ hθ hα hσ]
    simp [hexp]

theorem vasicekState_main (m : CMath K) (k : Nat) :
    vasicekState m (fun _ => 0) 0.1 0.2 0.02 0.05 0.01 k
      = 0.2 - 0.15 * (1 - 0.1 * 0.01) ^ k := by
  induction k with
  | zero => norm_num [vasicekState]
  | succ k ih =>
    rw [vasicekState, ih, pow_succ]
    ring

theorem everySimulatorReturnsOneRow [FloorRing K] (m : CMath K) (draw : Nat → K)
    (timeHorizon timeStep : K) (hne : timeStep ≠ 0) (habs : |m.div timeHorizon timeStep| < 1) :
    EverySimulatorReturnsOneRow m draw timeHorizon timeStep :=
  ⟨fun a b c x0 => simulateVasicekModel_onePoint m draw a b c x0 _ _ hne habs,
   fun a b c x0 => simulateCoxIngersollRossModel_onePoint m draw a b c x0 _ _ hne habs,
   fun a b c d x0 =>
     simulateConstantElasticityVarianceModel_onePoint m draw a b c d x0 _ _ hne habs,
   fun a b c d x0 =>
     simulateChanKarolyiLongstaffSandersModel_onePoint m draw a b c d x0 _ _ hne habs,
   fun a b => simulateHoAndLeeModel_onePoint m draw a b _ _ hne habs,
   fun x0 thetaValues alphaValues sigmaValues =>
     simulateHullAndWhiteModel_onePoint m draw x0 thetaValues alphaValues sigmaValues _ _
       hne habs,
   fun a b numberOfPaths =>
     simulateHeathJarrowMortonModel_onePoint m draw a b _ _ numberOfPaths hne habs⟩

end ClosedForms

/-! ## The time grid -/

section TimeGrid

variable {K : Type} [LinearOrderedField K] [FloorRing K]

/-- C1, counterexample. With `timeHorizon = 2147483648` and `timeStep = 1` (both
positive, step below horizon) the quotient is no `int`: the Vasicek run is
undefined and builds no grid of `2147483649` points. With empty parameter
sequences the Hull-White run reads out of range, and with a negative path count
the HJM run ends in `std::length_error`; neither builds a grid. -/
theorem timeGrid_counterexample :
    ((0 : ℝ) < 2147483648 ∧ (0 : ℝ) < 1 ∧ (1 : ℝ) ≤ 2147483648) ∧
    simulateVasicekModel (⟨Real.sqrt, Real.exp, fun x y => x ^ y, fun x y => x / y⟩ : CMath ℝ) (fun _ => 0)
      0.1 0.2 0.02 0.05 2147483648 1 = Outcome.undefinedBehaviour ∧
    simulateHullAndWhiteModel (⟨Real.sqrt, Real.exp, fun x y => x ^ y, fun x y => x / y⟩ : CMath ℝ) (fun _ => 0)
      0.02 [] [] [] 1 1 = Outcome.undefinedBehaviour ∧
    simulateHeathJarrowMortonModel (⟨Real.sqrt, Real.exp, fun x y => x ^ y, fun x y => x / y⟩ : CMath ℝ)
      (fun _ => 0) 0.1 0.02 1 1 (-1) = Outcome.lengthError := by
  refine ⟨by norm_num, ?_, ?_, ?_⟩
  · unfold simulateVasicekModel
    rw [numberOfTimeSteps_overflow _ _ _ (by norm_num)
      (by show (2147483648 : ℝ) ≤ 2147483648 / 1; norm_num)]
    rfl
  · apply simulateHullAndWhiteModel_short _ _ _ _ _ _ _ _ (by norm_num) (by norm_num)
    · rw [floor_one_div_one]; norm_num
    · rw [floor_one_div_one]; simp
  · apply simulateHeathJarrowMortonModel_negative _ _ _ _ _ _ _ (by norm_num) (by norm_num)
    · rw [floor_one_div_one]; norm_num
    · norm_num

/-- C1, amended. For `0 < timeStep ≤ timeHorizon`, let `N` be the step count the
code computes, `static_cast<int>(timeHorizon / timeStep)`: the truncation of the
rounded double quotient (`floor(timeHorizon / timeStep)` where the division is
exact). If `N < 2147483647` (so that `N` and `N + 1` are values of `int`), every
simulator completes and its `timeValues` is the grid of the contract with that
`N`: `N + 1` points, first point `0`, `k`-th point `k * timeStep`, consecutive
points `timeStep` apart, strictly increasing. For Hull-White the three parameter
sequences have at least `N` entries; for HJM the path count is not negative. -/
theorem timeGrid_of_every_simulator (m : CMath K) (draw : Nat → K)
    (timeHorizon timeStep : K)
    (hdiv : RoundedDivision m.div) (hs : 0 < timeStep) (hh : timeStep ≤ timeHorizon)
    (hN : ⌊m.div timeHorizon timeStep⌋₊ < 2147483647) :
    (∀ a b c d, ∃ p, simulateVasicekModel m draw a b c d timeHorizon timeStep = .completed p
      ∧ IsTimeGrid timeStep ⌊m.div timeHorizon timeStep⌋₊ p.timeValues) ∧
    (∀ a b c d, ∃ p,
      simulateCoxIngersollRossModel m draw a b c d timeHorizon timeStep = .completed p
      ∧ IsTimeGrid timeStep ⌊m.div timeHorizon timeStep⌋₊ p.timeValues) ∧
    (∀ a b c d e, ∃ p,
      simulateConstantElasticityVarianceModel m draw a b c d e timeHorizon timeStep
        = .completed p
      ∧ IsTimeGrid timeStep ⌊m.div timeHorizon timeStep⌋₊ p.timeValues) ∧
    (∀ a b c d e, ∃ p,
      simulateChanKarolyiLongstaffSandersModel m draw a b c d e timeHorizon timeStep
        = .completed p
      ∧ IsTimeGrid timeStep ⌊m.div timeHorizon timeStep⌋₊ p.timeValues) ∧
    (∀ a b, ∃ p, simulateHoAndLeeModel m draw a b timeHorizon timeStep = .completed p
      ∧ IsTimeGrid timeStep ⌊m.div timeHorizon timeStep⌋₊ p.timeValues) ∧
    (∀ x0 (thetaValues alphaValues sigmaValues : List K),
      ⌊m.div timeHorizon timeStep⌋₊ ≤ thetaValues.length →
      ⌊m.div timeHorizon timeStep⌋₊ ≤ alphaValues.length →
      ⌊m.div timeHorizon timeStep⌋₊ ≤ sigmaValues.length →
      ∃ p, simulateHullAndWhiteModel m draw x0 thetaValues alphaValues sigmaValues
        timeHorizon timeStep = .completed p
      ∧ IsTimeGrid timeStep ⌊m.div timeHorizon timeStep⌋₊ p.timeValues) ∧
    (∀ a b (numberOfPaths : Nat), ∃ p,
      simulateHeathJarrowMortonModel m draw a b timeHorizon timeStep (numberOfPaths : Int)
        = .completed p
      ∧ IsTimeGrid timeStep ⌊m.div timeHorizon timeStep⌋₊ p.timeValues) := by
  have hh0 : 0 ≤ m.div timeHorizon timeStep := hdiv.1 _ _ (le_trans hs.le hh) hs
  have hgrid := isTimeGrid_map_range timeStep hs ⌊m.div timeHorizon timeStep⌋₊
  refine ⟨?_, ?_, ?_, ?_, ?_, ?_, ?_⟩
  · intro a b c d
    exact ⟨_, simulateVasicekModel_eq m draw a b c d timeHorizon timeStep hs hh0 hN, hgrid⟩
  · intro a b c d
    exact ⟨_, simulateCoxIngersollRossModel_eq m draw a b c d timeHorizon timeStep hs hh0 hN,
      hgrid⟩
  · intro a b c d e
    exact ⟨_, simulateConstantElasticityVarianceModel_eq m draw a b c d e timeHorizon timeStep
      hs hh0 hN, hgrid⟩
  · intro a b c d e
    exact ⟨_, simulateChanKarolyiLongstaffSandersModel_eq m draw a b c d e timeHorizon timeStep
      hs hh0 hN, hgrid⟩
  · intro a b
    exact ⟨_, simulateHoAndLeeModel_eq m draw a b timeHorizon timeStep hs hh0 hN, hgrid⟩
  · intro x0 thetaValues alphaValues sigmaValues hθ hα hσ
    exact ⟨_, simulateHullAndWhiteModel_eq m draw x0 thetaValues alphaValues sigmaValues
      timeHorizon timeStep hs hh0 hN hθ hα hσ, hgrid⟩
  · intro a b numberOfPaths
    exact ⟨_, simulateHeathJarrowMortonModel_eq m draw a b timeHorizon timeStep numberOfPaths
      hs hh0 hN, hgrid⟩

/-- C1, witness: the grids of the Vasicek and the HJM runs of the two `main`
functions (`timeHorizon = 1.0`, `timeStep = 0.01`). -/
theorem timeGrid_of_every_simulator_witness :
    ((0 : ℝ) < 0.01 ∧ (0.01 : ℝ) ≤ 1 ∧ ⌊(1 : ℝ) / 0.01⌋₊ < 2147483647) ∧
    (∃ p, simulateVasicekModel (⟨Real.sqrt, Real.exp, fun x y => x ^ y, fun x y => x / y⟩ : CMath ℝ)
        (fun _ => 0) 0.1 0.2 0.02 0.05 1 0.01 = .completed p
      ∧ IsTimeGrid (0.01 : ℝ) ⌊(1 : ℝ) / 0.01⌋₊ p.timeValues) ∧
    (∃ p, simulateHeathJarrowMortonModel (⟨Real.sqrt, Real.exp, fun x y => x ^ y, fun x y => x / y⟩ : CMath ℝ)
        (fun _ => 0) 0.1 0.02 1 0.01 ((5 : Nat) : Int) = .completed p
      ∧ IsTimeGrid (0.01 : ℝ) ⌊(1 : ℝ) / 0.01⌋₊ p.timeValues) :=
  have h1 : (0 : ℝ) < 0.01 := by norm_num
  have h2 : (0.01 : ℝ) ≤ 1 := by norm_num
  have h3 : ⌊(1 : ℝ) / 0.01⌋₊ < 2147483647 := by rw [floor_one_div_hundredth]; norm_num
  ⟨⟨h1, h2, h3⟩,
    (timeGrid_of_every_simulator _ (fun _ => 0) 1 0.01
        roundedDivision_div h1 h2 h3).1 0.1 0.2 0.02 0.05,
    (timeGrid_of_every_simulator _ (fun _ => 0) 1 0.01
        roundedDivision_div h1 h2 h3).2.2.2.2.2.2 0.1 0.02 5⟩

end TimeGrid

/-! ## CIR: sign of the states -/

section CoxIngersollRoss

variable {K : Type} [LinearOrderedField K] [FloorRing K]

/-- C2, counterexample. With the parameters of `main` and the initial rate
`-0.05`, the stored state of index `0` is `-0.05`, a negative number. -/
theorem cir_state_counterexample :
    ∃ p, simulateCoxIngersollRossModel (⟨Real.sqrt, Real.exp, fun x y => x ^ y, fun x y => x / y⟩ : CMath ℝ)
        (fun _ => 0) 0.1 0.2 0.02 (-0.05) 1 0.01 = .completed p
      ∧ p.interestRateValues[0]? = some (-0.05 : ℝ) ∧ ¬ ((0 : ℝ) ≤ -0.05) := by
  refine ⟨_, simulateCoxIngersollRossModel_eq _ _ _ _ _ _ _ _ (by norm_num) (by norm_num)
    (by rw [floor_one_div_hundredth]; norm_num), ?_, by norm_num⟩
  rw [getElem?_map_range _ _ 0 (Nat.zero_le _)]
  rfl

/-- C2, amended. In a CIR run of `N` steps every state of index `1 .. N` is
`≥ 0` for every choice of parameters and every sequence of draws; the state of
index `0` is the initial rate as supplied, so all states `0 .. N` are `≥ 0` when
the initial rate is. -/
theorem cir_states_nonneg (m : CMath K) (draw : Nat → K)
    (meanReversionLevel meanReversionRate volatility initialInterestRate
      timeHorizon timeStep : K)
    (hdiv : RoundedDivision m.div) (hs : 0 < timeStep) (hh : 0 ≤ timeHorizon)
    (hN : ⌊m.div timeHorizon timeStep⌋₊ < 2147483647) :
    ∃ p, simulateCoxIngersollRossModel m draw meanReversionLevel meanReversionRate volatility
        initialInterestRate timeHorizon timeStep = .completed p
      ∧ p.interestRateValues.length = ⌊m.div timeHorizon timeStep⌋₊ + 1
      ∧ p.interestRateValues[0]? = some initialInterestRate
      ∧ (∀ k, 1 ≤ k → k ≤ ⌊m.div timeHorizon timeStep⌋₊ →
          ∃ x, p.interestRateValues[k]? = some x ∧ 0 ≤ x)
      ∧ (0 ≤ initialInterestRate → ∀ k, k ≤ ⌊m.div timeHorizon timeStep⌋₊ →
          ∃ x, p.interestRateValues[k]? = some x ∧ 0 ≤ x) := by
  have hq : 0 ≤ m.div timeHorizon timeStep := hdiv.1 _ _ hh hs
  refine ⟨_, simulateCoxIngersollRossModel_eq m draw meanReversionLevel meanReversionRate
    volatility initialInterestRate timeHorizon timeStep hs hq hN, by simp, ?_, ?_, ?_⟩
  · rw [getElem?_map_range _ _ 0 (Nat.zero_le _)]
    rfl
  · intro k hk1 hkN
    refine ⟨_, getElem?_map_range _ _ k hkN, ?_⟩
    obtain ⟨j, rfl⟩ : ∃ j, k = j + 1 := ⟨k - 1, by omega⟩
    exact cirState_succ_nonneg m draw _ _ _ _ _ j
  · intro h0 k hkN
    exact ⟨_, getElem?_map_range _ _ k hkN, cirState_nonneg m draw _ _ _ _ _ h0 k⟩

/-- C2, witness: the run of `main` in `CIR.cpp` with every draw equal to `-3`. -/
theorem cir_states_nonneg_witness :
    ((0 : ℝ) < 0.01 ∧ (0 : ℝ) ≤ 1 ∧ ⌊(1 : ℝ) / 0.01⌋₊ < 2147483647) ∧
    ∃ p, simulateCoxIngersollRossModel (⟨Real.sqrt, Real.exp, fun x y => x ^ y, fun x y => x / y⟩ : CMath ℝ)
        (fun _ => -3) 0.1 0.2 0.02 0.05 1 0.01 = .completed p
      ∧ p.interestRateValues.length = ⌊(1 : ℝ) / 0.01⌋₊ + 1
      ∧ p.interestRateValues[0]? = some (0.05 : ℝ)
      ∧ (∀ k, 1 ≤ k → k ≤ ⌊(1 : ℝ) / 0.01⌋₊ →
          ∃ x, p.interestRateValues[k]? = some x ∧ 0 ≤ x)
      ∧ ((0 : ℝ) ≤ 0.05 → ∀ k, k ≤ ⌊(1 : ℝ) / 0.01⌋₊ →
          ∃ x, p.interestRateValues[k]? = some x ∧ 0 ≤ x) :=
  have h1 : (0 : ℝ) < 0.01 := by norm_num
  have h2 : (0 : ℝ) ≤ 1 := by norm_num
  have h3 : ⌊(1 : ℝ) / 0.01⌋₊ < 2147483647 := by rw [floor_one_div_hundredth]; norm_num
  ⟨⟨h1, h2, h3⟩, cir_states_nonneg _ (fun _ => -3) 0.1 0.2 0.02 0.05 1 0.01
      roundedDivision_div h1 h2 h3⟩

end CoxIngersollRoss

/-! ## Degenerate and deterministic runs -/

section Degenerate

variable {K : Type} [LinearOrderedField K] [FloorRing K]

/-- C3. In a Vasicek run of `N` steps with `meanReversionSpeed = 0`, for every
long-run level, volatility, initial rate, step and draw sequence, the state of
every index `k ≤ N` is
`initialInterestRate + volatility * sqrt(timeStep) * (d_1 + ... + d_k)`. -/
theorem vasicek_zero_speed (m : CMath K) (draw : Nat → K)
    (longTermInterestRate volatility initialInterestRate timeHorizon timeStep : K)
    (hdiv : RoundedDivision m.div) (hs : 0 < timeStep) (hh : 0 ≤ timeHorizon)
    (hN : ⌊m.div timeHorizon timeStep⌋₊ < 2147483647) :
    ∃ p, simulateVasicekModel m draw 0 longTermInterestRate volatility initialInterestRate
        timeHorizon timeStep = .completed p
      ∧ ∀ k, k ≤ ⌊m.div timeHorizon timeStep⌋₊ →
          p.interestRateValues[k]? = some (initialInterestRate
            + volatility * m.sqrt timeStep * ∑ j in Finset.Icc 1 k, draw j) := by
  have hq : 0 ≤ m.div timeHorizon timeStep := hdiv.1 _ _ hh hs
  refine ⟨_, simulateVasicekModel_eq m draw 0 longTermInterestRate volatility
    initialInterestRate timeHorizon timeStep hs hq hN, ?_⟩
  intro k hk
  rw [getElem?_map_range _ _ k hk, vasicekState_zero_speed]

/-- C3, witness: the grid of `main` in `Vasicek.cpp`, speed `0`, draws
`d_j = j`. -/
theorem vasicek_zero_speed_witness :
    ((0 : ℝ) < 0.01 ∧ (0 : ℝ) ≤ 1 ∧ ⌊(1 : ℝ) / 0.01⌋₊ < 2147483647) ∧
    ∃ p, simulateVasicekModel (⟨Real.sqrt, Real.exp, fun x y => x ^ y, fun x y => x / y⟩ : CMath ℝ)
        (fun j => (j : ℝ)) 0 0.2 0.02 0.05 1 0.01 = .completed p
      ∧ ∀ k, k ≤ ⌊(1 : ℝ) / 0.01⌋₊ →
          p.interestRateValues[k]? = some ((0.05 : ℝ)
            + 0.02 * Real.sqrt 0.01 * ∑ j in Finset.Icc 1 k, (j : ℝ)) :=
  have h1 : (0 : ℝ) < 0.01 := by norm_num
  have h2 : (0 : ℝ) ≤ 1 := by norm_num
  have h3 : ⌊(1 : ℝ) / 0.01⌋₊ < 2147483647 := by rw [floor_one_div_hundredth]; norm_num
  ⟨⟨h1, h2, h3⟩, vasicek_zero_speed _ (fun j => (j : ℝ)) 0.2 0.02 0.05 1 0.01
      roundedDivision_div h1 h2 h3⟩

/-- C4. In a Hull-White run of `N` steps whose theta, alpha and sigma sequences
have at least `N` entries, all of them `0`, the state of every index `k ≤ N` is
the initial rate, for every initial rate and every draw sequence
(`std::exp(0) = 1`). -/
theorem hullWhite_zero_parameters (m : CMath K) (draw : Nat → K) (initialInterestRate : K)
    (thetaValues alphaValues sigmaValues : List K) (timeHorizon timeStep : K)
    (hexp : m.exp 0 = 1)
    (hdiv : RoundedDivision m.div) (hs : 0 < timeStep) (hh : 0 ≤ timeHorizon)
    (hN : ⌊m.div timeHorizon timeStep⌋₊ < 2147483647)
    (hθl : ⌊m.div timeHorizon timeStep⌋₊ ≤ thetaValues.length)
    (hαl : ⌊m.div timeHorizon timeStep⌋₊ ≤ alphaValues.length)
    (hσl : ⌊m.div timeHorizon timeStep⌋₊ ≤ sigmaValues.length)
    (hθ : ∀ x ∈ thetaValues, x = 0) (hα : ∀ x ∈ alphaValues, x = 0)
    (hσ : ∀ x ∈ sigmaValues, x = 0) :
    ∃ p, simulateHullAndWhiteModel m draw initialInterestRate thetaValues alphaValues
        sigmaValues timeHorizon timeStep = .completed p
      ∧ ∀ k, k ≤ ⌊m.div timeHorizon timeStep⌋₊ →
          p.interestRateValues[k]? = some initialInterestRate := by
  have hq : 0 ≤ m.div timeHorizon timeStep := hdiv.1 _ _ hh hs
  refine ⟨_, simulateHullAndWhiteModel_eq m draw initialInterestRate thetaValues alphaValues
    sigmaValues timeHorizon timeStep hs hq hN hθl hαl hσl, ?_⟩
  intro k hk
  rw [getElem?_map_range _ _ k hk, hullWhiteState_zero m draw _ _ _ _ _ hθ hα hσ hexp]

/-- C4, witness: three steps of size `1`, three zero entries in each sequence,
initial rate `0.02`, draws `d_j = j`. -/
theorem hullWhite_zero_parameters_witness :
    (Real.exp 0 = 1 ∧ (0 : ℝ) < 1 ∧ (0 : ℝ) ≤ 3 ∧ ⌊(3 : ℝ) / 1⌋₊ < 2147483647
      ∧ ⌊(3 : ℝ) / 1⌋₊ ≤ [(0 : ℝ), 0, 0].length) ∧
    ∃ p, simulateHullAndWhiteModel (⟨Real.sqrt, Real.exp, fun x y => x ^ y, fun x y => x / y⟩ : CMath ℝ)
        (fun j => (j : ℝ)) 0.02 [0, 0, 0] [0, 0, 0] [0, 0, 0] 3 1 = .completed p
      ∧ ∀ k, k ≤ ⌊(3 : ℝ) / 1⌋₊ → p.interestRateValues[k]? = some (0.02 : ℝ) :=
  have h0 : ⌊(3 : ℝ) / 1⌋₊ = 3 := by
    rw [Nat.floor_eq_iff (by norm_num)]; norm_num
  have h1 : (0 : ℝ) < 1 := by norm_num
  have h2 : (0 : ℝ) ≤ 3 := by norm_num
  have h3 : ⌊(3 : ℝ) / 1⌋₊ < 2147483647 := by rw [h0]; norm_num
  have h4 : ⌊(3 : ℝ) / 1⌋₊ ≤ [(0 : ℝ), 0, 0].length := by rw [h0]; simp
  have h5 : ∀ x ∈ [(0 : ℝ), 0, 0], x = 0 := by simp
  ⟨⟨Real.exp_zero, h1, h2, h3, h4⟩,
    hullWhite_zero_parameters _ (fun j => (j : ℝ)) 0.02 [0, 0, 0] [0, 0, 0] [0, 0, 0] 3 1
      Real.exp_zero roundedDivision_div h1 h2 h3 h4 h4 h4 h5 h5 h5⟩

/-- C5. In a Ho-Lee run of `N` steps with `driftTerm = 0` and `volatility = 0`,
for every valid horizon and step and every draw sequence, the state of every
index `k ≤ N` is `0`. -/
theorem hoLee_zero_parameters (m : CMath K) (draw : Nat → K) (timeHorizon timeStep : K)
    (hdiv : RoundedDivision m.div) (hs : 0 < timeStep) (hh : timeStep ≤ timeHorizon)
    (hN : ⌊m.div timeHorizon timeStep⌋₊ < 2147483647) :
    ∃ p, simulateHoAndLeeModel m draw 0 0 timeHorizon timeStep = .completed p
      ∧ ∀ k, k ≤ ⌊m.div timeHorizon timeStep⌋₊ → p.interestRateValues[k]? = some 0 := by
  refine ⟨_, simulateHoAndLeeModel_eq m draw 0 0 timeHorizon timeStep hs
    (hdiv.1 _ _ (le_trans hs.le hh) hs) hN, ?_⟩
  intro k hk
  rw [getElem?_map_range _ _ k hk, hoLeeState_zero]

/-- C5, witness: the grid of `main` in `HoLee.cpp`, draws `d_j = j`. -/
theorem hoLee_zero_parameters_witness :
    ((0 : ℝ) < 0.01 ∧ (0.01 : ℝ) ≤ 1 ∧ ⌊(1 : ℝ) / 0.01⌋₊ < 2147483647) ∧
    ∃ p, simulateHoAndLeeModel (⟨Real.sqrt, Real.exp, fun x y => x ^ y, fun x y => x / y⟩ : CMath ℝ)
        (fun j => (j : ℝ)) 0 0 1 0.01 = .completed p
      ∧ ∀ k, k ≤ ⌊(1 : ℝ) / 0.01⌋₊ → p.interestRateValues[k]? = some (0 : ℝ) :=
  have h1 : (0 : ℝ) < 0.01 := by norm_num
  have h2 : (0.01 : ℝ) ≤ 1 := by norm_num
  have h3 : ⌊(1 : ℝ) / 0.01⌋₊ < 2147483647 := by rw [floor_one_div_hundredth]; norm_num
  ⟨⟨h1, h2, h3⟩, hoLee_zero_parameters _ (fun j => (j : ℝ)) 1 0.01 roundedDivision_div h1 h2 h3⟩

/-- C6. The Vasicek run with `timeHorizon = 1.0`, `timeStep = 0.01` (the double
quotient `1.0 / 0.01` is `100`, so `N = 100`), speed `0.1`, long-run level `0.2`,
volatility `0.02`, initial rate `0.05` and every draw equal to `0` completes with
`101` rows; for every `k ≤ 100` the state of index `k` is
`0.2 - 0.15 * (1 - 0.1 * 0.01) ^ k`, the states are strictly increasing in `k`,
and every state is strictly below `0.2`. -/
theorem vasicek_main_zero_draws (m : CMath K) (hquot : m.div 1 0.01 = 100) :
    ∃ p, simulateVasicekModel m (fun _ => 0) 0.1 0.2 0.02 0.05 1 0.01 = .completed p
      ∧ p.timeValues.length = 101 ∧ p.interestRateValues.length = 101
      ∧ (∀ k : Nat, k ≤ 100 →
          p.interestRateValues[k]? = some ((0.2 : K) - 0.15 * (1 - 0.1 * 0.01) ^ k))
      ∧ (∀ k : Nat, k < 100 → ∃ a b : K, p.interestRateValues[k]? = some a
          ∧ p.interestRateValues[k + 1]? = some b ∧ a < b)
      ∧ (∀ k : Nat, k ≤ 100 → ∃ a : K, p.interestRateValues[k]? = some a ∧ a < 0.2) := by
  have hfl : ⌊m.div 1 0.01⌋₊ = 100 := by
    rw [hquot]
    exact Nat.floor_ofNat 100
  have hrun := simulateVasicekModel_eq m (fun _ => 0) 0.1 0.2 0.02 0.05 1 0.01
    (by norm_num) (by rw [hquot]; norm_num) (by rw [hfl]; norm_num)
  rw [hfl] at hrun
  have hget : ∀ k, k ≤ 100 →
      ((List.range (100 + 1)).map (vasicekState m (fun _ => 0) 0.1 0.2 0.02 0.05 0.01))[k]?
        = some ((0.2 : K) - 0.15 * (1 - 0.1 * 0.01) ^ k) := by
    intro k hk
    rw [getElem?_map_range _ _ k hk, vasicekState_main]
  have hr0 : (0 : K) < 1 - 0.1 * 0.01 := by norm_num
  have hr1 : (1 : K) - 0.1 * 0.01 < 1 := by norm_num
  refine ⟨_, hrun, by simp, by simp, hget, ?_, ?_⟩
  · intro k hk
    refine ⟨_, _, hget k hk.le, hget (k + 1) hk, ?_⟩
    have hpow : (1 - 0.1 * 0.01 : K) ^ (k + 1) < (1 - 0.1 * 0.01) ^ k := by
      rw [pow_succ]
      exact mul_lt_of_lt_one_right (pow_pos hr0 k) hr1
    linarith
  · intro k hk
    refine ⟨_, hget k hk, ?_⟩
    have hpow : (0 : K) < (1 - 0.1 * 0.01) ^ k := pow_pos hr0 k
    linarith

/-- C6, witness: the run with the exact quotient `1 / 0.01 = 100`. -/
theorem vasicek_main_zero_draws_witness :
    ((1 : ℝ) / 0.01 = 100) ∧
    ∃ p, simulateVasicekModel (⟨Real.sqrt, Real.exp, fun x y => x ^ y, fun x y => x / y⟩ : CMath ℝ)
        (fun _ => 0) 0.1 0.2 0.02 0.05 1 0.01 = .completed p
      ∧ p.timeValues.length = 101 ∧ p.interestRateValues.length = 101
      ∧ (∀ k : Nat, k ≤ 100 →
          p.interestRateValues[k]? = some ((0.2 : ℝ) - 0.15 * (1 - 0.1 * 0.01) ^ k))
      ∧ (∀ k : Nat, k < 100 → ∃ a b : ℝ, p.interestRateValues[k]? = some a
          ∧ p.interestRateValues[k + 1]? = some b ∧ a < b)
      ∧ (∀ k : Nat, k ≤ 100 → ∃ a : ℝ, p.interestRateValues[k]? = some a ∧ a < 0.2) :=
  have h1 : (1 : ℝ) / 0.01 = 100 := by norm_num
  ⟨h1, vasicek_main_zero_draws _ h1⟩

/-- C7. In a CIR run with level `0.1`, rate `0.2`, volatility `0.02`, initial
rate `0.05` and step `0.01` (at least one step), for every first draw `d_1` that
makes the unclamped update
`x0 + rate * (level - x0) * step + volatility * sqrt(x0) * sqrt(step) * d_1`
negative, the state of index `1` is exactly `0`. -/
theorem cir_first_step_clamped (m : CMath K) (draw : Nat → K) (timeHorizon : K)
    (hdiv : RoundedDivision m.div)
    (hh : 0.01 ≤ timeHorizon) (hN : ⌊m.div timeHorizon 0.01⌋₊ < 2147483647)
    (hneg : 0.05 + 0.2 * (0.1 - 0.05) * 0.01 + 0.02 * m.sqrt 0.05 * m.sqrt 0.01 * draw 1 < 0) :
    ∃ p, simulateCoxIngersollRossModel m draw 0.1 0.2 0.02 0.05 timeHorizon 0.01
        = .completed p
      ∧ p.interestRateValues[1]? = some 0 := by
  have hs : (0 : K) < 0.01 := by norm_num
  refine ⟨_, simulateCoxIngersollRossModel_eq m draw 0.1 0.2 0.02 0.05 timeHorizon 0.01 hs
    (hdiv.1 _ _ (le_trans hs.le hh) hs) hN, ?_⟩
  have h1 : 1 ≤ ⌊m.div timeHorizon 0.01⌋₊ := by
    apply Nat.le_floor
    simpa using hdiv.2.2 _ _ hs hh
  rw [getElem?_map_range _ _ 1 h1]
  have hmax : max (0 : K) 0.05 = 0.05 := max_eq_right (by norm_num)
  simp only [cirState, hmax]
  rw [max_eq_left hneg.le]

/-- C7, witness: the run of `main` in `CIR.cpp` with first draw `-200`. -/
theorem cir_first_step_clamped_witness :
    ((0.01 : ℝ) ≤ 1 ∧ ⌊(1 : ℝ) / 0.01⌋₊ < 2147483647
      ∧ (0.05 : ℝ) + 0.2 * (0.1 - 0.05) * 0.01
          + 0.02 * Real.sqrt 0.05 * Real.sqrt 0.01 * (-200) < 0) ∧
    ∃ p, simulateCoxIngersollRossModel (⟨Real.sqrt, Real.exp, fun x y => x ^ y, fun x y => x / y⟩ : CMath ℝ)
        (fun _ => -200) 0.1 0.2 0.02 0.05 1 0.01 = .completed p
      ∧ p.interestRateValues[1]? = some (0 : ℝ) :=
  have h1 : (0.01 : ℝ) ≤ 1 := by norm_num
  have h2 : ⌊(1 : ℝ) / 0.01⌋₊ < 2147483647 := by rw [floor_one_div_hundredth]; norm_num
  have h3 : (0.05 : ℝ) + 0.2 * (0.1 - 0.05) * 0.01
      + 0.02 * Real.sqrt 0.05 * Real.sqrt 0.01 * (-200) < 0 := by
    have ha : (0.2 : ℝ) < Real.sqrt 0.05 := by
      rw [Real.lt_sqrt (by norm_num)]; norm_num
    have hb : (0.09 : ℝ) < Real.sqrt 0.01 := by
      rw [Real.lt_sqrt (by norm_num)]; norm_num
    nlinarith [mul_pos (sub_pos.2 ha) (sub_pos.2 hb)]
  ⟨⟨h1, h2, h3⟩, cir_first_step_clamped _ (fun _ => -200) 1 roundedDivision_div h1 h2 h3⟩

end Degenerate

/-! ## Invalid grids and short parameter sequences -/

section ErrorHandling

variable {K : Type} [LinearOrderedField K] [FloorRing K]

/-- C8, counterexample. The Vasicek run of `main` with `timeHorizon = 1` and
`timeStep = 2` (both positive, step above horizon) raises no `InvalidGridError`:
it completes and returns the one-row path `(0, 0.05)`. -/
theorem step_above_horizon_counterexample :
    ((0 : ℝ) < 1 ∧ (0 : ℝ) < 2 ∧ (1 : ℝ) < 2) ∧
    simulateVasicekModel (⟨Real.sqrt, Real.exp, fun x y => x ^ y, fun x y => x / y⟩ : CMath ℝ) (fun _ => 0)
      0.1 0.2 0.02 0.05 1 2 = .completed ⟨[0], [0.05]⟩ ∧
    simulateVasicekModel (⟨Real.sqrt, Real.exp, fun x y => x ^ y, fun x y => x / y⟩ : CMath ℝ) (fun _ => 0)
      0.1 0.2 0.02 0.05 1 2 ≠ .raised SimError.InvalidGridError := by
  have h : simulateVasicekModel (⟨Real.sqrt, Real.exp, fun x y => x ^ y, fun x y => x / y⟩ : CMath ℝ)
      (fun _ => 0) 0.1 0.2 0.02 0.05 1 2 = .completed ⟨[0], [0.05]⟩ :=
    simulateVasicekModel_onePoint _ _ _ _ _ _ _ _ (by norm_num) (by norm_num [abs_of_pos])
  refine ⟨by norm_num, h, ?_⟩
  rw [h]
  exact fun hcontra => Outcome.noConfusion hcontra

/-- C8, amended. For every model, a simulation called with
`0 < timeHorizon < timeStep` (zero usable steps) raises no error: it completes
and returns the path of the single row `(0, initial condition)`. -/
theorem step_above_horizon_returns_one_row (m : CMath K) (draw : Nat → K)
    (timeHorizon timeStep : K) (hdiv : RoundedDivision m.div)
    (hh : 0 < timeHorizon) (hlt : timeHorizon < timeStep) :
    EverySimulatorReturnsOneRow m draw timeHorizon timeStep := by
  have hs : 0 < timeStep := lt_trans hh hlt
  apply everySimulatorReturnsOneRow m draw timeHorizon timeStep hs.ne.symm
  apply hdiv.2.1 _ _ hs.ne.symm
  rw [abs_of_pos hh, abs_of_pos hs]
  exact hlt

/-- C8, witness: `timeHorizon = 1`, `timeStep = 2`. -/
theorem step_above_horizon_returns_one_row_witness :
    ((0 : ℝ) < 1 ∧ (1 : ℝ) < 2) ∧
    EverySimulatorReturnsOneRow (⟨Real.sqrt, Real.exp, fun x y => x ^ y, fun x y => x / y⟩ : CMath ℝ)
      (fun _ => 0) 1 2 :=
  have h1 : (0 : ℝ) < 1 := by norm_num
  have h2 : (1 : ℝ) < 2 := by norm_num
  ⟨⟨h1, h2⟩, step_above_horizon_returns_one_row _ (fun _ => 0) 1 2 roundedDivision_div h1 h2⟩

/-- C9, counterexample. The Ho-Lee run of `main` with `timeHorizon = 0` (and
`timeStep = 0.01`) raises no `InvalidGridError`: both vectors are allocated with
one entry and the one-row path `(0, 0)` is returned. -/
theorem nonpositive_horizon_counterexample :
    ((0 : ℝ) ≤ 0) ∧
    simulateHoAndLeeModel (⟨Real.sqrt, Real.exp, fun x y => x ^ y, fun x y => x / y⟩ : CMath ℝ) (fun _ => 0)
      0.02 0.01 0 0.01 = .completed ⟨[0], [0]⟩ ∧
    simulateHoAndLeeModel (⟨Real.sqrt, Real.exp, fun x y => x ^ y, fun x y => x / y⟩ : CMath ℝ) (fun _ => 0)
      0.02 0.01 0 0.01 ≠ .raised SimError.InvalidGridError := by
  have h : simulateHoAndLeeModel (⟨Real.sqrt, Real.exp, fun x y => x ^ y, fun x y => x / y⟩ : CMath ℝ)
      (fun _ => 0) 0.02 0.01 0 0.01 = .completed ⟨[0], [0]⟩ :=
    simulateHoAndLeeModel_onePoint _ _ _ _ _ _ (by norm_num) (by norm_num)
  refine ⟨le_refl 0, h, ?_⟩
  rw [h]
  exact fun hcontra => Outcome.noConfusion hcontra

/-- C9, amended. For every model, a simulation called with `timeHorizon ≤ 0` or
`timeStep ≤ 0`, where `timeStep ≠ 0` and `|timeHorizon| < |timeStep|` (so that the
quotient truncates to `0` steps), raises no error: the vectors are allocated with
one entry, and the run completes with the single row `(0, initial condition)`. -/
theorem nonpositive_grid_returns_one_row (m : CMath K) (draw : Nat → K)
    (timeHorizon timeStep : K) (hdiv : RoundedDivision m.div)
    (_hnonpos : timeHorizon ≤ 0 ∨ timeStep ≤ 0)
    (hne : timeStep ≠ 0) (habs : |timeHorizon| < |timeStep|) :
    EverySimulatorReturnsOneRow m draw timeHorizon timeStep :=
  everySimulatorReturnsOneRow m draw timeHorizon timeStep hne (hdiv.2.1 _ _ hne habs)

/-- C9, witness: `timeHorizon = 1`, `timeStep = -2`. -/
theorem nonpositive_grid_returns_one_row_witness :
    (((1 : ℝ) ≤ 0 ∨ (-2 : ℝ) ≤ 0) ∧ (-2 : ℝ) ≠ 0 ∧ |(1 : ℝ)| < |(-2 : ℝ)|) ∧
    EverySimulatorReturnsOneRow (⟨Real.sqrt, Real.exp, fun x y => x ^ y, fun x y => x / y⟩ : CMath ℝ)
      (fun _ => 0) 1 (-2) :=
  have h1 : (1 : ℝ) ≤ 0 ∨ (-2 : ℝ) ≤ 0 := Or.inr (by norm_num)
  have h2 : (-2 : ℝ) ≠ 0 := by norm_num
  have h3 : |(1 : ℝ)| < |(-2 : ℝ)| := by norm_num
  ⟨⟨h1, h2, h3⟩, nonpositive_grid_returns_one_row _ (fun _ => 0) 1 (-2)
      roundedDivision_div h1 h2 h3⟩

/-- C10. A Hull-White run of `N ≥ 1` steps in which the theta, alpha or sigma
sequence has fewer than `N` entries does not fail with an
`InsufficientParameterLengthError`: no length is checked, the inner loop reads
the short sequence past its end, and the run has undefined behaviour. -/
theorem hullWhite_short_sequence (m : CMath K) (draw : Nat → K)
    (initialInterestRate : K) (thetaValues alphaValues sigmaValues : List K)
    (timeHorizon timeStep : K)
    (hdiv : RoundedDivision m.div) (hs : 0 < timeStep) (hh : 0 ≤ timeHorizon)
    (hN : ⌊m.div timeHorizon timeStep⌋₊ < 2147483647)
    (hshort : thetaValues.length < ⌊m.div timeHorizon timeStep⌋₊
      ∨ alphaValues.length < ⌊m.div timeHorizon timeStep⌋₊
      ∨ sigmaValues.length < ⌊m.div timeHorizon timeStep⌋₊) :
    simulateHullAndWhiteModel m draw initialInterestRate thetaValues alphaValues sigmaValues
        timeHorizon timeStep = .undefinedBehaviour
    ∧ simulateHullAndWhiteModel m draw initialInterestRate thetaValues alphaValues sigmaValues
        timeHorizon timeStep ≠ .raised SimError.InsufficientParameterLengthError := by
  have hq : 0 ≤ m.div timeHorizon timeStep := hdiv.1 _ _ hh hs
  have h := simulateHullAndWhiteModel_short m draw initialInterestRate thetaValues alphaValues
    sigmaValues timeHorizon timeStep hs hq hN hshort
  refine ⟨h, ?_⟩
  rw [h]
  exact fun hcontra => Outcome.noConfusion hcontra

/-- C10, witness: the call of `main` in `HM.cpp`, three entries per sequence and
`N = 100`. -/
theorem hullWhite_short_sequence_witness :
    ((0 : ℝ) < 0.01 ∧ (0 : ℝ) ≤ 1 ∧ ⌊(1 : ℝ) / 0.01⌋₊ < 2147483647
      ∧ [(0.03 : ℝ), 0.02, 0.025].length < ⌊(1 : ℝ) / 0.01⌋₊) ∧
    simulateHullAndWhiteModel (⟨Real.sqrt, Real.exp, fun x y => x ^ y, fun x y => x / y⟩ : CMath ℝ) (fun _ => 0)
      0.02 [0.03, 0.02, 0.025] [0.01, 0.015, 0.012] [0.01, 0.015, 0.02] 1 0.01
        = .undefinedBehaviour
    ∧ simulateHullAndWhiteModel (⟨Real.sqrt, Real.exp, fun x y => x ^ y, fun x y => x / y⟩ : CMath ℝ)
        (fun _ => 0) 0.02 [0.03, 0.02, 0.025] [0.01, 0.015, 0.012] [0.01, 0.015, 0.02] 1 0.01
        ≠ .raised SimError.InsufficientParameterLengthError :=
  have h1 : (0 : ℝ) < 0.01 := by norm_num
  have h2 : (0 : ℝ) ≤ 1 := by norm_num
  have h3 : ⌊(1 : ℝ) / 0.01⌋₊ < 2147483647 := by rw [floor_one_div_hundredth]; norm_num
  have h4 : [(0.03 : ℝ), 0.02, 0.025].length < ⌊(1 : ℝ) / 0.01⌋₊ := by
    rw [floor_one_div_hundredth]; simp
  ⟨⟨h1, h2, h3, h4⟩,
    hullWhite_short_sequence _ (fun _ => 0) 0.02 [0.03, 0.02, 0.025] [0.01, 0.015, 0.012]
      [0.01, 0.015, 0.02] 1 0.01 roundedDivision_div h1 h2 h3 (Or.inl h4)⟩

end ErrorHandling

/-! ## Shape of the path -/

section PathShape

variable {K : Type} [LinearOrderedField K]

theorem hasInitialRow_map_range (timeStep : K) (st : Nat → K) (N : Nat) :
    HasInitialRow N (st 0)
      ⟨(List.range (N + 1)).map (gridTime timeStep), (List.range (N + 1)).map st⟩ := by
  refine ⟨by simp, by simp, ?_, ?_⟩
  · show ((List.range (N + 1)).map (gridTime timeStep))[0]? = some 0
    rw [getElem?_map_range _ N 0 (Nat.zero_le N)]
    simp [gridTime]
  · show ((List.range (N + 1)).map st)[0]? = some (st 0)
    rw [getElem?_map_range _ N 0 (Nat.zero_le N)]

theorem hasInitialForwardRow_replicate (timeStep : K) (st : Nat → K) (hst : st 0 = 0)
    (N P : Nat) :
    HasInitialForwardRow N P
      ⟨(List.range (N + 1)).map (gridTime timeStep),
        List.replicate P ((List.range (N + 1)).map st)⟩ := by
  refine ⟨by simp, ?_, by simp, ?_⟩
  · show ((List.range (N + 1)).map (gridTime timeStep))[0]? = some 0
    rw [getElem?_map_range _ N 0 (Nat.zero_le N)]
    simp [gridTime]
  · intro row hrow
    rw [List.eq_of_mem_replicate hrow]
    refine ⟨by simp, ?_⟩
    rw [getElem?_map_range _ N 0 (Nat.zero_le N), hst]

/-- C11, counterexample. With `timeHorizon = 2147483648` and `timeStep = 1` (a
valid grid: both positive, step below horizon) the quotient `2147483648` is no
`int`: the CEV, the Ho-Lee and the HJM run of the parameters of `main` are
undefined at the conversion and produce no path of `N + 1` rows. -/
theorem path_initial_row_counterexample :
    ((0 : ℝ) < 2147483648 ∧ (0 : ℝ) < 1 ∧ (1 : ℝ) ≤ 2147483648) ∧
    simulateConstantElasticityVarianceModel
      (⟨Real.sqrt, Real.exp, fun x y => x ^ y, fun x y => x / y⟩ : CMath ℝ) (fun _ => 0)
      0.1 0.2 0.5 0.02 0.05 2147483648 1 = Outcome.undefinedBehaviour ∧
    simulateHoAndLeeModel (⟨Real.sqrt, Real.exp, fun x y => x ^ y, fun x y => x / y⟩ : CMath ℝ)
      (fun _ => 0) 0.02 0.01 2147483648 1 = Outcome.undefinedBehaviour ∧
    simulateHeathJarrowMortonModel (⟨Real.sqrt, Real.exp, fun x y => x ^ y, fun x y => x / y⟩ : CMath ℝ)
      (fun _ => 0) 0.1 0.02 2147483648 1 5 = Outcome.undefinedBehaviour := by
  have hnum : numberOfTimeSteps (⟨Real.sqrt, Real.exp, fun x y => x ^ y, fun x y => x / y⟩ : CMath ℝ)
      2147483648 1 = .undefinedBehaviour :=
    numberOfTimeSteps_overflow _ _ _ (by norm_num)
      (by show (2147483648 : ℝ) ≤ 2147483648 / 1; norm_num)
  refine ⟨by norm_num, ?_, ?_, ?_⟩
  · unfold simulateConstantElasticityVarianceModel
    rw [hnum]
    rfl
  · unfold simulateHoAndLeeModel
    rw [hnum]
    rfl
  · unfold simulateHeathJarrowMortonModel
    rw [hnum]
    rfl

/-- C11, amended. For every model and every grid with
`0 < timeStep ≤ timeHorizon` whose step count `N`, the truncation
`static_cast<int>(timeHorizon / timeStep)` of the rounded double quotient
(`floor(timeHorizon / timeStep)` where the division is exact), is below
`2147483647`, the run completes with exactly `N + 1` rows and its row `0` is
`(0, initial condition)`: the supplied initial rate for Vasicek, CIR, CEV, CKLS
and Hull-White (parameter sequences of at least `N` entries), `0` for Ho-Lee and
for each of the `P ≥ 0` HJM paths. -/
theorem path_has_initial_row [FloorRing K] (m : CMath K) (draw : Nat → K)
    (timeHorizon timeStep : K)
    (hdiv : RoundedDivision m.div) (hs : 0 < timeStep) (hh : timeStep ≤ timeHorizon)
    (hN : ⌊m.div timeHorizon timeStep⌋₊ < 2147483647) :
    (∀ a b c x0, ∃ p, simulateVasicekModel m draw a b c x0 timeHorizon timeStep = .completed p
      ∧ HasInitialRow ⌊m.div timeHorizon timeStep⌋₊ x0 p) ∧
    (∀ a b c x0, ∃ p,
      simulateCoxIngersollRossModel m draw a b c x0 timeHorizon timeStep = .completed p
      ∧ HasInitialRow ⌊m.div timeHorizon timeStep⌋₊ x0 p) ∧
    (∀ a b c d x0, ∃ p,
      simulateConstantElasticityVarianceModel m draw a b c d x0 timeHorizon timeStep
        = .completed p
      ∧ HasInitialRow ⌊m.div timeHorizon timeStep⌋₊ x0 p) ∧
    (∀ a b c d x0, ∃ p,
      simulateChanKarolyiLongstaffSandersModel m draw a b c d x0 timeHorizon timeStep
        = .completed p
      ∧ HasInitialRow ⌊m.div timeHorizon timeStep⌋₊ x0 p) ∧
    (∀ a b, ∃ p, simulateHoAndLeeModel m draw a b timeHorizon timeStep = .completed p
      ∧ HasInitialRow ⌊m.div timeHorizon timeStep⌋₊ 0 p) ∧
    (∀ x0 (thetaValues alphaValues sigmaValues : List K),
      ⌊m.div timeHorizon timeStep⌋₊ ≤ thetaValues.length →
      ⌊m.div timeHorizon timeStep⌋₊ ≤ alphaValues.length →
      ⌊m.div timeHorizon timeStep⌋₊ ≤ sigmaValues.length →
      ∃ p, simulateHullAndWhiteModel m draw x0 thetaValues alphaValues sigmaValues
        timeHorizon timeStep = .completed p
      ∧ HasInitialRow ⌊m.div timeHorizon timeStep⌋₊ x0 p) ∧
    (∀ a b (numberOfPaths : Nat), ∃ fp,
      simulateHeathJarrowMortonModel m draw a b timeHorizon timeStep (numberOfPaths : Int)
        = .completed fp
      ∧ HasInitialForwardRow ⌊m.div timeHorizon timeStep⌋₊ numberOfPaths fp) := by
  have hh0 : 0 ≤ m.div timeHorizon timeStep := hdiv.1 _ _ (le_trans hs.le hh) hs
  refine ⟨?_, ?_, ?_, ?_, ?_, ?_, ?_⟩
  · intro a b c x0
    exact ⟨_, simulateVasicekModel_eq m draw a b c x0 timeHorizon timeStep hs hh0 hN,
      hasInitialRow_map_range timeStep (vasicekState m draw a b c x0 timeStep) _⟩
  · intro a b c x0
    exact ⟨_, simulateCoxIngersollRossModel_eq m draw a b c x0 timeHorizon timeStep hs hh0 hN,
      hasInitialRow_map_range timeStep (cirState m draw a b c x0 timeStep) _⟩
  · intro a b c d x0
    exact ⟨_, simulateConstantElasticityVarianceModel_eq m draw a b c d x0 timeHorizon
      timeStep hs hh0 hN,
      hasInitialRow_map_range timeStep (cevState m draw a b c d x0 timeStep) _⟩
  · intro a b c d x0
    exact ⟨_, simulateChanKarolyiLongstaffSandersModel_eq m draw a b c d x0 timeHorizon
      timeStep hs hh0 hN,
      hasInitialRow_map_range timeStep (cklsState m draw a b c d x0 timeStep) _⟩
  · intro a b
    exact ⟨_, simulateHoAndLeeModel_eq m draw a b timeHorizon timeStep hs hh0 hN,
      hasInitialRow_map_range timeStep (hoLeeState m draw a b timeStep) _⟩
  · intro x0 thetaValues alphaValues sigmaValues hθ hα hσ
    exact ⟨_, simulateHullAndWhiteModel_eq m draw x0 thetaValues alphaValues sigmaValues
      timeHorizon timeStep hs hh0 hN hθ hα hσ,
      hasInitialRow_map_range timeStep
        (hullWhiteState m draw x0 thetaValues alphaValues sigmaValues timeStep) _⟩
  · intro a b numberOfPaths
    exact ⟨_, simulateHeathJarrowMortonModel_eq m draw a b timeHorizon timeStep numberOfPaths
      hs hh0 hN,
      hasInitialForwardRow_replicate timeStep (hjmState m draw a b timeStep) rfl _ _⟩

/-- C11, witness: the runs of `main` in `CEV.cpp`, `HoLee.cpp` and `HJM.cpp`
(`timeHorizon = 1.0`, `timeStep = 0.01`), every draw `0`. -/
theorem path_has_initial_row_witness :
    ((0 : ℝ) < 0.01 ∧ (0.01 : ℝ) ≤ 1 ∧ ⌊(1 : ℝ) / 0.01⌋₊ < 2147483647) ∧
    (∃ p, simulateConstantElasticityVarianceModel
        (⟨Real.sqrt, Real.exp, fun x y => x ^ y, fun x y => x / y⟩ : CMath ℝ) (fun _ => 0)
        0.1 0.2 0.5 0.02 0.05 1 0.01 = .completed p
      ∧ HasInitialRow ⌊(1 : ℝ) / 0.01⌋₊ (0.05 : ℝ) p) ∧
    (∃ p, simulateHoAndLeeModel (⟨Real.sqrt, Real.exp, fun x y => x ^ y, fun x y => x / y⟩ : CMath ℝ)
        (fun _ => 0) 0.02 0.01 1 0.01 = .completed p
      ∧ HasInitialRow ⌊(1 : ℝ) / 0.01⌋₊ (0 : ℝ) p) ∧
    (∃ fp, simulateHeathJarrowMortonModel (⟨Real.sqrt, Real.exp, fun x y => x ^ y, fun x y => x / y⟩ : CMath ℝ)
        (fun _ => 0) 0.1 0.02 1 0.01 ((5 : Nat) : Int) = .completed fp
      ∧ HasInitialForwardRow ⌊(1 : ℝ) / 0.01⌋₊ 5 fp) :=
  have h1 : (0 : ℝ) < 0.01 := by norm_num
  have h2 : (0.01 : ℝ) ≤ 1 := by norm_num
  have h3 : ⌊(1 : ℝ) / 0.01⌋₊ < 2147483647 := by rw [floor_one_div_hundredth]; norm_num
  ⟨⟨h1, h2, h3⟩,
    (path_has_initial_row _ (fun _ => 0) 1 0.01
        roundedDivision_div h1 h2 h3).2.2.1 0.1 0.2 0.5 0.02 0.05,
    (path_has_initial_row _ (fun _ => 0) 1 0.01 roundedDivision_div h1 h2 h3).2.2.2.2.1 0.02 0.01,
    (path_has_initial_row _ (fun _ => 0) 1 0.01
        roundedDivision_div h1 h2 h3).2.2.2.2.2.2 0.1 0.02 5⟩

end PathShape

/-! ## Dependence on the draws -/

section DrawDependence

variable {K : Type} [LinearOrderedField K]

theorem Outcome.bind_congr_of {σ τ : Type} (x : Outcome σ) (f g : σ → Outcome τ)
    (h : ∀ a, x = .completed a → f a = g a) : (x >>= f) = (x >>= g) := by
  cases x with
  | completed a => exact h a rfl
  | raised e => rfl
  | lengthError => rfl
  | undefinedBehaviour => rfl

theorem foldlM_congr_mem {σ ι : Type} (f g : σ → ι → Outcome σ) (l : List ι)
    (h : ∀ s i, i ∈ l → f s i = g s i) (s : σ) :
    l.foldlM f s = l.foldlM g s := by
  induction l generalizing s with
  | nil => rfl
  | cons a l ih =>
    rw [List.foldlM_cons, List.foldlM_cons, h s a (List.mem_cons_self a l)]
    exact bind_congr (fun s' => ih (fun s i hi => h s i (List.mem_cons_of_mem a hi)) s')

theorem toNat_le_floor [FloorRing K] (m : CMath K) (timeHorizon timeStep : K) (n : Int)
    (h : numberOfTimeSteps m timeHorizon timeStep = .completed n) :
    n.toNat ≤ ⌊m.div timeHorizon timeStep⌋₊ := by
  unfold numberOfTimeSteps staticCastInt at h
  by_cases hs : timeStep = 0
  · rw [if_pos hs] at h
    exact Outcome.noConfusion h
  · rw [if_neg hs] at h
    by_cases hq : 0 ≤ m.div timeHorizon timeStep
    · simp only [if_pos hq] at h
      split at h
      · injection h with h
        rw [← h, Int.floor_toNat]
      · exact Outcome.noConfusion h
    · simp only [if_neg hq] at h
      split at h
      · injection h with h
        have hle : ⌈m.div timeHorizon timeStep⌉ ≤ 0 := by
          rw [Int.ceil_le]
          exact_mod_cast (not_le.1 hq).le
        rw [← h, Int.toNat_of_nonpos hle]
        exact Nat.zero_le _
      · exact Outcome.noConfusion h

/-- The draws read by a run: the loop index `i` ranges over `1 .. N`. -/
theorem draw_eq_of_mem [FloorRing K] (m : CMath K) (draw draw' : Nat → K)
    (timeHorizon timeStep : K)
    (hd : ∀ i, 1 ≤ i → i ≤ ⌊m.div timeHorizon timeStep⌋₊ → draw i = draw' i)
    (n : Int) (hn : numberOfTimeSteps m timeHorizon timeStep = .completed n)
    (i : Nat) (hi : i ∈ List.range' 1 n.toNat) : draw i = draw' i := by
  have hle := toNat_le_floor m timeHorizon timeStep n hn
  rw [List.mem_range'_1] at hi
  exact hd i hi.1 (by omega)

theorem simulateVasicekModel_congr [FloorRing K] (m : CMath K) (draw draw' : Nat → K)
    (a b c x0 timeHorizon timeStep : K)
    (hd : ∀ i, 1 ≤ i → i ≤ ⌊m.div timeHorizon timeStep⌋₊ → draw i = draw' i) :
    simulateVasicekModel m draw a b c x0 timeHorizon timeStep
      = simulateVasicekModel m draw' a b c x0 timeHorizon timeStep := by
  unfold simulateVasicekModel
  refine Outcome.bind_congr_of _ _ _ (fun n hn => ?_)
  refine bind_congr (fun tv => bind_congr (fun iv => bind_congr (fun iv0 => ?_)))
  refine foldlM_congr_mem _ _ _ (fun p i hi => ?_) _
  rw [draw_eq_of_mem m draw draw' timeHorizon timeStep hd n hn i hi]

theorem simulateCoxIngersollRossModel_congr [FloorRing K] (m : CMath K) (draw draw' : Nat → K)
    (a b c x0 timeHorizon timeStep : K)
    (hd : ∀ i, 1 ≤ i → i ≤ ⌊m.div timeHorizon timeStep⌋₊ → draw i = draw' i) :
    simulateCoxIngersollRossModel m draw a b c x0 timeHorizon timeStep
      = simulateCoxIngersollRossModel m draw' a b c x0 timeHorizon timeStep := by
  unfold simulateCoxIngersollRossModel
  refine Outcome.bind_congr_of _ _ _ (fun n hn => ?_)
  refine bind_congr (fun tv => bind_congr (fun iv => bind_congr (fun iv0 => ?_)))
  refine foldlM_congr_mem _ _ _ (fun p i hi => ?_) _
  rw [draw_eq_of_mem m draw draw' timeHorizon timeStep hd n hn i hi]

theorem simulateConstantElasticityVarianceModel_congr [FloorRing K] (m : CMath K) (draw draw' : Nat → K)
    (a b c e x0 timeHorizon timeStep : K)
    (hd : ∀ i, 1 ≤ i → i ≤ ⌊m.div timeHorizon timeStep⌋₊ → draw i = draw' i) :
    simulateConstantElasticityVarianceModel m draw a b c e x0 timeHorizon timeStep
      = simulateConstantElasticityVarianceModel m draw' a b c e x0 timeHorizon timeStep := by
  unfold simulateConstantElasticityVarianceModel
  refine Outcome.bind_congr_of _ _ _ (fun n hn => ?_)
  refine bind_congr (fun tv => bind_congr (fun iv => bind_congr (fun iv0 => ?_)))
  refine foldlM_congr_mem _ _ _ (fun p i hi => ?_) _
  rw [draw_eq_of_mem m draw draw' timeHorizon timeStep hd n hn i hi]

theorem simulateChanKarolyiLongstaffSandersModel_congr [FloorRing K] (m : CMath K) (draw draw' : Nat → K)
    (a b c e x0 timeHorizon timeStep : K)
    (hd : ∀ i, 1 ≤ i → i ≤ ⌊m.div timeHorizon timeStep⌋₊ → draw i = draw' i) :
    simulateChanKarolyiLongstaffSandersModel m draw a b c e x0 timeHorizon timeStep
      = simulateChanKarolyiLongstaffSandersModel m draw' a b c e x0 timeHorizon timeStep := by
  unfold simulateChanKarolyiLongstaffSandersModel
  refine Outcome.bind_congr_of _ _ _ (fun n hn => ?_)
  refine bind_congr (fun tv => bind_congr (fun iv => bind_congr (fun iv0 => ?_)))
  refine foldlM_congr_mem _ _ _ (fun p i hi => ?_) _
  rw [draw_eq_of_mem m draw draw' timeHorizon timeStep hd n hn i hi]

theorem simulateHoAndLeeModel_congr [FloorRing K] (m : CMath K) (draw draw' : Nat → K)
    (a b timeHorizon timeStep : K)
    (hd : ∀ i, 1 ≤ i → i ≤ ⌊m.div timeHorizon timeStep⌋₊ → draw i = draw' i) :
    simulateHoAndLeeModel m draw a b timeHorizon timeStep
      = simulateHoAndLeeModel m draw' a b timeHorizon timeStep := by
  unfold simulateHoAndLeeModel
  refine Outcome.bind_congr_of _ _ _ (fun n hn => ?_)
  refine bind_congr (fun tv => bind_congr (fun iv => bind_congr (fun iv0 => ?_)))
  refine foldlM_congr_mem _ _ _ (fun p i hi => ?_) _
  rw [draw_eq_of_mem m draw draw' timeHorizon timeStep hd n hn i hi]

theorem simulateHullAndWhiteModel_congr [FloorRing K] (m : CMath K) (draw draw' : Nat → K)
    (x0 : K) (thetaValues alphaValues sigmaValues : List K) (timeHorizon timeStep : K)
    (hd : ∀ i, 1 ≤ i → i ≤ ⌊m.div timeHorizon timeStep⌋₊ → draw i = draw' i) :
    simulateHullAndWhiteModel m draw x0 thetaValues alphaValues sigmaValues timeHorizon timeStep
      = simulateHullAndWhiteModel m draw' x0 thetaValues alphaValues sigmaValues timeHorizon
          timeStep := by
  unfold simulateHullAndWhiteModel
  refine Outcome.bind_congr_of _ _ _ (fun n hn => ?_)
  refine bind_congr (fun tv => bind_congr (fun iv => bind_congr (fun iv0 => ?_)))
  refine foldlM_congr_mem _ _ _ (fun p i hi => ?_) _
  rw [draw_eq_of_mem m draw draw' timeHorizon timeStep hd n hn i hi]

theorem simulateHeathJarrowMortonModel_congr [FloorRing K] (m : CMath K)
    (draw draw' : Nat → K) (a b timeHorizon timeStep : K) (numberOfPaths : Int)
    (hd : ∀ i, 1 ≤ i → i ≤ ⌊m.div timeHorizon timeStep⌋₊ → draw i = draw' i) :
    simulateHeathJarrowMortonModel m draw a b timeHorizon timeStep numberOfPaths
      = simulateHeathJarrowMortonModel m draw' a b timeHorizon timeStep numberOfPaths := by
  unfold simulateHeathJarrowMortonModel
  refine Outcome.bind_congr_of _ _ _ (fun n hn => ?_)
  refine bind_congr (fun tv => bind_congr (fun row => bind_congr (fun rows => ?_)))
  refine foldlM_congr_mem _ _ _ (fun p i hi => ?_) _
  rw [draw_eq_of_mem m draw draw' timeHorizon timeStep hd n hn i hi]

/-- C12. For every model, two runs given the same parameters and the same valid
grid of `N` steps, and draw sequences that agree on their entries `1 .. N`,
complete with the same result: every time and every state is equal. -/
theorem path_depends_on_first_draws [FloorRing K] (m : CMath K) (draw draw' : Nat → K)
    (timeHorizon timeStep : K)
    (hdiv : RoundedDivision m.div) (hs : 0 < timeStep) (hh : timeStep ≤ timeHorizon)
    (hN : ⌊m.div timeHorizon timeStep⌋₊ < 2147483647)
    (hd : ∀ i, 1 ≤ i → i ≤ ⌊m.div timeHorizon timeStep⌋₊ → draw i = draw' i) :
    (∀ a b c x0, ∃ p, simulateVasicekModel m draw a b c x0 timeHorizon timeStep = .completed p
      ∧ simulateVasicekModel m draw' a b c x0 timeHorizon timeStep = .completed p) ∧
    (∀ a b c x0, ∃ p,
      simulateCoxIngersollRossModel m draw a b c x0 timeHorizon timeStep = .completed p
      ∧ simulateCoxIngersollRossModel m draw' a b c x0 timeHorizon timeStep = .completed p) ∧
    (∀ a b c e x0, ∃ p,
      simulateConstantElasticityVarianceModel m draw a b c e x0 timeHorizon timeStep
        = .completed p
      ∧ simulateConstantElasticityVarianceModel m draw' a b c e x0 timeHorizon timeStep
        = .completed p) ∧
    (∀ a b c e x0, ∃ p,
      simulateChanKarolyiLongstaffSandersModel m draw a b c e x0 timeHorizon timeStep
        = .completed p
      ∧ simulateChanKarolyiLongstaffSandersModel m draw' a b c e x0 timeHorizon timeStep
        = .completed p) ∧
    (∀ a b, ∃ p, simulateHoAndLeeModel m draw a b timeHorizon timeStep = .completed p
      ∧ simulateHoAndLeeModel m draw' a b timeHorizon timeStep = .completed p) ∧
    (∀ x0 (thetaValues alphaValues sigmaValues : List K),
      ⌊m.div timeHorizon timeStep⌋₊ ≤ thetaValues.length →
      ⌊m.div timeHorizon timeStep⌋₊ ≤ alphaValues.length →
      ⌊m.div timeHorizon timeStep⌋₊ ≤ sigmaValues.length →
      ∃ p, simulateHullAndWhiteModel m draw x0 thetaValues alphaValues sigmaValues
        timeHorizon timeStep = .completed p
      ∧ simulateHullAndWhiteModel m draw' x0 thetaValues alphaValues sigmaValues
        timeHorizon timeStep = .completed p) ∧
    (∀ a b (numberOfPaths : Nat), ∃ fp,
      simulateHeathJarrowMortonModel m draw a b timeHorizon timeStep (numberOfPaths : Int)
        = .completed fp
      ∧ simulateHeathJarrowMortonModel m draw' a b timeHorizon timeStep (numberOfPaths : Int)
        = .completed fp) := by
  have hh0 : 0 ≤ m.div timeHorizon timeStep := hdiv.1 _ _ (le_trans hs.le hh) hs
  refine ⟨?_, ?_, ?_, ?_, ?_, ?_, ?_⟩
  · intro a b c x0
    have h := simulateVasicekModel_eq m draw a b c x0 timeHorizon timeStep hs hh0 hN
    exact ⟨_, h, by rw [← simulateVasicekModel_congr m draw draw' a b c x0 _ _ hd, h]⟩
  · intro a b c x0
    have h := simulateCoxIngersollRossModel_eq m draw a b c x0 timeHorizon timeStep hs hh0 hN
    exact ⟨_, h, by rw [← simulateCoxIngersollRossModel_congr m draw draw' a b c x0 _ _ hd, h]⟩
  · intro a b c e x0
    have h := simulateConstantElasticityVarianceModel_eq m draw a b c e x0 timeHorizon
      timeStep hs hh0 hN
    exact ⟨_, h, by
      rw [← simulateConstantElasticityVarianceModel_congr m draw draw' a b c e x0 _ _ hd, h]⟩
  · intro a b c e x0
    have h := simulateChanKarolyiLongstaffSandersModel_eq m draw a b c e x0 timeHorizon
      timeStep hs hh0 hN
    exact ⟨_, h, by
      rw [← simulateChanKarolyiLongstaffSandersModel_congr m draw draw' a b c e x0 _ _ hd, h]⟩
  · intro a b
    have h := simulateHoAndLeeModel_eq m draw a b timeHorizon timeStep hs hh0 hN
    exact ⟨_, h, by rw [← simulateHoAndLeeModel_congr m draw draw' a b _ _ hd, h]⟩
  · intro x0 thetaValues alphaValues sigmaValues hθ hα hσ
    have h := simulateHullAndWhiteModel_eq m draw x0 thetaValues alphaValues sigmaValues
      timeHorizon timeStep hs hh0 hN hθ hα hσ
    exact ⟨_, h, by
      rw [← simulateHullAndWhiteModel_congr m draw draw' x0 thetaValues alphaValues
        sigmaValues _ _ hd, h]⟩
  · intro a b numberOfPaths
    have h := simulateHeathJarrowMortonModel_eq m draw a b timeHorizon timeStep numberOfPaths
      hs hh0 hN
    exact ⟨_, h, by
      rw [← simulateHeathJarrowMortonModel_congr m draw draw' a b _ _ numberOfPaths hd, h]⟩

/-- C12, witness: the runs of `main` in `Vasicek.cpp` and `HM.cpp` (with `100`
parameter entries each) on two draw sequences that agree on the entries
`1 .. 100` and differ afterwards. -/
theorem path_depends_on_first_draws_witness :
    ((0 : ℝ) < 0.01 ∧ (0.01 : ℝ) ≤ 1 ∧ ⌊(1 : ℝ) / 0.01⌋₊ < 2147483647
      ∧ (∀ i : Nat, 1 ≤ i → i ≤ ⌊(1 : ℝ) / 0.01⌋₊ →
          (if i ≤ 100 then (i : ℝ) else 0) = (i : ℝ))) ∧
    (∃ p, simulateVasicekModel (⟨Real.sqrt, Real.exp, fun x y => x ^ y, fun x y => x / y⟩ : CMath ℝ)
        (fun i => if i ≤ 100 then (i : ℝ) else 0) 0.1 0.2 0.02 0.05 1 0.01 = .completed p
      ∧ simulateVasicekModel (⟨Real.sqrt, Real.exp, fun x y => x ^ y, fun x y => x / y⟩ : CMath ℝ)
        (fun i => (i : ℝ)) 0.1 0.2 0.02 0.05 1 0.01 = .completed p) ∧
    (∃ p, simulateHullAndWhiteModel (⟨Real.sqrt, Real.exp, fun x y => x ^ y, fun x y => x / y⟩ : CMath ℝ)
        (fun i => if i ≤ 100 then (i : ℝ) else 0) 0.02 (List.replicate 100 0.03)
        (List.replicate 100 0.01) (List.replicate 100 0.01) 1 0.01 = .completed p
      ∧ simulateHullAndWhiteModel (⟨Real.sqrt, Real.exp, fun x y => x ^ y, fun x y => x / y⟩ : CMath ℝ)
        (fun i => (i : ℝ)) 0.02 (List.replicate 100 0.03)
        (List.replicate 100 0.01) (List.replicate 100 0.01) 1 0.01 = .completed p) :=
  have h1 : (0 : ℝ) < 0.01 := by norm_num
  have h2 : (0.01 : ℝ) ≤ 1 := by norm_num
  have h3 : ⌊(1 : ℝ) / 0.01⌋₊ < 2147483647 := by rw [floor_one_div_hundredth]; norm_num
  have h4 : ∀ i : Nat, 1 ≤ i → i ≤ ⌊(1 : ℝ) / 0.01⌋₊ →
      (if i ≤ 100 then (i : ℝ) else 0) = (i : ℝ) := by
    intro i _ hi
    rw [floor_one_div_hundredth] at hi
    rw [if_pos hi]
  have h5 : ∀ x : ℝ, ⌊(1 : ℝ) / 0.01⌋₊ ≤ (List.replicate 100 x).length := by
    intro x
    rw [floor_one_div_hundredth]; simp
  ⟨⟨h1, h2, h3, h4⟩,
    (path_depends_on_first_draws _ (fun i => if i ≤ 100 then (i : ℝ) else 0) (fun i => (i : ℝ))
      1 0.01 roundedDivision_div h1 h2 h3 h4).1 0.1 0.2 0.02 0.05,
    (path_depends_on_first_draws _ (fun i => if i ≤ 100 then (i : ℝ) else 0) (fun i => (i : ℝ))
      1 0.01 roundedDivision_div h1 h2 h3 h4).2.2.2.2.2.1 0.02 _ _ _ (h5 _) (h5 _) (h5 _)⟩

end DrawDependence

/-! ## Hull-White: closed form of the three integrals -/

section HullWhiteSums

variable {K : Type} [LinearOrderedField K]

theorem hullWhiteSums_succ (m : CMath K) (thetaValues alphaValues sigmaValues : List K)
    (timeStep d : K) (i : Nat) :
    hullWhiteSums m thetaValues alphaValues sigmaValues timeStep d (i + 1)
      = ((hullWhiteSums m thetaValues alphaValues sigmaValues timeStep d i).1
            + alphaValues.getD i 0 * timeStep,
         (hullWhiteSums m thetaValues alphaValues sigmaValues timeStep d i).2.1
            + thetaValues.getD i 0
              * m.exp (-((hullWhiteSums m thetaValues alphaValues sigmaValues timeStep d i).1
                  + alphaValues.getD i 0 * timeStep)),
         (hullWhiteSums m thetaValues alphaValues sigmaValues timeStep d i).2.2
            + sigmaValues.getD i 0
              * m.exp (-((hullWhiteSums m thetaValues alphaValues sigmaValues timeStep d i).1
                  + alphaValues.getD i 0 * timeStep))
              * d) := by
  unfold hullWhiteSums
  rw [List.range_succ, List.foldl_append]
  rfl

theorem cumulativeAlpha_succ (alphaValues : List K) (timeStep : K) (n : Nat) :
    cumulativeAlpha alphaValues timeStep (n + 1)
      = cumulativeAlpha alphaValues timeStep n + alphaValues.getD n 0 * timeStep := by
  unfold cumulativeAlpha
  rw [Finset.sum_range_succ]
  ring

theorem hullWhiteSums_closed (m : CMath K) (thetaValues alphaValues sigmaValues : List K)
    (timeStep d : K) (i : Nat) :
    hullWhiteSums m thetaValues alphaValues sigmaValues timeStep d i
      = (cumulativeAlpha alphaValues timeStep i,
         ∑ j in Finset.range i,
            thetaValues.getD j 0 * m.exp (-(cumulativeAlpha alphaValues timeStep (j + 1))),
         d * ∑ j in Finset.range i,
            sigmaValues.getD j 0 * m.exp (-(cumulativeAlpha alphaValues timeStep (j + 1)))) := by
  induction i with
  | zero => simp [hullWhiteSums, cumulativeAlpha]
  | succ i ih =>
    rw [hullWhiteSums_succ, ih, Finset.sum_range_succ, Finset.sum_range_succ,
      cumulativeAlpha_succ]
    refine Prod.ext rfl (Prod.ext rfl ?_)
    simp only
    ring

theorem hullWhiteState_closed (m : CMath K) (draw : Nat → K) (initialInterestRate : K)
    (thetaValues alphaValues sigmaValues : List K) (timeStep : K) (i : Nat) (hi : 1 ≤ i) :
    hullWhiteState m draw initialInterestRate thetaValues alphaValues sigmaValues timeStep i
      = initialInterestRate * m.exp (-(cumulativeAlpha alphaValues timeStep i))
        + ∑ j in Finset.range i,
            thetaValues.getD j 0 * m.exp (-(cumulativeAlpha alphaValues timeStep (j + 1)))
        + draw i * ∑ j in Finset.range i,
            sigmaValues.getD j 0 * m.exp (-(cumulativeAlpha alphaValues timeStep (j + 1))) := by
  obtain ⟨k, rfl⟩ : ∃ k, i = k + 1 := ⟨i - 1, by omega⟩
  rw [hullWhiteState, hullWhiteSums_closed]

/-- C13. In a Hull-White run of `N` steps with theta, alpha and sigma of at least
`N` entries, for every step `i` in `1 .. N` and every draw sequence,
`state_i = x0 * exp(-A_i) + sum_(j < i) theta_j * exp(-A_(j+1))
  + d_i * sum_(j < i) sigma_j * exp(-A_(j+1))`
with `A_n = timeStep * (alpha_0 + ... + alpha_(n-1))`: each inner term uses `I1`
after `alpha_j * timeStep` has been added, and the one draw `d_i` multiplies the
whole stochastic sum. -/
theorem hullWhite_state_formula [FloorRing K] (m : CMath K) (draw : Nat → K)
    (initialInterestRate : K) (thetaValues alphaValues sigmaValues : List K)
    (timeHorizon timeStep : K)
    (hdiv : RoundedDivision m.div) (hs : 0 < timeStep) (hh : 0 ≤ timeHorizon)
    (hN : ⌊m.div timeHorizon timeStep⌋₊ < 2147483647)
    (hθ : ⌊m.div timeHorizon timeStep⌋₊ ≤ thetaValues.length)
    (hα : ⌊m.div timeHorizon timeStep⌋₊ ≤ alphaValues.length)
    (hσ : ⌊m.div timeHorizon timeStep⌋₊ ≤ sigmaValues.length) :
    ∃ p, simulateHullAndWhiteModel m draw initialInterestRate thetaValues alphaValues
        sigmaValues timeHorizon timeStep = .completed p
      ∧ ∀ i, 1 ≤ i → i ≤ ⌊m.div timeHorizon timeStep⌋₊ →
          p.interestRateValues[i]? = some
            (initialInterestRate * m.exp (-(cumulativeAlpha alphaValues timeStep i))
              + ∑ j in Finset.range i,
                  thetaValues.getD j 0
                    * m.exp (-(cumulativeAlpha alphaValues timeStep (j + 1)))
              + draw i * ∑ j in Finset.range i,
                  sigmaValues.getD j 0
                    * m.exp (-(cumulativeAlpha alphaValues timeStep (j + 1)))) := by
  have hq : 0 ≤ m.div timeHorizon timeStep := hdiv.1 _ _ hh hs
  refine ⟨_, simulateHullAndWhiteModel_eq m draw initialInterestRate thetaValues alphaValues
    sigmaValues timeHorizon timeStep hs hq hN hθ hα hσ, ?_⟩
  intro i hi1 hiN
  rw [getElem?_map_range _ _ i hiN, hullWhiteState_closed m draw _ _ _ _ _ i hi1]

/-- C13, witness: the parameters of `main` in `HM.cpp` on a grid of three steps
(`timeHorizon = 3`, `timeStep = 1`), draws `d_i = i`. -/
theorem hullWhite_state_formula_witness :
    ((0 : ℝ) < 1 ∧ (0 : ℝ) ≤ 3 ∧ ⌊(3 : ℝ) / 1⌋₊ < 2147483647
      ∧ ⌊(3 : ℝ) / 1⌋₊ ≤ [(0.03 : ℝ), 0.02, 0.025].length) ∧
    ∃ p, simulateHullAndWhiteModel (⟨Real.sqrt, Real.exp, fun x y => x ^ y, fun x y => x / y⟩ : CMath ℝ)
        (fun i => (i : ℝ)) 0.02 [0.03, 0.02, 0.025] [0.01, 0.015, 0.012] [0.01, 0.015, 0.02]
        3 1 = .completed p
      ∧ ∀ i, 1 ≤ i → i ≤ ⌊(3 : ℝ) / 1⌋₊ →
          p.interestRateValues[i]? = some
            ((0.02 : ℝ) * Real.exp (-(cumulativeAlpha [0.01, 0.015, 0.012] 1 i))
              + ∑ j in Finset.range i,
                  [(0.03 : ℝ), 0.02, 0.025].getD j 0
                    * Real.exp (-(cumulativeAlpha [0.01, 0.015, 0.012] 1 (j + 1)))
              + (i : ℝ) * ∑ j in Finset.range i,
                  [(0.01 : ℝ), 0.015, 0.02].getD j 0
                    * Real.exp (-(cumulativeAlpha [0.01, 0.015, 0.012] 1 (j + 1)))) :=
  have h0 : ⌊(3 : ℝ) / 1⌋₊ = 3 := by
    rw [Nat.floor_eq_iff (by norm_num)]; norm_num
  have h1 : (0 : ℝ) < 1 := by norm_num
  have h2 : (0 : ℝ) ≤ 3 := by norm_num
  have h3 : ⌊(3 : ℝ) / 1⌋₊ < 2147483647 := by rw [h0]; norm_num
  have h4 : ∀ a b c : ℝ, ⌊(3 : ℝ) / 1⌋₊ ≤ [a, b, c].length := by
    intro a b c; rw [h0]; simp
  ⟨⟨h1, h2, h3, h4 _ _ _⟩,
    hullWhite_state_formula _ (fun i => (i : ℝ)) 0.02 [0.03, 0.02, 0.025]
      [0.01, 0.015, 0.012] [0.01, 0.015, 0.02] 3 1
          roundedDivision_div h1 h2 h3 (h4 _ _ _) (h4 _ _ _)
      (h4 _ _ _)⟩

end HullWhiteSums

/-! ## Hull-White: dependence on one draw, the incremental scheme, index ranges -/

section HullWhiteBehaviour

variable {K : Type} [LinearOrderedField K]

/-- C19. In a Hull-White run of `N` steps (sequences of at least `N` entries),
the state of a step `i` in `1 .. N` depends on the draws through `d_i` alone: two
draw sequences with the same `i`-th entry give the same `state_i` whatever their
other entries (hence whatever `state_(i-1)`) are, and there are `a` and `b`, the
same for every draw sequence, with `state_i = a + b * d_i`. -/
theorem hullWhite_state_depends_on_one_draw [FloorRing K] (m : CMath K)
    (initialInterestRate : K) (thetaValues alphaValues sigmaValues : List K)
    (timeHorizon timeStep : K)
    (hdiv : RoundedDivision m.div) (hs : 0 < timeStep) (hh : 0 ≤ timeHorizon)
    (hN : ⌊m.div timeHorizon timeStep⌋₊ < 2147483647)
    (hθ : ⌊m.div timeHorizon timeStep⌋₊ ≤ thetaValues.length)
    (hα : ⌊m.div timeHorizon timeStep⌋₊ ≤ alphaValues.length)
    (hσ : ⌊m.div timeHorizon timeStep⌋₊ ≤ sigmaValues.length)
    (i : Nat) (hi1 : 1 ≤ i) (hiN : i ≤ ⌊m.div timeHorizon timeStep⌋₊) :
    (∀ draw draw' : Nat → K, draw i = draw' i →
      ∃ p p', simulateHullAndWhiteModel m draw initialInterestRate thetaValues alphaValues
          sigmaValues timeHorizon timeStep = .completed p
        ∧ simulateHullAndWhiteModel m draw' initialInterestRate thetaValues alphaValues
          sigmaValues timeHorizon timeStep = .completed p'
        ∧ ∃ x, p.interestRateValues[i]? = some x ∧ p'.interestRateValues[i]? = some x) ∧
    (∃ a b : K, ∀ draw : Nat → K,
      ∃ p, simulateHullAndWhiteModel m draw initialInterestRate thetaValues alphaValues
          sigmaValues timeHorizon timeStep = .completed p
        ∧ p.interestRateValues[i]? = some (a + b * draw i)) := by
  have hq : 0 ≤ m.div timeHorizon timeStep := hdiv.1 _ _ hh hs
  have hrun := fun draw : Nat → K =>
    simulateHullAndWhiteModel_eq m draw initialInterestRate thetaValues alphaValues
      sigmaValues timeHorizon timeStep hs hq hN hθ hα hσ
  have hget : ∀ draw : Nat → K,
      ((List.range (⌊m.div timeHorizon timeStep⌋₊ + 1)).map
        (hullWhiteState m draw initialInterestRate thetaValues alphaValues sigmaValues
          timeStep))[i]?
      = some (initialInterestRate * m.exp (-(cumulativeAlpha alphaValues timeStep i))
          + ∑ j in Finset.range i,
              thetaValues.getD j 0 * m.exp (-(cumulativeAlpha alphaValues timeStep (j + 1)))
          + (∑ j in Finset.range i,
              sigmaValues.getD j 0 * m.exp (-(cumulativeAlpha alphaValues timeStep (j + 1))))
            * draw i) := by
    intro draw
    rw [getElem?_map_range _ _ i hiN, hullWhiteState_closed m draw _ _ _ _ _ i hi1,
      mul_comm (draw i)]
  constructor
  · intro draw draw' hdd
    refine ⟨_, _, hrun draw, hrun draw', _, hget draw, ?_⟩
    rw [hdd]
    exact hget draw'
  · exact ⟨_, _, fun draw => ⟨_, hrun draw, hget draw⟩⟩

/-- C19, witness: the parameters of `main` in `HM.cpp` on a grid of three steps
of size `1`, step `i = 2`. -/
theorem hullWhite_state_depends_on_one_draw_witness :
    ((0 : ℝ) < 1 ∧ (0 : ℝ) ≤ 3 ∧ ⌊(3 : ℝ) / 1⌋₊ < 2147483647
      ∧ ⌊(3 : ℝ) / 1⌋₊ ≤ [(0.03 : ℝ), 0.02, 0.025].length ∧ 1 ≤ 2 ∧ 2 ≤ ⌊(3 : ℝ) / 1⌋₊) ∧
    (∀ draw draw' : Nat → ℝ, draw 2 = draw' 2 →
      ∃ p p', simulateHullAndWhiteModel (⟨Real.sqrt, Real.exp, fun x y => x ^ y, fun x y => x / y⟩ : CMath ℝ)
          draw 0.02 [0.03, 0.02, 0.025] [0.01, 0.015, 0.012] [0.01, 0.015, 0.02] 3 1
          = .completed p
        ∧ simulateHullAndWhiteModel (⟨Real.sqrt, Real.exp, fun x y => x ^ y, fun x y => x / y⟩ : CMath ℝ)
          draw' 0.02 [0.03, 0.02, 0.025] [0.01, 0.015, 0.012] [0.01, 0.015, 0.02] 3 1
          = .completed p'
        ∧ ∃ x, p.interestRateValues[2]? = some x ∧ p'.interestRateValues[2]? = some x) ∧
    (∃ a b : ℝ, ∀ draw : Nat → ℝ,
      ∃ p, simulateHullAndWhiteModel (⟨Real.sqrt, Real.exp, fun x y => x ^ y, fun x y => x / y⟩ : CMath ℝ)
          draw 0.02 [0.03, 0.02, 0.025] [0.01, 0.015, 0.012] [0.01, 0.015, 0.02] 3 1
          = .completed p
        ∧ p.interestRateValues[2]? = some (a + b * draw 2)) :=
  have h0 : ⌊(3 : ℝ) / 1⌋₊ = 3 := by
    rw [Nat.floor_eq_iff (by norm_num)]; norm_num
  have h1 : (0 : ℝ) < 1 := by norm_num
  have h2 : (0 : ℝ) ≤ 3 := by norm_num
  have h3 : ⌊(3 : ℝ) / 1⌋₊ < 2147483647 := by rw [h0]; norm_num
  have h4 : ∀ a b c : ℝ, ⌊(3 : ℝ) / 1⌋₊ ≤ [a, b, c].length := by
    intro a b c; rw [h0]; simp
  have h5 : 1 ≤ 2 := by norm_num
  have h6 : 2 ≤ ⌊(3 : ℝ) / 1⌋₊ := by rw [h0]; norm_num
  ⟨⟨h1, h2, h3, h4 _ _ _, h5, h6⟩,
    hullWhite_state_depends_on_one_draw _ 0.02 [0.03, 0.02, 0.025] [0.01, 0.015, 0.012]
      [0.01, 0.015, 0.02] 3 1 roundedDivision_div h1 h2 h3 (h4 _ _ _) (h4 _ _ _) (h4 _ _ _) 2 h5 h6⟩

theorem hullWhiteIncremental_eq_sums (m : CMath K) (draw : Nat → K)
    (thetaValues alphaValues sigmaValues : List K) (timeStep c : K) (i : Nat)
    (hconst : ∀ j, 1 ≤ j → j ≤ i → draw j = c) :
    hullWhiteIncremental m draw thetaValues alphaValues sigmaValues timeStep i
      = hullWhiteSums m thetaValues alphaValues sigmaValues timeStep c i := by
  induction i with
  | zero => rfl
  | succ i ih =>
    rw [hullWhiteIncremental, hullWhiteSums_succ,
      ih (fun j h1 h2 => hconst j h1 (Nat.le_succ_of_le h2)),
      hconst (i + 1) (Nat.le_add_left 1 i) (le_refl _)]

theorem hullWhiteIncremental_deterministic (m : CMath K) (draw : Nat → K)
    (thetaValues alphaValues sigmaValues : List K) (timeStep d : K) (i : Nat) :
    (hullWhiteIncremental m draw thetaValues alphaValues sigmaValues timeStep i).1
        = (hullWhiteSums m thetaValues alphaValues sigmaValues timeStep d i).1
    ∧ (hullWhiteIncremental m draw thetaValues alphaValues sigmaValues timeStep i).2.1
        = (hullWhiteSums m thetaValues alphaValues sigmaValues timeStep d i).2.1 := by
  induction i with
  | zero => exact ⟨rfl, rfl⟩
  | succ i ih =>
    rw [hullWhiteIncremental, hullWhiteSums_succ]
    simp only [ih.1, ih.2, and_self]

/-- C17, counterexample. Two steps of size `1`, `x0 = 0`, `theta = alpha = (0, 0)`,
`sigma = (1, 1)` and draws `d_1 = 1`, `d_2 = 2`: the code recomputes
`I3 = sigma_0 * d_2 + sigma_1 * d_2` and stores `state_2 = 4`, the incremental
scheme carries `I3 = sigma_0 * d_1 + sigma_1 * d_2` and gives `3`. -/
theorem hullWhite_incremental_counterexample :
    ∃ p, simulateHullAndWhiteModel (⟨Real.sqrt, Real.exp, fun x y => x ^ y, fun x y => x / y⟩ : CMath ℝ)
        (fun i => (i : ℝ)) 0 [0, 0] [0, 0] [1, 1] 2 1 = .completed p
      ∧ p.interestRateValues[2]? = some (4 : ℝ)
      ∧ hullWhiteIncrementalState (⟨Real.sqrt, Real.exp, fun x y => x ^ y, fun x y => x / y⟩ : CMath ℝ)
          (fun i => (i : ℝ)) 0 [0, 0] [0, 0] [1, 1] 1 2 = 3 := by
  have h0 : ⌊(2 : ℝ) / 1⌋₊ = 2 := by
    rw [Nat.floor_eq_iff (by norm_num)]; norm_num
  have hlen : ∀ a b : ℝ, ⌊(2 : ℝ) / 1⌋₊ ≤ [a, b].length := by
    intro a b; rw [h0]; simp
  refine ⟨_, simulateHullAndWhiteModel_eq _ _ _ _ _ _ _ _ (by norm_num) (by norm_num)
    (by rw [h0]; norm_num) (hlen _ _) (hlen _ _) (hlen _ _), ?_, ?_⟩
  · rw [getElem?_map_range _ _ 2 (by rw [h0])]
    simp [hullWhiteState, hullWhiteSums, List.range_succ]
    norm_num
  · simp [hullWhiteIncrementalState, hullWhiteIncremental]
    norm_num

/-- C17, amended. For a Hull-White run of `N` steps over exact arithmetic
(sequences of at least `N` entries), the incremental scheme that carries
`I1, I2, I3` across the steps gives the state the code stores at every step
`i ≤ N` at which the draws `d_1, ..., d_i` are all equal (in particular at
`i = 0` and `i = 1`); and for every draw sequence its carried `I1` and `I2` are
the `integral1` and `integral2` the code recomputes at step `i`. -/
theorem hullWhite_incremental_agrees [FloorRing K] (m : CMath K) (draw : Nat → K)
    (initialInterestRate : K) (thetaValues alphaValues sigmaValues : List K)
    (timeHorizon timeStep : K)
    (hdiv : RoundedDivision m.div) (hs : 0 < timeStep) (hh : 0 ≤ timeHorizon)
    (hN : ⌊m.div timeHorizon timeStep⌋₊ < 2147483647)
    (hθ : ⌊m.div timeHorizon timeStep⌋₊ ≤ thetaValues.length)
    (hα : ⌊m.div timeHorizon timeStep⌋₊ ≤ alphaValues.length)
    (hσ : ⌊m.div timeHorizon timeStep⌋₊ ≤ sigmaValues.length) :
    ∃ p, simulateHullAndWhiteModel m draw initialInterestRate thetaValues alphaValues
        sigmaValues timeHorizon timeStep = .completed p
      ∧ (∀ i, i ≤ ⌊m.div timeHorizon timeStep⌋₊ →
          (∀ j, 1 ≤ j → j ≤ i → draw j = draw i) →
          p.interestRateValues[i]? = some
            (hullWhiteIncrementalState m draw initialInterestRate thetaValues alphaValues
              sigmaValues timeStep i))
      ∧ (∀ i, 1 ≤ i → i ≤ ⌊m.div timeHorizon timeStep⌋₊ →
          ∃ integrals, hullWhiteIntegrals m thetaValues alphaValues sigmaValues timeStep
              (draw i) i = .completed integrals
            ∧ (hullWhiteIncremental m draw thetaValues alphaValues sigmaValues timeStep i).1
                = integrals.1
            ∧ (hullWhiteIncremental m draw thetaValues alphaValues sigmaValues timeStep i).2.1
                = integrals.2.1) := by
  have hq : 0 ≤ m.div timeHorizon timeStep := hdiv.1 _ _ hh hs
  refine ⟨_, simulateHullAndWhiteModel_eq m draw initialInterestRate thetaValues alphaValues
    sigmaValues timeHorizon timeStep hs hq hN hθ hα hσ, ?_, ?_⟩
  · intro i hiN hconst
    rw [getElem?_map_range _ _ i hiN]
    cases i with
    | zero => rfl
    | succ k =>
      rw [hullWhiteState, hullWhiteIncrementalState,
        hullWhiteIncremental_eq_sums m draw thetaValues alphaValues sigmaValues timeStep
          (draw (k + 1)) (k + 1) hconst]
  · intro i _ hiN
    refine ⟨_, hullWhiteIntegrals_eq m thetaValues alphaValues sigmaValues timeStep (draw i) i
      (by omega) (by omega) (by omega), ?_⟩
    exact hullWhiteIncremental_deterministic m draw thetaValues alphaValues sigmaValues
      timeStep (draw i) i

/-- C17, witness: the parameters of `main` in `HM.cpp` on a grid of three steps
of size `1`, draws `d_1 = d_2 = 1`, `d_3 = 3`. -/
theorem hullWhite_incremental_agrees_witness :
    ((0 : ℝ) < 1 ∧ (0 : ℝ) ≤ 3 ∧ ⌊(3 : ℝ) / 1⌋₊ < 2147483647
      ∧ ⌊(3 : ℝ) / 1⌋₊ ≤ [(0.03 : ℝ), 0.02, 0.025].length) ∧
    ∃ p, simulateHullAndWhiteModel (⟨Real.sqrt, Real.exp, fun x y => x ^ y, fun x y => x / y⟩ : CMath ℝ)
        (fun i => if i ≤ 2 then (1 : ℝ) else 3) 0.02 [0.03, 0.02, 0.025]
        [0.01, 0.015, 0.012] [0.01, 0.015, 0.02] 3 1 = .completed p
      ∧ (∀ i, i ≤ ⌊(3 : ℝ) / 1⌋₊ →
          (∀ j, 1 ≤ j → j ≤ i →
            (if j ≤ 2 then (1 : ℝ) else 3) = (if i ≤ 2 then (1 : ℝ) else 3)) →
          p.interestRateValues[i]? = some
            (hullWhiteIncrementalState (⟨Real.sqrt, Real.exp, fun x y => x ^ y, fun x y => x / y⟩ : CMath ℝ)
              (fun i => if i ≤ 2 then (1 : ℝ) else 3) 0.02 [0.03, 0.02, 0.025]
              [0.01, 0.015, 0.012] [0.01, 0.015, 0.02] 1 i))
      ∧ (∀ i, 1 ≤ i → i ≤ ⌊(3 : ℝ) / 1⌋₊ →
          ∃ integrals, hullWhiteIntegrals (⟨Real.sqrt, Real.exp, fun x y => x ^ y, fun x y => x / y⟩ : CMath ℝ)
              [0.03, 0.02, 0.025] [0.01, 0.015, 0.012] [0.01, 0.015, 0.02] 1
              (if i ≤ 2 then (1 : ℝ) else 3) i = .completed integrals
            ∧ (hullWhiteIncremental (⟨Real.sqrt, Real.exp, fun x y => x ^ y, fun x y => x / y⟩ : CMath ℝ)
                (fun i => if i ≤ 2 then (1 : ℝ) else 3) [0.03, 0.02, 0.025]
                [0.01, 0.015, 0.012] [0.01, 0.015, 0.02] 1 i).1 = integrals.1
            ∧ (hullWhiteIncremental (⟨Real.sqrt, Real.exp, fun x y => x ^ y, fun x y => x / y⟩ : CMath ℝ)
                (fun i => if i ≤ 2 then (1 : ℝ) else 3) [0.03, 0.02, 0.025]
                [0.01, 0.015, 0.012] [0.01, 0.015, 0.02] 1 i).2.1 = integrals.2.1) :=
  have h0 : ⌊(3 : ℝ) / 1⌋₊ = 3 := by
    rw [Nat.floor_eq_iff (by norm_num)]; norm_num
  have h1 : (0 : ℝ) < 1 := by norm_num
  have h2 : (0 : ℝ) ≤ 3 := by norm_num
  have h3 : ⌊(3 : ℝ) / 1⌋₊ < 2147483647 := by rw [h0]; norm_num
  have h4 : ∀ a b c : ℝ, ⌊(3 : ℝ) / 1⌋₊ ≤ [a, b, c].length := by
    intro a b c; rw [h0]; simp
  ⟨⟨h1, h2, h3, h4 _ _ _⟩,
    hullWhite_incremental_agrees _ (fun i => if i ≤ 2 then (1 : ℝ) else 3) 0.02
      [0.03, 0.02, 0.025] [0.01, 0.015, 0.012] [0.01, 0.015, 0.02] 3 1
          roundedDivision_div h1 h2 h3 (h4 _ _ _)
      (h4 _ _ _) (h4 _ _ _)⟩

theorem getD_take_of_lt (l : List K) (N j : Nat) (hj : j < N) :
    (l.take N).getD j 0 = l.getD j 0 := by
  rw [List.getD_eq_getElem?_getD, List.getD_eq_getElem?_getD, List.getElem?_take_of_lt hj]

theorem hullWhiteSums_take (m : CMath K) (thetaValues alphaValues sigmaValues : List K)
    (timeStep d : K) (N i : Nat) (hi : i ≤ N) :
    hullWhiteSums m (thetaValues.take N) (alphaValues.take N) (sigmaValues.take N) timeStep d i
      = hullWhiteSums m thetaValues alphaValues sigmaValues timeStep d i := by
  induction i with
  | zero => rfl
  | succ i ih =>
    rw [hullWhiteSums_succ, hullWhiteSums_succ, ih (Nat.le_of_succ_le hi),
      getD_take_of_lt thetaValues N i hi, getD_take_of_lt alphaValues N i hi,
      getD_take_of_lt sigmaValues N i hi]

theorem hullWhiteState_take (m : CMath K) (draw : Nat → K) (initialInterestRate : K)
    (thetaValues alphaValues sigmaValues : List K) (timeStep : K) (N k : Nat) (hk : k ≤ N) :
    hullWhiteState m draw initialInterestRate (thetaValues.take N) (alphaValues.take N)
        (sigmaValues.take N) timeStep k
      = hullWhiteState m draw initialInterestRate thetaValues alphaValues sigmaValues
          timeStep k := by
  cases k with
  | zero => rfl
  | succ k =>
    rw [hullWhiteState, hullWhiteState, hullWhiteSums_take m _ _ _ _ _ N (k + 1) hk]

/-- C20, counterexample. With `timeHorizon = -1` and `timeStep = 1` the step count
is `-1`, below the length `3` of the sequences of `main`; both vectors are
created with `0` entries and the assignment `interestRateValues[0] = 0.02` is
out of range. -/
theorem hullWhite_access_counterexample :
    (⌊(-1 : ℝ) / 1⌋ = -1 ∧ ⌊(-1 : ℝ) / 1⌋ ≤ ([(0.03 : ℝ), 0.02, 0.025].length : Int)) ∧
    numberOfTimeSteps (⟨Real.sqrt, Real.exp, fun x y => x ^ y, fun x y => x / y⟩ : CMath ℝ)
      (-1) 1 = .completed (-1) ∧
    (allocVector (-1) : Outcome (List ℝ)) = .completed [] ∧
    storeAt ([] : List ℝ) 0 0.02 = .undefinedBehaviour ∧
    simulateHullAndWhiteModel (⟨Real.sqrt, Real.exp, fun x y => x ^ y, fun x y => x / y⟩ : CMath ℝ) (fun _ => 0)
      0.02 [0.03, 0.02, 0.025] [0.01, 0.015, 0.012] [0.01, 0.015, 0.02] (-1) 1
        = .undefinedBehaviour := by
  have hceil : ⌈(-1 : ℝ)⌉ = -1 := by
    rw [Int.ceil_eq_iff]; norm_num
  have hnum : numberOfTimeSteps (⟨Real.sqrt, Real.exp, fun x y => x ^ y, fun x y => x / y⟩ : CMath ℝ)
      (-1) 1 = .completed (-1) := by
    unfold numberOfTimeSteps staticCastInt
    norm_num [INT_MIN, INT_MAX, hceil]
  have halloc : (allocVector (-1) : Outcome (List ℝ)) = .completed [] := by
    unfold allocVector INT_MAX
    rw [if_neg (by decide), if_neg (by decide)]
    rfl
  have hstore : storeAt ([] : List ℝ) 0 0.02 = .undefinedBehaviour := by
    simp [storeAt]
  refine ⟨by norm_num, hnum, halloc, hstore, ?_⟩
  unfold simulateHullAndWhiteModel
  rw [hnum]
  simp only [Outcome.completed_bind, halloc, hstore, Outcome.undefinedBehaviour_bind]

/-- C20, amended. In a Hull-White run with `0 < timeStep`, `0 ≤ timeHorizon` and
step count `N < 2147483647`, where `N` is the value the code computes, the
truncation `static_cast<int>(timeHorizon / timeStep)` of the rounded double
quotient (`floor(timeHorizon / timeStep)` where the division is exact), if theta,
alpha and sigma each have at least `N` entries then no access is out of range: the run, in which every
index is checked, completes; the run on the sequences cut to their first `N`
entries completes with the same result, so no index above `N - 1` is read; the
time and state vectors have `N + 1` entries, so every write is at an index in
`0 .. N`; and the loop indices `i` in `1 .. N`, `j` in `0 .. i - 1` are below
`N + 1` and below the three lengths. -/
theorem hullWhite_accesses_in_range [FloorRing K] (m : CMath K) (draw : Nat → K)
    (initialInterestRate : K) (thetaValues alphaValues sigmaValues : List K)
    (timeHorizon timeStep : K)
    (hdiv : RoundedDivision m.div) (hs : 0 < timeStep) (hh : 0 ≤ timeHorizon)
    (hN : ⌊m.div timeHorizon timeStep⌋₊ < 2147483647)
    (hθ : ⌊m.div timeHorizon timeStep⌋₊ ≤ thetaValues.length)
    (hα : ⌊m.div timeHorizon timeStep⌋₊ ≤ alphaValues.length)
    (hσ : ⌊m.div timeHorizon timeStep⌋₊ ≤ sigmaValues.length) :
    ∃ p, simulateHullAndWhiteModel m draw initialInterestRate thetaValues alphaValues
        sigmaValues timeHorizon timeStep = .completed p
      ∧ simulateHullAndWhiteModel m draw initialInterestRate
          (thetaValues.take ⌊m.div timeHorizon timeStep⌋₊)
          (alphaValues.take ⌊m.div timeHorizon timeStep⌋₊)
          (sigmaValues.take ⌊m.div timeHorizon timeStep⌋₊) timeHorizon timeStep = .completed p
      ∧ p.timeValues.length = ⌊m.div timeHorizon timeStep⌋₊ + 1
      ∧ p.interestRateValues.length = ⌊m.div timeHorizon timeStep⌋₊ + 1
      ∧ (∀ i, i ∈ List.range' 1 ⌊m.div timeHorizon timeStep⌋₊ →
          i < ⌊m.div timeHorizon timeStep⌋₊ + 1
          ∧ (∃ integrals, hullWhiteIntegrals m thetaValues alphaValues sigmaValues timeStep
              (draw i) i = .completed integrals)
          ∧ ∀ j, j ∈ List.range i →
              j ≤ ⌊m.div timeHorizon timeStep⌋₊ - 1 ∧ j < thetaValues.length
              ∧ j < alphaValues.length ∧ j < sigmaValues.length) := by
  have hq : 0 ≤ m.div timeHorizon timeStep := hdiv.1 _ _ hh hs
  have hlen : ∀ l : List K, ⌊m.div timeHorizon timeStep⌋₊ ≤ l.length →
      ⌊m.div timeHorizon timeStep⌋₊ ≤ (l.take ⌊m.div timeHorizon timeStep⌋₊).length := by
    intro l hl
    rw [List.length_take]
    omega
  have hcut := simulateHullAndWhiteModel_eq m draw initialInterestRate
    (thetaValues.take ⌊m.div timeHorizon timeStep⌋₊) (alphaValues.take ⌊m.div timeHorizon timeStep⌋₊)
    (sigmaValues.take ⌊m.div timeHorizon timeStep⌋₊) timeHorizon timeStep hs hq hN
    (hlen _ hθ) (hlen _ hα) (hlen _ hσ)
  have hsame : (List.range (⌊m.div timeHorizon timeStep⌋₊ + 1)).map
      (hullWhiteState m draw initialInterestRate (thetaValues.take ⌊m.div timeHorizon timeStep⌋₊)
        (alphaValues.take ⌊m.div timeHorizon timeStep⌋₊)
        (sigmaValues.take ⌊m.div timeHorizon timeStep⌋₊) timeStep)
      = (List.range (⌊m.div timeHorizon timeStep⌋₊ + 1)).map
        (hullWhiteState m draw initialInterestRate thetaValues alphaValues sigmaValues
          timeStep) := by
    apply List.map_congr_left
    intro k hk
    exact hullWhiteState_take m draw _ _ _ _ _ _ k (Nat.lt_succ_iff.1 (List.mem_range.1 hk))
  rw [hsame] at hcut
  refine ⟨_, simulateHullAndWhiteModel_eq m draw initialInterestRate thetaValues alphaValues
    sigmaValues timeHorizon timeStep hs hq hN hθ hα hσ, hcut, by simp, by simp, ?_⟩
  intro i hi
  rw [List.mem_range'_1] at hi
  refine ⟨by omega, ⟨_, hullWhiteIntegrals_eq m thetaValues alphaValues sigmaValues timeStep
    (draw i) i (by omega) (by omega) (by omega)⟩, ?_⟩
  intro j hj
  rw [List.mem_range] at hj
  omega

/-- C20, witness: the parameters of `main` in `HM.cpp`, each sequence extended
by a fourth entry, on a grid of three steps of size `1`. -/
theorem hullWhite_accesses_in_range_witness :
    ((0 : ℝ) < 1 ∧ (0 : ℝ) ≤ 3 ∧ ⌊(3 : ℝ) / 1⌋₊ < 2147483647
      ∧ ⌊(3 : ℝ) / 1⌋₊ ≤ [(0.03 : ℝ), 0.02, 0.025, 0.03].length) ∧
    ∃ p, simulateHullAndWhiteModel (⟨Real.sqrt, Real.exp, fun x y => x ^ y, fun x y => x / y⟩ : CMath ℝ)
        (fun i => (i : ℝ)) 0.02 [0.03, 0.02, 0.025, 0.03] [0.01, 0.015, 0.012, 0.01]
        [0.01, 0.015, 0.02, 0.01] 3 1 = .completed p
      ∧ simulateHullAndWhiteModel (⟨Real.sqrt, Real.exp, fun x y => x ^ y, fun x y => x / y⟩ : CMath ℝ)
          (fun i => (i : ℝ)) 0.02
          ([(0.03 : ℝ), 0.02, 0.025, 0.03].take ⌊(3 : ℝ) / 1⌋₊)
          ([(0.01 : ℝ), 0.015, 0.012, 0.01].take ⌊(3 : ℝ) / 1⌋₊)
          ([(0.01 : ℝ), 0.015, 0.02, 0.01].take ⌊(3 : ℝ) / 1⌋₊) 3 1 = .completed p
      ∧ p.timeValues.length = ⌊(3 : ℝ) / 1⌋₊ + 1
      ∧ p.interestRateValues.length = ⌊(3 : ℝ) / 1⌋₊ + 1
      ∧ (∀ i, i ∈ List.range' 1 ⌊(3 : ℝ) / 1⌋₊ →
          i < ⌊(3 : ℝ) / 1⌋₊ + 1
          ∧ (∃ integrals, hullWhiteIntegrals
              (⟨Real.sqrt, Real.exp, fun x y => x ^ y, fun x y => x / y⟩ : CMath ℝ)
              [0.03, 0.02, 0.025, 0.03] [0.01, 0.015, 0.012, 0.01] [0.01, 0.015, 0.02, 0.01] 1
              (i : ℝ) i = .completed integrals)
          ∧ ∀ j, j ∈ List.range i →
              j ≤ ⌊(3 : ℝ) / 1⌋₊ - 1 ∧ j < [(0.03 : ℝ), 0.02, 0.025, 0.03].length
              ∧ j < [(0.01 : ℝ), 0.015, 0.012, 0.01].length
              ∧ j < [(0.01 : ℝ), 0.015, 0.02, 0.01].length) :=
  have h0 : ⌊(3 : ℝ) / 1⌋₊ = 3 := by
    rw [Nat.floor_eq_iff (by norm_num)]; norm_num
  have h1 : (0 : ℝ) < 1 := by norm_num
  have h2 : (0 : ℝ) ≤ 3 := by norm_num
  have h3 : ⌊(3 : ℝ) / 1⌋₊ < 2147483647 := by rw [h0]; norm_num
  have h4 : ∀ a b c d : ℝ, ⌊(3 : ℝ) / 1⌋₊ ≤ [a, b, c, d].length := by
    intro a b c d; rw [h0]; simp
  ⟨⟨h1, h2, h3, h4 _ _ _ _⟩,
    hullWhite_accesses_in_range _ (fun i => (i : ℝ)) 0.02 [0.03, 0.02, 0.025, 0.03]
      [0.01, 0.015, 0.012, 0.01] [0.01, 0.015, 0.02, 0.01] 3 1
          roundedDivision_div h1 h2 h3 (h4 _ _ _ _)
      (h4 _ _ _ _) (h4 _ _ _ _)⟩

end HullWhiteBehaviour

/-! ## HJM and Ho-Lee: closed form of the states -/

section DriftClosedForms

variable {K : Type} [LinearOrderedField K]

theorem hjmState_closed (m : CMath K) (draw : Nat → K) (driftTerm volatility timeStep : K)
    (k : Nat) :
    hjmState m draw driftTerm volatility timeStep k
      = (k : K) * driftTerm * timeStep
        + volatility * m.sqrt timeStep * ∑ j in Finset.Icc 1 k, draw j := by
  induction k with
  | zero => simp [hjmState]
  | succ k ih =>
    rw [hjmState, ih, Finset.sum_Icc_succ_top (Nat.le_add_left 1 k)]
    push_cast
    ring

theorem hoLeeState_closed (m : CMath K) (draw : Nat → K) (driftTerm volatility timeStep : K)
    (k : Nat) :
    hoLeeState m draw driftTerm volatility timeStep k
      = driftTerm * timeStep ^ 2 * ((k : K) * ((k : K) + 1) / 2)
        + volatility * m.sqrt timeStep * ∑ j in Finset.Icc 1 k, draw j := by
  induction k with
  | zero => simp [hoLeeState]
  | succ k ih =>
    rw [hoLeeState, ih, Finset.sum_Icc_succ_top (Nat.le_add_left 1 k), gridTime]
    push_cast
    ring

/-- C14. In an HJM run of `N` steps with `P ≥ 1` paths, every path starts at `0`
and all paths are advanced by the one draw of each step: for every step `k ≤ N`
and every path index `p < P`,
`forward[p][k] = k * drift * timeStep + volatility * sqrt(timeStep) * (d_1 + ... + d_k)`,
so any two paths hold the same values. -/
theorem hjm_paths_share_draws [FloorRing K] (m : CMath K) (draw : Nat → K)
    (driftTerm volatility timeHorizon timeStep : K) (numberOfPaths : Nat)
    (hP : 1 ≤ numberOfPaths)
    (hdiv : RoundedDivision m.div) (hs : 0 < timeStep) (hh : 0 ≤ timeHorizon)
    (hN : ⌊m.div timeHorizon timeStep⌋₊ < 2147483647) :
    ∃ fp, simulateHeathJarrowMortonModel m draw driftTerm volatility timeHorizon timeStep
        (numberOfPaths : Int) = .completed fp
      ∧ fp.forwardRateValues.length = numberOfPaths
      ∧ (∃ row, fp.forwardRateValues[0]? = some row)
      ∧ (∀ p, p < numberOfPaths → ∀ k, k ≤ ⌊m.div timeHorizon timeStep⌋₊ →
          ∃ row, fp.forwardRateValues[p]? = some row ∧ row[0]? = some 0
            ∧ row[k]? = some ((k : K) * driftTerm * timeStep
                + volatility * m.sqrt timeStep * ∑ j in Finset.Icc 1 k, draw j))
      ∧ (∀ p q, p < numberOfPaths → q < numberOfPaths →
          fp.forwardRateValues[p]? = fp.forwardRateValues[q]?) := by
  have hq : 0 ≤ m.div timeHorizon timeStep := hdiv.1 _ _ hh hs
  refine ⟨_, simulateHeathJarrowMortonModel_eq m draw driftTerm volatility timeHorizon
    timeStep numberOfPaths hs hq hN, by simp, ?_, ?_, ?_⟩
  · exact ⟨_, List.getElem?_replicate_of_lt (by omega)⟩
  · intro p hp k hk
    refine ⟨_, List.getElem?_replicate_of_lt hp, ?_, ?_⟩
    · rw [getElem?_map_range _ _ 0 (Nat.zero_le _)]
      rfl
    · rw [getElem?_map_range _ _ k hk, hjmState_closed]
  · intro p q hp hq
    show (List.replicate numberOfPaths _)[p]? = (List.replicate numberOfPaths _)[q]?
    rw [List.getElem?_replicate_of_lt hp, List.getElem?_replicate_of_lt hq]

/-- C14, witness: the run of `main` in `HJM.cpp` (`5` paths), draws `d_j = j`. -/
theorem hjm_paths_share_draws_witness :
    (1 ≤ 5 ∧ (0 : ℝ) < 0.01 ∧ (0 : ℝ) ≤ 1 ∧ ⌊(1 : ℝ) / 0.01⌋₊ < 2147483647) ∧
    ∃ fp, simulateHeathJarrowMortonModel (⟨Real.sqrt, Real.exp, fun x y => x ^ y, fun x y => x / y⟩ : CMath ℝ)
        (fun j => (j : ℝ)) 0.1 0.02 1 0.01 ((5 : Nat) : Int) = .completed fp
      ∧ fp.forwardRateValues.length = 5
      ∧ (∃ row, fp.forwardRateValues[0]? = some row)
      ∧ (∀ p, p < 5 → ∀ k, k ≤ ⌊(1 : ℝ) / 0.01⌋₊ →
          ∃ row, fp.forwardRateValues[p]? = some row ∧ row[0]? = some 0
            ∧ row[k]? = some ((k : ℝ) * 0.1 * 0.01
                + 0.02 * Real.sqrt 0.01 * ∑ j in Finset.Icc 1 k, (j : ℝ)))
      ∧ (∀ p q, p < 5 → q < 5 →
          fp.forwardRateValues[p]? = fp.forwardRateValues[q]?) :=
  have h0 : 1 ≤ 5 := by norm_num
  have h1 : (0 : ℝ) < 0.01 := by norm_num
  have h2 : (0 : ℝ) ≤ 1 := by norm_num
  have h3 : ⌊(1 : ℝ) / 0.01⌋₊ < 2147483647 := by rw [floor_one_div_hundredth]; norm_num
  ⟨⟨h0, h1, h2, h3⟩,
    hjm_paths_share_draws _ (fun j => (j : ℝ)) 0.1 0.02 1 0.01 5 h0 roundedDivision_div h1 h2 h3⟩

/-- C18. In a Ho-Lee run of `N` steps the drift added at step `k` is
`drift * t_k * timeStep` with `t_k = k * timeStep`, the grid point at the end of
the step, so for every draw sequence and every `k ≤ N`,
`state_k = drift * timeStep ^ 2 * (k * (k + 1) / 2)
  + volatility * sqrt(timeStep) * (d_1 + ... + d_k)`. -/
theorem hoLee_state_formula [FloorRing K] (m : CMath K) (draw : Nat → K)
    (driftTerm volatility timeHorizon timeStep : K)
    (hdiv : RoundedDivision m.div) (hs : 0 < timeStep) (hh : 0 ≤ timeHorizon)
    (hN : ⌊m.div timeHorizon timeStep⌋₊ < 2147483647) :
    ∃ p, simulateHoAndLeeModel m draw driftTerm volatility timeHorizon timeStep = .completed p
      ∧ (∀ k, k < ⌊m.div timeHorizon timeStep⌋₊ →
          ∃ x y t, p.interestRateValues[k]? = some x ∧ p.interestRateValues[k + 1]? = some y
            ∧ p.timeValues[k + 1]? = some t ∧ t = ((k + 1 : Nat) : K) * timeStep
            ∧ y = x + driftTerm * t * timeStep + volatility * m.sqrt timeStep * draw (k + 1))
      ∧ (∀ k, k ≤ ⌊m.div timeHorizon timeStep⌋₊ →
          p.interestRateValues[k]? = some
            (driftTerm * timeStep ^ 2 * ((k : K) * ((k : K) + 1) / 2)
              + volatility * m.sqrt timeStep * ∑ j in Finset.Icc 1 k, draw j)) := by
  have hq : 0 ≤ m.div timeHorizon timeStep := hdiv.1 _ _ hh hs
  refine ⟨_, simulateHoAndLeeModel_eq m draw driftTerm volatility timeHorizon timeStep hs hq
    hN, ?_, ?_⟩
  · intro k hk
    exact ⟨_, _, _, getElem?_map_range _ _ k hk.le, getElem?_map_range _ _ (k + 1) hk,
      getElem?_map_range _ _ (k + 1) hk, rfl, rfl⟩
  · intro k hk
    rw [getElem?_map_range _ _ k hk, hoLeeState_closed]

/-- C18, witness: the run of `main` in `HoLee.cpp`, draws `d_j = j`. -/
theorem hoLee_state_formula_witness :
    ((0 : ℝ) < 0.01 ∧ (0 : ℝ) ≤ 1 ∧ ⌊(1 : ℝ) / 0.01⌋₊ < 2147483647) ∧
    ∃ p, simulateHoAndLeeModel (⟨Real.sqrt, Real.exp, fun x y => x ^ y, fun x y => x / y⟩ : CMath ℝ)
        (fun j => (j : ℝ)) 0.02 0.01 1 0.01 = .completed p
      ∧ (∀ k, k < ⌊(1 : ℝ) / 0.01⌋₊ →
          ∃ x y t, p.interestRateValues[k]? = some x ∧ p.interestRateValues[k + 1]? = some y
            ∧ p.timeValues[k + 1]? = some t ∧ t = ((k + 1 : Nat) : ℝ) * 0.01
            ∧ y = x + 0.02 * t * 0.01 + 0.01 * Real.sqrt 0.01 * ((k + 1 : Nat) : ℝ))
      ∧ (∀ k, k ≤ ⌊(1 : ℝ) / 0.01⌋₊ →
          p.interestRateValues[k]? = some
            ((0.02 : ℝ) * 0.01 ^ 2 * ((k : ℝ) * ((k : ℝ) + 1) / 2)
              + 0.01 * Real.sqrt 0.01 * ∑ j in Finset.Icc 1 k, (j : ℝ))) :=
  have h1 : (0 : ℝ) < 0.01 := by norm_num
  have h2 : (0 : ℝ) ≤ 1 := by norm_num
  have h3 : ⌊(1 : ℝ) / 0.01⌋₊ < 2147483647 := by rw [floor_one_div_hundredth]; norm_num
  ⟨⟨h1, h2, h3⟩, hoLee_state_formula _ (fun j => (j : ℝ)) 0.02 0.01 1 0.01
      roundedDivision_div h1 h2 h3⟩

end DriftClosedForms

/-! ## CKLS and CEV: powers of the previous state -/

section Powers

variable {K : Type} [LinearOrderedField K] [FloorRing K]

theorem powDefined_abs (x elasticity : K) (he : 0 < elasticity) :
    PowDefined |x| elasticity := by
  rcases (abs_nonneg x).lt_or_eq with h | h
  · exact Or.inl h
  · exact Or.inr (Or.inl ⟨h.symm, he⟩)

/-- C15. In a CKLS run with `elasticity > 0`, for every previous state `x`,
negative or not, the next state is
`x + (drift - speed * x) * timeStep
  + volatility * pow(|x|, elasticity) * sqrt(timeStep) * d`;
the base `|x|` handed to `std::pow` is never negative, so the call is inside the
domain of `std::pow` and the run completes; the diffusion term at `x` and at `-x`
is the same. -/
theorem ckls_step_defined (m : CMath K) (draw : Nat → K)
    (driftTerm meanReversionRate elasticity volatility initialInterestRate
      timeHorizon timeStep : K)
    (he : 0 < elasticity)
    (hdiv : RoundedDivision m.div) (hs : 0 < timeStep) (hh : timeStep ≤ timeHorizon)
    (hN : ⌊m.div timeHorizon timeStep⌋₊ < 2147483647) :
    ∃ p, simulateChanKarolyiLongstaffSandersModel m draw driftTerm meanReversionRate
        elasticity volatility initialInterestRate timeHorizon timeStep = .completed p
      ∧ p.interestRateValues[0]? = some initialInterestRate
      ∧ 1 ≤ ⌊m.div timeHorizon timeStep⌋₊
      ∧ (∀ k, k < ⌊m.div timeHorizon timeStep⌋₊ →
          ∃ x y, p.interestRateValues[k]? = some x ∧ p.interestRateValues[k + 1]? = some y
            ∧ y = x + (driftTerm - meanReversionRate * x) * timeStep
                + volatility * m.pow |x| elasticity * m.sqrt timeStep * draw (k + 1)
            ∧ PowDefined |x| elasticity)
      ∧ (∀ x d : K, volatility * m.pow |x| elasticity * m.sqrt timeStep * d
          = volatility * m.pow |-x| elasticity * m.sqrt timeStep * d) := by
  have hh0 : 0 ≤ m.div timeHorizon timeStep := hdiv.1 _ _ (le_trans hs.le hh) hs
  refine ⟨_, simulateChanKarolyiLongstaffSandersModel_eq m draw driftTerm meanReversionRate
    elasticity volatility initialInterestRate timeHorizon timeStep hs hh0 hN, ?_, ?_, ?_, ?_⟩
  · rw [getElem?_map_range _ _ 0 (Nat.zero_le _)]
    rfl
  · apply Nat.le_floor
    simpa using hdiv.2.2 _ _ hs hh
  · intro k hk
    exact ⟨_, _, getElem?_map_range _ _ k hk.le, getElem?_map_range _ _ (k + 1) hk, rfl,
      powDefined_abs _ _ he⟩
  · intro x d
    rw [abs_neg]

/-- C15, witness: the parameters of `main` in `CKLS.cpp` with the negative
initial rate `-0.05`. -/
theorem ckls_step_defined_witness :
    ((0 : ℝ) < 0.5 ∧ (0 : ℝ) < 0.01 ∧ (0.01 : ℝ) ≤ 1 ∧ ⌊(1 : ℝ) / 0.01⌋₊ < 2147483647) ∧
    ∃ p, simulateChanKarolyiLongstaffSandersModel
        (⟨Real.sqrt, Real.exp, fun x y => x ^ y, fun x y => x / y⟩ : CMath ℝ) (fun _ => 1)
        0.1 0.2 0.5 0.02 (-0.05) 1 0.01 = .completed p
      ∧ p.interestRateValues[0]? = some (-0.05 : ℝ)
      ∧ 1 ≤ ⌊(1 : ℝ) / 0.01⌋₊
      ∧ (∀ k, k < ⌊(1 : ℝ) / 0.01⌋₊ →
          ∃ x y : ℝ, p.interestRateValues[k]? = some x ∧ p.interestRateValues[k + 1]? = some y
            ∧ y = x + (0.1 - 0.2 * x) * 0.01 + 0.02 * |x| ^ (0.5 : ℝ) * Real.sqrt 0.01 * 1
            ∧ PowDefined |x| (0.5 : ℝ))
      ∧ (∀ x d : ℝ, 0.02 * |x| ^ (0.5 : ℝ) * Real.sqrt 0.01 * d
          = 0.02 * |-x| ^ (0.5 : ℝ) * Real.sqrt 0.01 * d) :=
  have h0 : (0 : ℝ) < 0.5 := by norm_num
  have h1 : (0 : ℝ) < 0.01 := by norm_num
  have h2 : (0.01 : ℝ) ≤ 1 := by norm_num
  have h3 : ⌊(1 : ℝ) / 0.01⌋₊ < 2147483647 := by rw [floor_one_div_hundredth]; norm_num
  ⟨⟨h0, h1, h2, h3⟩,
    ckls_step_defined _ (fun _ => 1) 0.1 0.2 0.5 0.02 (-0.05) 1 0.01 h0
        roundedDivision_div h1 h2 h3⟩

/-- C16, counterexample. The CEV run with the parameters of `main`, the negative
initial rate `-1` and one step of size `1`: `elasticity - 1 = -0.5` is no integer,
so `pow(-1, -0.5)` is outside the domain of `std::pow`; the run raises no
`DomainError`, it completes and stores a value for `state_1`. -/
theorem cev_domain_counterexample :
    ((-1 : ℝ) < 0 ∧ ¬ PowDefined (-1 : ℝ) (0.5 - 1)) ∧
    ∃ p, simulateConstantElasticityVarianceModel
        (⟨Real.sqrt, Real.exp, fun x y => x ^ y, fun x y => x / y⟩ : CMath ℝ) (fun _ => 0)
        0.1 0.2 0.5 0.02 (-1) 1 1 = .completed p
      ∧ p.interestRateValues[0]? = some (-1 : ℝ)
      ∧ (∃ v, p.interestRateValues[1]? = some v)
      ∧ simulateConstantElasticityVarianceModel
          (⟨Real.sqrt, Real.exp, fun x y => x ^ y, fun x y => x / y⟩ : CMath ℝ) (fun _ => 0)
          0.1 0.2 0.5 0.02 (-1) 1 1 ≠ .raised SimError.DomainError := by
  have hrun := simulateConstantElasticityVarianceModel_eq
    (⟨Real.sqrt, Real.exp, fun x y => x ^ y, fun x y => x / y⟩ : CMath ℝ) (fun _ => 0)
    0.1 0.2 0.5 0.02 (-1) 1 1 (by norm_num) (by norm_num)
    (by rw [floor_one_div_one]; norm_num)
  have hfloor : ⌊((0.5 : ℝ) - 1)⌋ = -1 := by
    rw [Int.floor_eq_iff]; norm_num
  refine ⟨⟨by norm_num, ?_⟩, _, hrun, ?_, ?_, ?_⟩
  · rintro (h | ⟨h, _⟩ | ⟨_, h⟩)
    · norm_num at h
    · norm_num at h
    · rw [hfloor] at h
      norm_num at h
  · rw [getElem?_map_range _ _ 0 (Nat.zero_le _)]
    rfl
  · exact ⟨_, getElem?_map_range _ _ 1 (by rw [floor_one_div_one])⟩
  · rw [hrun]
    exact fun hcontra => Outcome.noConfusion hcontra

/-- C16, amended. A CEV run of `N` steps raises no `DomainError`, whatever the
sign of a state and whatever the exponents `elasticity - 1` and `elasticity / 2`:
it completes with `N + 1` states, and for every `k < N` the state of index
`k + 1` is stored as
`x + (drift * pow(x, elasticity - 1) + rate * x) * timeStep
  + volatility * pow(x, elasticity / 2) * sqrt(timeStep) * d`
with `x` the state of index `k` and with the values `std::pow` returns. -/
theorem cev_run_completes (m : CMath K) (draw : Nat → K)
    (meanReversionRate driftTerm elasticity volatility initialInterestRate
      timeHorizon timeStep : K)
    (hdiv : RoundedDivision m.div) (hs : 0 < timeStep) (hh : 0 ≤ timeHorizon)
    (hN : ⌊m.div timeHorizon timeStep⌋₊ < 2147483647) :
    ∃ p, simulateConstantElasticityVarianceModel m draw meanReversionRate driftTerm
        elasticity volatility initialInterestRate timeHorizon timeStep = .completed p
      ∧ simulateConstantElasticityVarianceModel m draw meanReversionRate driftTerm
        elasticity volatility initialInterestRate timeHorizon timeStep
          ≠ .raised SimError.DomainError
      ∧ p.interestRateValues.length = ⌊m.div timeHorizon timeStep⌋₊ + 1
      ∧ p.interestRateValues[0]? = some initialInterestRate
      ∧ (∀ k, k < ⌊m.div timeHorizon timeStep⌋₊ →
          ∃ x y, p.interestRateValues[k]? = some x ∧ p.interestRateValues[k + 1]? = some y
            ∧ y = x
                + (driftTerm * m.pow x (elasticity - 1) + meanReversionRate * x) * timeStep
                + volatility * m.pow x (elasticity / 2) * m.sqrt timeStep * draw (k + 1)) := by
  have hq : 0 ≤ m.div timeHorizon timeStep := hdiv.1 _ _ hh hs
  have hrun := simulateConstantElasticityVarianceModel_eq m draw meanReversionRate driftTerm
    elasticity volatility initialInterestRate timeHorizon timeStep hs hq hN
  refine ⟨_, hrun, ?_, by simp, ?_, ?_⟩
  · rw [hrun]
    exact fun hcontra => Outcome.noConfusion hcontra
  · rw [getElem?_map_range _ _ 0 (Nat.zero_le _)]
    rfl
  · intro k hk
    exact ⟨_, _, getElem?_map_range _ _ k hk.le, getElem?_map_range _ _ (k + 1) hk, rfl⟩

/-- C16, witness: the parameters of `main` in `CEV.cpp` with the negative initial
rate `-1` and one step of size `1`. -/
theorem cev_run_completes_witness :
    ((0 : ℝ) < 1 ∧ (0 : ℝ) ≤ 1 ∧ ⌊(1 : ℝ) / 1⌋₊ < 2147483647) ∧
    ∃ p, simulateConstantElasticityVarianceModel
        (⟨Real.sqrt, Real.exp, fun x y => x ^ y, fun x y => x / y⟩ : CMath ℝ) (fun _ => 0)
        0.1 0.2 0.5 0.02 (-1) 1 1 = .completed p
      ∧ simulateConstantElasticityVarianceModel
          (⟨Real.sqrt, Real.exp, fun x y => x ^ y, fun x y => x / y⟩ : CMath ℝ) (fun _ => 0)
          0.1 0.2 0.5 0.02 (-1) 1 1 ≠ .raised SimError.DomainError
      ∧ p.interestRateValues.length = ⌊(1 : ℝ) / 1⌋₊ + 1
      ∧ p.interestRateValues[0]? = some (-1 : ℝ)
      ∧ (∀ k, k < ⌊(1 : ℝ) / 1⌋₊ →
          ∃ x y : ℝ, p.interestRateValues[k]? = some x ∧ p.interestRateValues[k + 1]? = some y
            ∧ y = x + (0.2 * x ^ ((0.5 : ℝ) - 1) + 0.1 * x) * 1
                + 0.02 * x ^ ((0.5 : ℝ) / 2) * Real.sqrt 1 * 0) :=
  have h1 : (0 : ℝ) < 1 := by norm_num
  have h2 : (0 : ℝ) ≤ 1 := by norm_num
  have h3 : ⌊(1 : ℝ) / 1⌋₊ < 2147483647 := by rw [floor_one_div_one]; norm_num
  ⟨⟨h1, h2, h3⟩, cev_run_completes _ (fun _ => 0) 0.1 0.2 0.5 0.02 (-1) 1 1
      roundedDivision_div h1 h2 h3⟩

end Powers

/-! ## CIR: leaving the boundary `0` -/

section CirBoundary

variable {K : Type} [LinearOrderedField K]

theorem cirState_succ_of_zero (m : CMath K) (draw : Nat → K)
    (meanReversionLevel meanReversionRate volatility initialInterestRate timeStep : K)
    (hsqrt : m.sqrt 0 = 0) (k : Nat)
    (hk : cirState m draw meanReversionLevel meanReversionRate volatility initialInterestRate
      timeStep k = 0) :
    cirState m draw meanReversionLevel meanReversionRate volatility initialInterestRate
      timeStep (k + 1) = max 0 (meanReversionRate * meanReversionLevel * timeStep) := by
  rw [cirState, hk, max_self, hsqrt]
  congr 1
  ring

theorem cirState_stays_zero (m : CMath K) (draw : Nat → K)
    (meanReversionLevel meanReversionRate volatility initialInterestRate timeStep : K)
    (hsqrt : m.sqrt 0 = 0) (hs : 0 < timeStep)
    (hle : meanReversionRate * meanReversionLevel ≤ 0) (k : Nat)
    (hk : cirState m draw meanReversionLevel meanReversionRate volatility initialInterestRate
      timeStep k = 0) (j : Nat) :
    cirState m draw meanReversionLevel meanReversionRate volatility initialInterestRate
      timeStep (k + j) = 0 := by
  induction j with
  | zero => exact hk
  | succ j ih =>
    rw [← Nat.add_assoc, cirState_succ_of_zero m draw _ _ _ _ _ hsqrt (k + j) ih]
    exact max_eq_left (mul_nonpos_of_nonpos_of_nonneg hle hs.le)

/-- C21, counterexample. The CIR run of `main` with level `0` (so that
`speed * level = 0 ≥ 0`) and every draw `-200`: the first step is clamped to
`state_1 = 0`, and the next state is `state_2 = 0` again; the path does not leave
`0`. -/
theorem cir_boundary_counterexample :
    ((0 : ℝ) ≤ 0.2 * 0) ∧
    ∃ p, simulateCoxIngersollRossModel (⟨Real.sqrt, Real.exp, fun x y => x ^ y, fun x y => x / y⟩ : CMath ℝ)
        (fun _ => -200) 0 0.2 0.02 0.05 1 0.01 = .completed p
      ∧ p.interestRateValues[1]? = some (0 : ℝ)
      ∧ p.interestRateValues[2]? = some (0 : ℝ) := by
  have hfl : ⌊(1 : ℝ) / 0.01⌋₊ = 100 := floor_one_div_hundredth
  have h1 : cirState (⟨Real.sqrt, Real.exp, fun x y => x ^ y, fun x y => x / y⟩ : CMath ℝ) (fun _ => -200)
      0 0.2 0.02 0.05 0.01 1 = 0 := by
    have hmax : max (0 : ℝ) 0.05 = 0.05 := max_eq_right (by norm_num)
    simp only [cirState, hmax]
    apply max_eq_left
    have ha : (0.2 : ℝ) < Real.sqrt 0.05 := by
      rw [Real.lt_sqrt (by norm_num)]; norm_num
    have hb : (0.09 : ℝ) < Real.sqrt 0.01 := by
      rw [Real.lt_sqrt (by norm_num)]; norm_num
    nlinarith [mul_pos (sub_pos.2 ha) (sub_pos.2 hb)]
  have h2 : cirState (⟨Real.sqrt, Real.exp, fun x y => x ^ y, fun x y => x / y⟩ : CMath ℝ) (fun _ => -200)
      0 0.2 0.02 0.05 0.01 2 = 0 := by
    rw [cirState_succ_of_zero _ _ _ _ _ _ _ Real.sqrt_zero 1 h1]
    norm_num
  refine ⟨by norm_num, _, simulateCoxIngersollRossModel_eq _ _ _ _ _ _ _ _ (by norm_num)
    (by norm_num) (by rw [hfl]; norm_num), ?_, ?_⟩
  · rw [getElem?_map_range _ _ 1 (by rw [hfl]; norm_num), h1]
  · rw [getElem?_map_range _ _ 2 (by rw [hfl]; norm_num), h2]

/-- C21, amended. In a CIR run of `N` steps (`std::sqrt(0) = 0`), whenever the
state of index `k < N` is `0` the next state does not depend on the draw:
`state_(k+1) = max(0, speed * level * timeStep)` for every draw sequence. With
`speed * level > 0` the path leaves `0`: `state_(k+1) = speed * level * timeStep`,
a positive number. With `speed * level ≤ 0` it stays at `0`: every state of index
`k .. N` is `0`. -/
theorem cir_next_state_from_zero [FloorRing K] (m : CMath K) (draw : Nat → K)
    (meanReversionLevel meanReversionRate volatility initialInterestRate
      timeHorizon timeStep : K)
    (hsqrt : m.sqrt 0 = 0)
    (hdiv : RoundedDivision m.div) (hs : 0 < timeStep) (hh : 0 ≤ timeHorizon)
    (hN : ⌊m.div timeHorizon timeStep⌋₊ < 2147483647) :
    ∃ p, simulateCoxIngersollRossModel m draw meanReversionLevel meanReversionRate volatility
        initialInterestRate timeHorizon timeStep = .completed p
      ∧ (∀ k, k < ⌊m.div timeHorizon timeStep⌋₊ → p.interestRateValues[k]? = some 0 →
          p.interestRateValues[k + 1]? = some
            (max 0 (meanReversionRate * meanReversionLevel * timeStep)))
      ∧ (0 < meanReversionRate * meanReversionLevel →
          ∀ k, k < ⌊m.div timeHorizon timeStep⌋₊ → p.interestRateValues[k]? = some 0 →
            p.interestRateValues[k + 1]? = some
              (meanReversionRate * meanReversionLevel * timeStep)
            ∧ 0 < meanReversionRate * meanReversionLevel * timeStep)
      ∧ (meanReversionRate * meanReversionLevel ≤ 0 →
          ∀ k, k ≤ ⌊m.div timeHorizon timeStep⌋₊ → p.interestRateValues[k]? = some 0 →
            ∀ j, k ≤ j → j ≤ ⌊m.div timeHorizon timeStep⌋₊ →
              p.interestRateValues[j]? = some 0) := by
  have hq : 0 ≤ m.div timeHorizon timeStep := hdiv.1 _ _ hh hs
  have hstate : ∀ k, k ≤ ⌊m.div timeHorizon timeStep⌋₊ →
      ((List.range (⌊m.div timeHorizon timeStep⌋₊ + 1)).map
        (cirState m draw meanReversionLevel meanReversionRate volatility initialInterestRate
          timeStep))[k]? = some 0 →
      cirState m draw meanReversionLevel meanReversionRate volatility initialInterestRate
        timeStep k = 0 := by
    intro k hk h
    rw [getElem?_map_range _ _ k hk] at h
    exact Option.some.inj h
  refine ⟨_, simulateCoxIngersollRossModel_eq m draw meanReversionLevel meanReversionRate
    volatility initialInterestRate timeHorizon timeStep hs hq hN, ?_, ?_, ?_⟩
  · intro k hk h0
    rw [getElem?_map_range _ _ (k + 1) hk,
      cirState_succ_of_zero m draw _ _ _ _ _ hsqrt k (hstate k hk.le h0)]
  · intro hpos k hk h0
    have hprod : 0 < meanReversionRate * meanReversionLevel * timeStep := mul_pos hpos hs
    refine ⟨?_, hprod⟩
    rw [getElem?_map_range _ _ (k + 1) hk,
      cirState_succ_of_zero m draw _ _ _ _ _ hsqrt k (hstate k hk.le h0),
      max_eq_right hprod.le]
  · intro hle k hk h0 j hkj hjN
    obtain ⟨d, rfl⟩ : ∃ d, j = k + d := ⟨j - k, by omega⟩
    rw [getElem?_map_range _ _ (k + d) hjN,
      cirState_stays_zero m draw _ _ _ _ _ hsqrt hs hle k (hstate k hk h0) d]

/-- C21, witness: the run of `main` in `CIR.cpp` with every draw `-200`, whose
first step is clamped to `0`. -/
theorem cir_next_state_from_zero_witness :
    (Real.sqrt 0 = 0 ∧ (0 : ℝ) < 0.01 ∧ (0 : ℝ) ≤ 1 ∧ ⌊(1 : ℝ) / 0.01⌋₊ < 2147483647) ∧
    ∃ p, simulateCoxIngersollRossModel (⟨Real.sqrt, Real.exp, fun x y => x ^ y, fun x y => x / y⟩ : CMath ℝ)
        (fun _ => -200) 0.1 0.2 0.02 0.05 1 0.01 = .completed p
      ∧ (∀ k, k < ⌊(1 : ℝ) / 0.01⌋₊ → p.interestRateValues[k]? = some 0 →
          p.interestRateValues[k + 1]? = some (max (0 : ℝ) (0.2 * 0.1 * 0.01)))
      ∧ ((0 : ℝ) < 0.2 * 0.1 →
          ∀ k, k < ⌊(1 : ℝ) / 0.01⌋₊ → p.interestRateValues[k]? = some 0 →
            p.interestRateValues[k + 1]? = some ((0.2 : ℝ) * 0.1 * 0.01)
            ∧ (0 : ℝ) < 0.2 * 0.1 * 0.01)
      ∧ ((0.2 : ℝ) * 0.1 ≤ 0 →
          ∀ k, k ≤ ⌊(1 : ℝ) / 0.01⌋₊ → p.interestRateValues[k]? = some 0 →
            ∀ j, k ≤ j → j ≤ ⌊(1 : ℝ) / 0.01⌋₊ →
              p.interestRateValues[j]? = some (0 : ℝ)) :=
  have h1 : (0 : ℝ) < 0.01 := by norm_num
  have h2 : (0 : ℝ) ≤ 1 := by norm_num
  have h3 : ⌊(1 : ℝ) / 0.01⌋₊ < 2147483647 := by rw [floor_one_div_hundredth]; norm_num
  ⟨⟨Real.sqrt_zero, h1, h2, h3⟩,
    cir_next_state_from_zero _ (fun _ => -200) 0.1 0.2 0.02 0.05 1 0.01 Real.sqrt_zero
      roundedDivision_div h1 h2 h3⟩

end CirBoundary

end InterestRateModels
